import Mathlib

/-!
Verification development for the MSO dynamic schema-driven model engine
(`MSO/base_model.py`): a shallow embedding of `MongoModel` and
`ListFieldWrapper` over an explicit heap of objects, together with proofs
about attribute access, validation, dirty propagation, criteria-based
removal and plain-map serialization.

Modelling conventions:
 * Python runtime values are the inductive `HVal`; `MongoModel` instances
   and `ListFieldWrapper` containers live in an explicit `Heap` and are
   referred to by `HVal.vref` ids, so object identity and aliasing are
   modelled faithfully.
 * `float`, `datetime`, `ObjectId`, `bytes` and `Decimal` payloads are
   modelled opaquely (an `Int`, `String` or byte list payload); no claim
   depends on their arithmetic.
 * Python `==` is modelled by `pyEq`.  Numeric cross-kind equality
   (`True == 1`, `Decimal` vs `int`) and unordered dict equality are
   modelled; `ListFieldWrapper` containers are compared by identity here
   (CPython would compare them element-wise as lists; no claim compares
   two distinct containers for equality, and CPython's element comparison
   itself short-circuits on identity).
 * Unbounded recursion (through the heap, or through nested construction)
   is made total with a fuel parameter; `none` means the corresponding
   Python call would not have returned (only reachable through cyclic
   structures that none of the claims' inputs contain).
 * The model generator (`mso/generator.py`, not part of the verified core)
   is modelled by a class environment `Env` giving, per generated class,
   its parsed schema `properties`, plus the attribute wiring the core
   reads back with `getattr`: `__class_for__<name>`, `<name>_item`, and
   the nested-class attribute consulted by `__getattr__`.
-/

/-- Python runtime values as stored in `_data` maps, wrapper item lists and
plain documents.  `vref` is a reference into the heap (a `MongoModel`
instance or a `ListFieldWrapper`). -/
inductive HVal : Type where
  | vnone : HVal
  | vbool : Bool → HVal
  | vint : Int → HVal
  | vstr : String → HVal
  | vfloat : Int → HVal
  | vdate : Int → HVal
  | vobjid : String → HVal
  | vbytes : List Nat → HVal
  | vdec : Int → HVal
  | vlist : List HVal → HVal
  | vdict : List (String × HVal) → HVal
  | vref : Nat → HVal

/-- Python exceptions raised by the modelled code, by kind and offending
field (messages are not modelled). -/
inductive PyErr : Type where
  | attributeError : String → String → PyErr
  | typeError : String → PyErr
  | valueError : String → PyErr
  | indexError : String → PyErr
  deriving DecidableEq, Repr

/-- A `bsonType`/`type` schema entry: either a single type name or a list
of type names. -/
inductive BsonTypeDecl : Type where
  | single : String → BsonTypeDecl
  | multi : List String → BsonTypeDecl
  deriving DecidableEq, Repr

/-- One field's parsed JSON-schema fragment: the `bsonType` and `type`
keys, the optional `enum` list, and the optional `items` sub-schema. -/
inductive FieldSchema : Type where
  | mk : Option BsonTypeDecl → Option BsonTypeDecl → Option (List HVal) →
      Option FieldSchema → FieldSchema

def FieldSchema.bsonType : FieldSchema → Option BsonTypeDecl
  | .mk b _ _ _ => b

def FieldSchema.typeKey : FieldSchema → Option BsonTypeDecl
  | .mk _ t _ _ => t

def FieldSchema.enum : FieldSchema → Option (List HVal)
  | .mk _ _ e _ => e

def FieldSchema.items : FieldSchema → Option FieldSchema
  | .mk _ _ _ i => i

/-- The empty field schema (`{}`), used when a field is absent from
`properties`. -/
def emptyFS : FieldSchema := .mk none none none none

/-- Python truthiness of a `bsonType` value: `""` and `[]` are falsy. -/
def tdTruthy : BsonTypeDecl → Bool
  | .single s => s != ""
  | .multi l => !l.isEmpty

/-- Value of `field_schema.get("bsonType") or field_schema.get("type")`. -/
def FieldSchema.effType (fs : FieldSchema) : Option BsonTypeDecl :=
  match fs.bsonType with
  | some d => if tdTruthy d then some d else fs.typeKey
  | none => fs.typeKey

/-- State of one `MongoModel` instance: its class name, the `_data` field
map (insertion ordered), and the `_parent`/`_parent_key` back-references. -/
structure NodeState : Type where
  cls : String
  data : List (String × HVal)
  parent : Option Nat
  parentKey : Option String

/-- State of one `ListFieldWrapper`: `_parent`, `_field_name`,
`_item_class` and the underlying list of items. -/
structure WrapState : Type where
  parent : Nat
  fieldName : String
  itemCls : String
  items : List HVal

/-- A heap object: a `MongoModel` instance or a `ListFieldWrapper`. -/
inductive HObj : Type where
  | node : NodeState → HObj
  | wrap : WrapState → HObj

/-- The heap: objects indexed by allocation order. -/
abbrev Heap := List HObj

def Heap.get (h : Heap) (i : Nat) : Option HObj := List.get? h i

def Heap.setObj (h : Heap) (i : Nat) (o : HObj) : Heap := List.set h i o

/-- Per-class wiring produced by the model generator: the parsed schema
`properties`, the `__class_for__<name>` attributes, the `<name>_item`
attributes, and the nested-class attributes `getattr(cls, name)` resolves
(always `MongoModel` subclasses). -/
structure ModelClass : Type where
  props : List (String × FieldSchema)
  classFor : List (String × String)
  itemCls : List (String × String)
  nestedAttr : List (String × String)

/-- The class environment: class name to generated class wiring. -/
abbrev Env := List (String × ModelClass)

/-- Association-list lookup with string keys (Python `dict` lookup). -/
def alGet {α : Type} (l : List (String × α)) (k : String) : Option α :=
  match l with
  | [] => none
  | (k', v) :: rest => if k' = k then some v else alGet rest k

/-- Association-list update (Python `d[k] = v`): replaces in place when
the key is present (keeping its position), appends otherwise. -/
def alSet {α : Type} (l : List (String × α)) (k : String) (v : α) :
    List (String × α) :=
  match l with
  | [] => [(k, v)]
  | (k', v') :: rest =>
      if k' = k then (k', v) :: rest else (k', v') :: alSet rest k v

def envCls (env : Env) (c : String) : Option ModelClass := alGet env c

/-- Value of `self._schema.get("properties", {})` for class `c`. -/
def envProps (env : Env) (c : String) : List (String × FieldSchema) :=
  match envCls env c with
  | some m => m.props
  | none => []

/-- Value of `getattr(self.__class__, "__class_for__" + name, None)`. -/
def envClassFor (env : Env) (c name : String) : Option String :=
  match envCls env c with
  | some m => alGet m.classFor name
  | none => none

/-- Value of `getattr(self.__class__, name + "_item", None)`. -/
def envItemCls (env : Env) (c name : String) : Option String :=
  match envCls env c with
  | some m => alGet m.itemCls name
  | none => none

/-- Value of `getattr(self.__class__, name, None)` when it is a
`MongoModel` subclass (the nested-class attribute wiring). -/
def envNestedAttr (env : Env) (c name : String) : Option String :=
  match envCls env c with
  | some m => alGet m.nestedAttr name
  | none => none

def nodeOf (h : Heap) (i : Nat) : Option NodeState :=
  match h.get i with
  | some (.node st) => some st
  | _ => none

def wrapOf (h : Heap) (i : Nat) : Option WrapState :=
  match h.get i with
  | some (.wrap w) => some w
  | _ => none

/-- Numeric value of a Python number for `==` purposes (`bool` counts as
`0`/`1`, integral floats and `Decimal` compare with `int`). -/
def pyNum : HVal → Option Int
  | .vbool b => some (if b then 1 else 0)
  | .vint n => some n
  | .vfloat n => some n
  | .vdec n => some n
  | _ => none

/-- Keys of an association list. -/
def alKeys {α : Type} (l : List (String × α)) : List String :=
  l.map Prod.fst

/-- Boolean key-uniqueness check. -/
def strNodup : List String → Bool
  | [] => true
  | k :: rest => !(rest.contains k) && strNodup rest

mutual

/-- Python `==` on modelled values.  Numbers compare by numeric value,
dicts compare unordered (guarded by key uniqueness, which every real
Python dict has), lists element-wise, heap references by identity. -/
def pyEq : HVal → HVal → Bool
  | .vnone, .vnone => true
  | .vstr a, .vstr b => a == b
  | .vdate a, .vdate b => a == b
  | .vobjid a, .vobjid b => a == b
  | .vbytes a, .vbytes b => a == b
  | .vref a, .vref b => a == b
  | .vlist a, .vlist b => pyEqList a b
  | .vdict a, .vdict b =>
      strNodup (alKeys a) && strNodup (alKeys b) &&
        a.length == b.length && pyEqEntries a b
  | a, b =>
      match pyNum a, pyNum b with
      | some x, some y => x == y
      | _, _ => false

/-- Element-wise Python `==` on lists. -/
def pyEqList : List HVal → List HVal → Bool
  | [], [] => true
  | a :: as_, b :: bs => pyEq a b && pyEqList as_ bs
  | _, _ => false

/-- Containment of dict entries: every entry of `a` is matched by key in
`b` with a `pyEq`-equal value. -/
def pyEqEntries : List (String × HVal) → List (String × HVal) → Bool
  | [], _ => true
  | (k, v) :: rest, b =>
      (match alGet b k with
       | some w => pyEq v w
       | none => false) && pyEqEntries rest b

end

mutual

/-- Unfolding of `ListFieldWrapper` references into their item lists, the
comparison view CPython's `list.__eq__` takes of a list subclass.  The
fuel bounds the chain of wrapper dereferences; every wrapper chain the
API can build is acyclic and fully unfolds under any fuel at least the
heap size plus the value size (a self-referential container would be a
`RecursionError` in CPython and cannot be constructed through the model
API, which only stores wrappers in node slots). -/
def unwrapV (h : Heap) : Nat → HVal → HVal
  | 0, v => v
  | f+1, v =>
      match v with
      | .vref j =>
          (match h.get j with
           | some (.wrap w) => .vlist (unwrapVList h f w.items)
           | _ => .vref j)
      | .vlist xs => .vlist (unwrapVList h f xs)
      | .vdict kvs => .vdict (unwrapVEntries h f kvs)
      | v => v

def unwrapVList (h : Heap) : Nat → List HVal → List HVal
  | 0, xs => xs
  | _+1, [] => []
  | f+1, x :: rest => unwrapV h f x :: unwrapVList h f rest

def unwrapVEntries (h : Heap) :
    Nat → List (String × HVal) → List (String × HVal)
  | 0, kvs => kvs
  | _+1, [] => []
  | f+1, (k, v) :: rest => (k, unwrapV h f v) :: unwrapVEntries h f rest

end

mutual

/-- Structural size of a value (an executable `sizeOf`). -/
def hvalSize : HVal → Nat
  | .vlist xs => 1 + hvalListSize xs
  | .vdict kvs => 1 + hvalEntriesSize kvs
  | _ => 1

def hvalListSize : List HVal → Nat
  | [] => 1
  | x :: rest => 1 + hvalSize x + hvalListSize rest

def hvalEntriesSize : List (String × HVal) → Nat
  | [] => 1
  | (_, v) :: rest => 1 + hvalSize v + hvalEntriesSize rest

end

/-- Total structural size of a heap's contents, the fuel budget that
fully unfolds every acyclic wrapper chain. -/
def heapSize (h : Heap) : Nat :=
  h.foldr
    (fun o acc =>
      acc + 1 +
        (match o with
         | .node st => hvalEntriesSize st.data
         | .wrap w => hvalListSize w.items))
    1

/-- Python `==` on modelled values in heap `h`: wrapper references
compare as the lists they subclass (element-wise), everything else as
`pyEq`.  This is the comparison the criteria probes and `list.remove`
perform. -/
def pyEqH (h : Heap) (a b : HVal) : Bool :=
  pyEq (unwrapV h (heapSize h + hvalSize a) a)
    (unwrapV h (heapSize h + hvalSize b) b)

/-- Python `x in l` over a list, as used for enum membership. -/
def pyIn (v : HVal) (l : List HVal) : Bool := l.any (fun e => pyEq e v)

/-- Host value kinds appearing in `BSON_TYPE_MAP` (Python classes). -/
inductive PyClass : Type where
  | pcStr | pcInt | pcBool | pcFloat | pcDatetime | pcObjectId
  | pcBytes | pcDecimal | pcNoneType | pcDict | pcList | pcObject
  deriving DecidableEq, Repr

/-- Python `isinstance` against the mapped host kinds.  `bool` is a
subclass of `int`; a `ListFieldWrapper` is a `list`; everything is an
`object`. -/
def isinst (h : Heap) : HVal → PyClass → Bool
  | _, .pcObject => true
  | .vstr _, .pcStr => true
  | .vint _, .pcInt => true
  | .vbool _, .pcInt => true
  | .vbool _, .pcBool => true
  | .vfloat _, .pcFloat => true
  | .vdate _, .pcDatetime => true
  | .vobjid _, .pcObjectId => true
  | .vbytes _, .pcBytes => true
  | .vdec _, .pcDecimal => true
  | .vnone, .pcNoneType => true
  | .vdict _, .pcDict => true
  | .vlist _, .pcList => true
  | .vref i, .pcList =>
      match h.get i with
      | some (.wrap _) => true
      | _ => false
  | _, _ => false

/-- `isinstance(v, MongoModel)`: a reference to a node object. -/
def isModelInst (h : Heap) (v : HVal) : Bool :=
  match v with
  | .vref i =>
      match h.get i with
      | some (.node _) => true
      | _ => false
  | _ => false

/-- `isinstance(v, C)` for a generated model class `C` (generated classes
only subclass `MongoModel`, never each other). -/
def isInstOfCls (h : Heap) (v : HVal) (c : String) : Bool :=
  match v with
  | .vref i =>
      match nodeOf h i with
      | some st => st.cls == c
      | none => false
  | _ => false

/-- The `BSON_TYPE_MAP` table of `base_model.py`. -/
def BSON_TYPE_MAP : List (String × PyClass) :=
  [("string", .pcStr), ("int", .pcInt), ("bool", .pcBool),
   ("double", .pcFloat), ("date", .pcDatetime), ("objectId", .pcObjectId),
   ("binData", .pcBytes), ("decimal", .pcDecimal), ("long", .pcInt),
   ("timestamp", .pcDatetime), ("null", .pcNoneType), ("object", .pcDict),
   ("array", .pcList)]

/-- `BSON_TYPE_MAP.get(t, object)`. -/
def bsonMapGet (t : String) : PyClass :=
  match alGet BSON_TYPE_MAP t with
  | some c => c
  | none => .pcObject

/-- `t in BSON_TYPE_MAP`. -/
def bsonMapHas (t : String) : Bool := (alGet BSON_TYPE_MAP t).isSome

def HVal.isNone : HVal → Bool
  | .vnone => true
  | _ => false

/-- Iteration over a Python `list` value: a literal list's elements, or a
`ListFieldWrapper`'s items. -/
def iterItems (h : Heap) (v : HVal) : List HVal :=
  match v with
  | .vlist xs => xs
  | .vref i =>
      match wrapOf h i with
      | some w => w.items
      | none => []
  | _ => []

/-- The enum loop of `_validate_field_type` over a sequence value. -/
def enumCheckList (name : String) (es : List HVal) : List HVal → Except PyErr Unit
  | [] => .ok ()
  | item :: rest =>
      if !(pyIn item es) then .error (.valueError name)
      else enumCheckList name es rest

/-- Structural `name.startswith("_")` (first character is an underscore);
`String.startsWith` itself is defined by well-founded recursion and would
block kernel evaluation. -/
def underscoreFirst (s : String) : Bool :=
  match s.data with
  | [] => false
  | c :: _ => c == '_'

/-- One iteration of the array-item loop of `_validate_field_type`:
scalar enum membership, skip for wired item-class instances, then the
host-kind check (`BSON_TYPE_MAP.get(item_type, object)`; a list-valued
`item_type` is an unhashable dict key and raises `TypeError`). -/
def validateOneItem (h : Heap) (name : String)
    (itemEnum : Option (List HVal)) (itemType : Option BsonTypeDecl)
    (itemClassO : Option String) (item : HVal) : Except PyErr Unit := do
  let enumTruthy :=
    match itemEnum with
    | some l => !l.isEmpty
    | none => false
  if enumTruthy && !(isinst h item .pcDict) && !(isModelInst h item) then
    if !(pyIn item (itemEnum.getD [])) then throw (.valueError name)
  let skip :=
    match itemClassO with
    | some c => isInstOfCls h item c
    | none => false
  if !skip then
    match itemType with
    | some (.multi _) => throw (.typeError name)
    | some (.single t) =>
        if !(isinst h item (bsonMapGet t)) then throw (.typeError name)
    | none =>
        if !(isinst h item .pcObject) then throw (.typeError name)

/-- The array-item loop of `_validate_field_type`. -/
def validateItemsLoop (env : Env) (h : Heap) (name : String)
    (itemEnum : Option (List HVal)) (itemType : Option BsonTypeDecl)
    (itemClassO : Option String) : List HVal → Except PyErr Unit
  | [] => .ok ()
  | item :: rest => do
      match validateOneItem h name itemEnum itemType itemClassO item with
      | .error e => throw e
      | .ok _ => pure ()
      validateItemsLoop env h name itemEnum itemType itemClassO rest

/-- `MongoModel._validate_field_type`: enum check (skipped for `None`
values), early return without a truthy `bsonType` or for `None`, then
object / array / scalar host-kind checks. -/
def validate_field_type (env : Env) (h : Heap) (cls name : String)
    (value : HVal) : Except PyErr Unit := do
  if underscoreFirst name then return ()
  let fs := (alGet (envProps env cls) name).getD emptyFS
  let bsonType := fs.effType
  let enumVals := fs.enum
  match enumVals with
  | some es =>
      if !value.isNone then
        if isinst h value .pcList then
          match enumCheckList name es (iterItems h value) with
          | .error e => throw e
          | .ok _ => pure ()
        else
          if !(pyIn value es) then throw (.valueError name)
  | none => pure ()
  let btTruthy :=
    match bsonType with
    | some d => tdTruthy d
    | none => false
  if !btTruthy || value.isNone then return ()
  let expectedTypes : List PyClass :=
    match bsonType with
    | some (.multi ts) => (ts.filter bsonMapHas).map bsonMapGet
    | some (.single t) => [bsonMapGet t]
    | none => []
  if bsonType = some (.single "object") then
    match envClassFor env cls name with
    | some c => if isInstOfCls h value c then return ()
    | none => pure ()
  if bsonType = some (.single "array") then
    if !(isinst h value .pcList) then throw (.typeError name)
    let ischema := fs.items.getD emptyFS
    match validateItemsLoop env h name ischema.enum ischema.effType
        (envItemCls env cls name) (iterItems h value) with
    | .error e => throw e
    | .ok _ => return ()
  else
    if !(expectedTypes.any (fun t => isinst h value t)) then
      throw (.typeError name)

/-- Update of one node's `_data` entry (`self._data[k] = v`). -/
def writeField (h : Heap) (i : Nat) (k : String) (v : HVal) : Heap :=
  match nodeOf h i with
  | some st => h.setObj i (.node {st with data := alSet st.data k v})
  | none => h

/-- The reserved instance-slot names of `__setattr__`. -/
def reservedName (n : String) : Bool :=
  ["_schema", "_collection_name", "_db_name", "_db", "_data", "_parent",
   "_parent_key"].contains n

/-- Reserved-name assignment (`super().__setattr__`): updates the modelled
instance slots; `_schema`/`_collection_name`/`_db_name`/`_db` slots are
never read back by the modelled core and are dropped. -/
def setReserved (h : Heap) (id : Nat) (name : String) (v : HVal) : Heap :=
  match nodeOf h id with
  | none => h
  | some st =>
      if name = "_parent" then
        match v with
        | .vref p => h.setObj id (.node {st with parent := some p})
        | .vnone => h.setObj id (.node {st with parent := none})
        | _ => h
      else if name = "_parent_key" then
        match v with
        | .vstr k => h.setObj id (.node {st with parentKey := some k})
        | .vnone => h.setObj id (.node {st with parentKey := none})
        | _ => h
      else if name = "_data" then
        match v with
        | .vdict d => h.setObj id (.node {st with data := d})
        | _ => h
      else h

/-- Assignment `j._parent = id; j._parent_key = name` for a node `j`. -/
def stampOne (h : Heap) (j : Nat) (id : Nat) (name : String) : Heap :=
  match nodeOf h j with
  | some st =>
      h.setObj j (.node {st with parent := some id, parentKey := some name})
  | none => h

/-- The parent-stamping loop of `__setattr__` over a list value's items
(only `MongoModel` items are stamped). -/
def stampList (h : Heap) (items : List HVal) (id : Nat) (name : String) :
    Heap :=
  match items with
  | [] => h
  | v :: rest =>
      let h1 :=
        match v with
        | .vref j => if (nodeOf h j).isSome then stampOne h j id name else h
        | _ => h
      stampList h1 rest id name

/-- Parent-context tracking of `__setattr__`: a `MongoModel` value is
stamped directly, a list value (including a wrapper) has its `MongoModel`
items stamped. -/
def stampParent (h : Heap) (v : HVal) (id : Nat) (name : String) : Heap :=
  match v with
  | .vref j =>
      match h.get j with
      | some (.node _) => stampOne h j id name
      | some (.wrap w) => stampList h w.items id name
      | none => h
  | .vlist xs => stampList h xs id name
  | _ => h

/-- `MongoModel._mark_dirty` with a fuel bound on the parent chain:
stops at a parentless node or at a parent slot holding a list (array
container); otherwise rewrites the parent slot to `self` and recurses. -/
def mark_dirty : Nat → Heap → Nat → Option Heap
  | 0, _, _ => none
  | f+1, h, id =>
      match nodeOf h id with
      | none => some h
      | some st =>
          match st.parent, st.parentKey with
          | some p, some k =>
              match nodeOf h p with
              | some pst =>
                  match alGet pst.data k with
                  | some sv =>
                      if isinst h sv .pcList then some h
                      else mark_dirty f (writeField h p k (.vref id)) p
                  | none => mark_dirty f (writeField h p k (.vref id)) p
              | none => some h
          | _, _ => some h

/-- `MongoModel.__getattr__`: stored values are returned (with a parent
refresh for node values), otherwise a schema-declared nested object or
array field is auto-vivified and stored, otherwise a declared scalar field
is stored as `None`, otherwise `AttributeError`. -/
def getattrM (env : Env) (h : Heap) (id : Nat) (name : String) :
    Heap × Except PyErr HVal :=
  match nodeOf h id with
  | none => (h, .error (.attributeError "" name))
  | some st =>
      match alGet st.data name with
      | some val =>
          match val with
          | .vref j =>
              match nodeOf h j with
              | some _ => (stampOne h j id name, .ok val)
              | none => (h, .ok val)
          | _ => (h, .ok val)
      | none =>
          match envNestedAttr env st.cls name with
          | some c =>
              let n := h.length
              let h1 := h ++ [HObj.node ⟨c, [], some id, some name⟩]
              (writeField h1 id name (.vref n), .ok (.vref n))
          | none =>
              match alGet (envProps env st.cls) name with
              | some fs =>
                  if fs.effType = some (.single "array") then
                    match envItemCls env st.cls name with
                    | some ic =>
                        let w := h.length
                        let h1 := h ++ [HObj.wrap ⟨id, name, ic, []⟩]
                        (writeField h1 id name (.vref w), .ok (.vref w))
                    | none =>
                        (writeField h id name (.vlist []), .ok (.vlist []))
                  else
                    (writeField h id name .vnone, .ok .vnone)
              | none => (h, .error (.attributeError st.cls name))

/-- `getattr(obj, name, None)`: attribute read with a `None` default on
`AttributeError` (the criteria probe of the removal methods). -/
def getattrDef (env : Env) (h : Heap) (id : Nat) (name : String) :
    Heap × HVal :=
  match getattrM env h id name with
  | (h', .ok v) => (h', v)
  | (h', .error _) => (h', .vnone)

/-- Sequencing for heap-threading computations that can raise. -/
def steBind {α β : Type}
    (x : Option (Heap × Except PyErr α))
    (fn : Heap → α → Option (Heap × Except PyErr β)) :
    Option (Heap × Except PyErr β) :=
  match x with
  | none => none
  | some (h, .error e) => some (h, .error e)
  | some (h, .ok a) => fn h a

/-- Collapse of a raw `bsonType` value for the string comparisons of
`_deserialize_field`: a list collapses to its first non-`"null"` member. -/
def collapseBT : Option BsonTypeDecl → Option String
  | some (.single t) => some t
  | some (.multi ts) => ts.find? (fun t => t != "null")
  | none => none

/-- Branch selection of `_deserialize_field`: convert a dict into the
wired nested class, convert an array-of-objects list element-wise, or keep
the value unchanged. -/
inductive DeseAct : Type where
  | convObj : String → List (String × HVal) → DeseAct
  | convArr : String → List HVal → DeseAct
  | keep : DeseAct

/-- The guard structure of `_deserialize_field` (faithful to the source:
the object conversion needs `bson_type == "object"`, a wired
`__class_for__` class and a dict value; the array conversion needs
`bson_type == "array"`, an `items` sub-schema with collapsed item type
`"object"`, a wired `<name>_item` class and a list value). -/
def deseAction (env : Env) (h : Heap) (cls name : String) (value : HVal) :
    DeseAct :=
  let fs := (alGet (envProps env cls) name).getD emptyFS
  let btS := collapseBT fs.effType
  let arrAct : DeseAct :=
    match fs.items, envItemCls env cls name with
    | some ischema, some ic =>
        if (btS == some "array") &&
            (collapseBT ischema.effType == some "object") &&
            isinst h value .pcList then
          .convArr ic (iterItems h value)
        else .keep
    | _, _ => .keep
  match envClassFor env cls name, value with
  | some c, .vdict kvs => if btS = some "object" then .convObj c kvs else arrAct
  | _, _ => arrAct

mutual

/-- `MongoModel._deserialize_field`: a dict assigned to an `object` field
with a wired nested class becomes an instance of that class; a list
assigned to an `array` field whose items are wired objects has its dict
elements converted; anything else passes through. -/
def deserialize_field (env : Env) :
    Nat → Heap → String → String → HVal →
    Option (Heap × Except PyErr HVal)
  | 0, _, _, _, _ => none
  | f+1, h, cls, name, value =>
      match deseAction env h cls name value with
      | .convObj c kvs =>
          steBind (model_init env f h c kvs)
            (fun h1 nid => some (h1, .ok (.vref nid)))
      | .convArr ic items =>
          steBind (deserialize_items env f h ic items)
            (fun h1 vs => some (h1, .ok (.vlist vs)))
      | .keep => some (h, .ok value)

/-- The element conversion `[item_class(**v) if isinstance(v, dict) else v
for v in value]`. -/
def deserialize_items (env : Env) :
    Nat → Heap → String → List HVal →
    Option (Heap × Except PyErr (List HVal))
  | 0, _, _, _ => none
  | _+1, h, _, [] => some (h, .ok [])
  | f+1, h, ic, v :: rest =>
      let conv : Option (Heap × Except PyErr HVal) :=
        match v with
        | .vdict kvs =>
            steBind (model_init env f h ic kvs)
              (fun h1 nid => some (h1, .ok (.vref nid)))
        | _ => some (h, .ok v)
      steBind conv (fun h1 v' =>
        steBind (deserialize_items env f h1 ic rest)
          (fun h2 vs => some (h2, .ok (v' :: vs))))

/-- `MongoModel.__init__` (+ `from_dict`): allocate a fresh parentless
instance and assign every keyword pair through `__setattr__`. -/
def model_init (env : Env) :
    Nat → Heap → String → List (String × HVal) →
    Option (Heap × Except PyErr Nat)
  | 0, _, _, _ => none
  | f+1, h, cls, kwargs =>
      let id := h.length
      let h1 := h ++ [HObj.node ⟨cls, [], none, none⟩]
      steBind (setattr_kwargs env f h1 id kwargs)
        (fun h2 _ => some (h2, .ok id))

/-- The `for key, value in kwargs.items(): setattr(self, key, value)`
loop. -/
def setattr_kwargs (env : Env) :
    Nat → Heap → Nat → List (String × HVal) →
    Option (Heap × Except PyErr Unit)
  | 0, _, _, _ => none
  | _+1, h, _, [] => some (h, .ok ())
  | f+1, h, id, (k, v) :: rest =>
      steBind (setattrM env f h id k v)
        (fun h1 _ => setattr_kwargs env f h1 id rest)

/-- `MongoModel.__setattr__`: reserved slots bypass everything; other
names are deserialized, validated, parent-stamped, stored, and dirty
propagation fires. -/
def setattrM (env : Env) :
    Nat → Heap → Nat → String → HVal →
    Option (Heap × Except PyErr Unit)
  | 0, _, _, _, _ => none
  | f+1, h, id, name, value =>
      if reservedName name then some (setReserved h id name value, .ok ())
      else
        let cls :=
          match nodeOf h id with
          | some st => st.cls
          | none => ""
        steBind (deserialize_field env f h cls name value) (fun h1 dv =>
          match validate_field_type env h1 cls name dv with
          | .error e => some (h1, .error e)
          | .ok _ =>
              let h2 := stampParent h1 dv id name
              let h3 := writeField h2 id name dv
              match mark_dirty f h3 id with
              | some h4 => some (h4, .ok ())
              | none => none)

end

/-- `MongoModel.from_dict`: `cls()` followed by `setattr` per entry —
exactly the constructor loop. -/
def from_dict (env : Env) (f : Nat) (h : Heap) (cls : String)
    (d : List (String × HVal)) : Option (Heap × Except PyErr Nat) :=
  model_init env f h cls d

mutual

/-- `MongoModel.to_dict` / `_serialize_data`: serialize every `_data`
entry (fuel bounds the call depth; every recursive call decrements it so
the definitions evaluate structurally). -/
def to_dict : Nat → Heap → Nat → Option (List (String × HVal))
  | 0, _, _ => none
  | f+1, h, id =>
      match nodeOf h id with
      | none => none
      | some st => serializeEntries f h st.data

/-- Entry loop of `_serialize_data`. -/
def serializeEntries : Nat → Heap → List (String × HVal) →
    Option (List (String × HVal))
  | 0, _, _ => none
  | _+1, _, [] => some []
  | f+1, h, (k, v) :: rest =>
      match serializeVal f h v with
      | some sv =>
          match serializeEntries f h rest with
          | some out => some ((k, sv) :: out)
          | none => none
      | none => none

/-- Serialization of one stored value: nested node → its dict, wrapper →
`to_serializable`, plain list → the same comprehension, else verbatim. -/
def serializeVal : Nat → Heap → HVal → Option HVal
  | 0, _, _ => none
  | f+1, h, v =>
      match v with
      | .vref j =>
          (match h.get j with
           | some (.node _) =>
               (match to_dict f h j with
                | some d => some (.vdict d)
                | none => none)
           | some (.wrap w) =>
               (match serializeItems f h w.items with
                | some xs => some (.vlist xs)
                | none => none)
           | none => none)
      | .vlist xs =>
          (match serializeItems f h xs with
           | some ys => some (.vlist ys)
           | none => none)
      | _ => some v

/-- `[item.to_dict() if isinstance(item, MongoModel) else item for item in
items]` (used both by `ListFieldWrapper.to_serializable` and the plain
list branch of `_serialize_data`). -/
def serializeItems : Nat → Heap → List HVal → Option (List HVal)
  | 0, _, _ => none
  | _+1, _, [] => some []
  | f+1, h, (.vref j) :: rest =>
      (match h.get j with
       | some (.node _) =>
           (match to_dict f h j with
            | some d =>
                (match serializeItems f h rest with
                 | some out => some (.vdict d :: out)
                 | none => none)
            | none => none)
       | _ =>
           (match serializeItems f h rest with
            | some out => some (.vref j :: out)
            | none => none))
  | f+1, h, v :: rest =>
      (match serializeItems f h rest with
       | some out => some (v :: out)
       | none => none)

end

/-- Items of wrapper `w` (the live list). -/
def itemsOfW (h : Heap) (w : Nat) : List HVal :=
  match wrapOf h w with
  | some ws => ws.items
  | none => []

/-- Replacement of wrapper `w`'s item list. -/
def setWrapItems (h : Heap) (w : Nat) (items : List HVal) : Heap :=
  match wrapOf h w with
  | some ws => h.setObj w (.wrap {ws with items := items})
  | none => h

/-- The criteria probe `all(getattr(item, k, None) == v for k, v in
criteria.items())` on a `MongoModel` item: short-circuiting, and each
probe may mutate the heap (auto-vivification on read). -/
def checkCriteriaNode (env : Env) (i : Nat) :
    Heap → List (String × HVal) → Heap × Bool
  | h, [] => (h, true)
  | h, (k, vc) :: rest =>
      let p := getattrDef env h i k
      if pyEqH p.1 p.2 vc then checkCriteriaNode env i p.1 rest
      else (p.1, false)

/-- The criteria probe `all(item.get(k) == v for k, v in criteria.items())`
on a plain-dict item. -/
def matchDictH (h : Heap) (d : List (String × HVal))
    (criteria : List (String × HVal)) : Bool :=
  criteria.all (fun kv => pyEqH h ((alGet d kv.1).getD .vnone) kv.2)

/-- Specification-side dict matching over reference-free plain maps
(where `==` needs no heap). -/
def matchDict (d : List (String × HVal)) (criteria : List (String × HVal)) :
    Bool :=
  criteria.all (fun kv => pyEq ((alGet d kv.1).getD .vnone) kv.2)

/-- `list.remove(x)`: drop the first element `==` to `x`; `none` models the
`ValueError` when nothing matches (unreachable here, since the removed
element always comes from the list). -/
def removeFirstEqH (h : Heap) (x : HVal) :
    List HVal → Option (List HVal)
  | [] => none
  | y :: rest =>
      if pyEqH h y x then some rest
      else (removeFirstEqH h x rest).map (fun l => y :: l)

/-- Specification-side first-occurrence removal over admissible items
(where `==` needs no heap). -/
def removeFirstEq (x : HVal) : List HVal → Option (List HVal)
  | [] => none
  | y :: rest =>
      if pyEq y x then some rest
      else (removeFirstEq x rest).map (fun l => y :: l)

/-- Scan loop of `ListFieldWrapper.remove_by` over the snapshot of the
item list: the first matching `MongoModel` or dict item is removed from
the live list and `True` is returned. -/
def remove_by_go (env : Env) (w : Nat) (criteria : List (String × HVal)) :
    Heap → List HVal → Heap × Except PyErr Bool
  | h, [] => (h, .ok false)
  | h, item :: rest =>
      match item with
      | .vref i =>
          (match h.get i with
           | some (.node _) =>
               let p := checkCriteriaNode env i h criteria
               if p.2 then
                 match removeFirstEqH p.1 item (itemsOfW p.1 w) with
                 | some items' => (setWrapItems p.1 w items', .ok true)
                 | none => (p.1, .error (.valueError "remove"))
               else remove_by_go env w criteria p.1 rest
           | _ => remove_by_go env w criteria h rest)
      | .vdict d =>
          if matchDictH h d criteria then
            match removeFirstEqH h item (itemsOfW h w) with
            | some items' => (setWrapItems h w items', .ok true)
            | none => (h, .error (.valueError "remove"))
          else remove_by_go env w criteria h rest
      | _ => remove_by_go env w criteria h rest

/-- `ListFieldWrapper.remove_by`. -/
def remove_by (env : Env) (h : Heap) (w : Nat)
    (criteria : List (String × HVal)) : Heap × Except PyErr Bool :=
  remove_by_go env w criteria h (itemsOfW h w)

/-- Collection phase of `remove_all_by`: every matching item, in scan
order (criteria probes may mutate the heap). -/
def collectMatches (env : Env) (criteria : List (String × HVal)) :
    Heap → List HVal → Heap × List HVal
  | h, [] => (h, [])
  | h, item :: rest =>
      match item with
      | .vref i =>
          (match h.get i with
           | some (.node _) =>
               let p := checkCriteriaNode env i h criteria
               let q := collectMatches env criteria p.1 rest
               (q.1, if p.2 then item :: q.2 else q.2)
           | _ => collectMatches env criteria h rest)
      | .vdict d =>
          let q := collectMatches env criteria h rest
          (q.1, if matchDictH h d criteria then item :: q.2 else q.2)
      | _ => collectMatches env criteria h rest

/-- Removal phase of `remove_all_by`: `self.remove(item)` per collected
item. -/
def removeEach (w : Nat) :
    Heap → List HVal → Heap × Except PyErr Unit
  | h, [] => (h, .ok ())
  | h, x :: rest =>
      match removeFirstEqH h x (itemsOfW h w) with
      | some items' => removeEach w (setWrapItems h w items') rest
      | none => (h, .error (.valueError "remove"))

/-- `ListFieldWrapper.remove_all_by`: collect all matches, remove each,
return the count collected. -/
def remove_all_by (env : Env) (h : Heap) (w : Nat)
    (criteria : List (String × HVal)) : Heap × Except PyErr Nat :=
  let p := collectMatches env criteria h (itemsOfW h w)
  match removeEach w p.1 p.2 with
  | (h2, .ok _) => (h2, .ok p.2.length)
  | (h2, .error e) => (h2, .error e)

/-- Scalar values: anything that is not a dict, list or heap reference
(deserialization always passes these through unchanged). -/
def isScalarV : HVal → Bool
  | .vdict _ => false
  | .vlist _ => false
  | .vref _ => false
  | _ => true

def HVal.isListLit : HVal → Bool
  | .vlist _ => true
  | _ => false

mutual

/-- Reference-freedom: the value contains no heap references (it is plain
document data). -/
def refFree : HVal → Bool
  | .vref _ => false
  | .vlist xs => refFreeList xs
  | .vdict kvs => refFreeEntries kvs
  | _ => true

def refFreeList : List HVal → Bool
  | [] => true
  | v :: rest => refFree v && refFreeList rest

def refFreeEntries : List (String × HVal) → Bool
  | [] => true
  | (_, v) :: rest => refFree v && refFreeEntries rest

end

mutual

/-- Plain-value well-formedness: every dict inside has unique keys (every
value representable as a real Python object satisfies this). -/
def wfp : HVal → Bool
  | .vlist xs => wfpList xs
  | .vdict kvs => strNodup (alKeys kvs) && wfpEntries kvs
  | _ => true

def wfpList : List HVal → Bool
  | [] => true
  | v :: rest => wfp v && wfpList rest

def wfpEntries : List (String × HVal) → Bool
  | [] => true
  | (_, v) :: rest => wfp v && wfpEntries rest

end

/-- Inertness of a value under `_deserialize_field` for a given field:
neither the nested-object conversion nor the array-item conversion guard
fires, so the value is returned unchanged (heap-independent for
reference-free values). -/
def deseInert (env : Env) (cls name : String) (v : HVal) : Bool :=
  let fs := (alGet (envProps env cls) name).getD emptyFS
  let btS := collapseBT fs.effType
  let objGuard :=
    match envClassFor env cls name, v with
    | some _, .vdict _ => btS == some "object"
    | _, _ => false
  let arrGuard :=
    match fs.items, envItemCls env cls name with
    | some isch, some _ =>
        (btS == some "array") &&
          (collapseBT isch.effType == some "object") && v.isListLit
    | _, _ => false
  !objGuard && !arrGuard

/-- Plain array items: reference-free, well-formed, inside the field-level
enum when one is declared, and passing the per-item validation. -/
def wfPlainItems (env : Env) (h : Heap) (cls name : String)
    (fs : FieldSchema) (items : List HVal) : Bool :=
  let isch := fs.items.getD emptyFS
  let enumOK :=
    match fs.enum with
    | none => true
    | some es => items.all (fun it => pyIn it es)
  enumOK && items.all (fun it =>
    refFree it && wfp it &&
      (match validateOneItem h name isch.enum isch.effType
          (envItemCls env cls name) it with
       | .ok _ => true
       | .error _ => false))

mutual

/-- Well-formed node tree (fuel bounds the recursion, decremented at
every call): the id is a node whose field map has unique, non-reserved
keys, every stored value being well-formed for its field.  This is the
invariant enjoyed by trees built through valid attribute assignments, and
is what the round-trip law is proved over. -/
def wfNode (env : Env) : Nat → Heap → Nat → Bool
  | 0, _, _ => false
  | f+1, h, id =>
      match nodeOf h id with
      | none => false
      | some st =>
          strNodup (alKeys st.data) && wfEntries env f h st.cls st.data

def wfEntries (env : Env) : Nat → Heap → String →
    List (String × HVal) → Bool
  | 0, _, _, _ => false
  | _+1, _, _, [] => true
  | f+1, h, cls, (k, v) :: rest =>
      !(reservedName k) && wfVal env f h cls k v &&
        wfEntries env f h cls rest

/-- Well-formed stored value for field `name` of class `cls`: explicit
null; a nested node of the wired class; an array container or plain list
of well-formed items; or an inert plain value that passes validation. -/
def wfVal (env : Env) : Nat → Heap → String → String → HVal → Bool
  | 0, _, _, _, _ => false
  | f+1, h, cls, name, v =>
      let fs := (alGet (envProps env cls) name).getD emptyFS
      match v with
      | .vnone => true
      | .vref j =>
          (match h.get j with
           | some (.node st) =>
               (fs.effType == some (.single "object")) &&
                 (envClassFor env cls name == some st.cls) &&
                 fs.enum.isNone && wfNode env f h j
           | some (.wrap w) =>
               (fs.effType == some (.single "array")) &&
                 wfArr env f h cls name fs w.items
           | none => false)
      | .vlist xs =>
          (fs.effType == some (.single "array")) &&
            wfArr env f h cls name fs xs
      | _ =>
          refFree v && wfp v && deseInert env cls name v &&
            (match validate_field_type env h cls name v with
             | .ok _ => true
             | .error _ => false)

/-- Well-formed array contents: either the wired object-item case (all
items are nodes of the wired item class, no field-level enum), or plain
reference-free items passing the per-item checks (then re-assignment does
not convert them). -/
def wfArr (env : Env) : Nat → Heap → String → String → FieldSchema →
    List HVal → Bool
  | 0, _, _, _, _, _ => false
  | f+1, h, cls, name, fs, items =>
      match fs.items, envItemCls env cls name with
      | some isch, some ic =>
          if isch.effType == some (.single "object") then
            fs.enum.isNone && wfObjItems env f h ic items
          else
            (collapseBT isch.effType != some "object") &&
              wfPlainItems env h cls name fs items
      | _, _ => wfPlainItems env h cls name fs items

def wfObjItems (env : Env) : Nat → Heap → String → List HVal → Bool
  | 0, _, _, _ => false
  | _+1, _, _, [] => true
  | f+1, h, ic, item :: rest =>
      (match item with
       | .vref j =>
           (match nodeOf h j with
            | some st => (st.cls == ic) && wfNode env f h j
            | none => false)
       | _ => false) && wfObjItems env f h ic rest

end

/-- Comparison form of a stored value: a wrapper reference observably
compares as its item list (a `ListFieldWrapper` is a `list` subclass),
anything else as itself. -/
def obsView (h : Heap) (v : HVal) : HVal :=
  match v with
  | .vref j =>
      (match h.get j with
       | some (.wrap w) => .vlist w.items
       | _ => .vref j)
  | v => v

/-- Observable value of field `k` of node `i` under the criteria probe
`getattr(item, k, None)`, without performing the probe's mutations, in
comparison form: stored wrappers read as their item lists, a vivified
array container as the empty list, and `none` stands for a freshly
vivified nested object (never `==` to a reference-free criteria
value). -/
def readObs (env : Env) (h : Heap) (i : Nat) (k : String) : Option HVal :=
  match nodeOf h i with
  | none => some .vnone
  | some st =>
      match alGet st.data k with
      | some v => some (obsView h v)
      | none =>
          match envNestedAttr env st.cls k with
          | some _ => none
          | none =>
              match alGet (envProps env st.cls) k with
              | some fs =>
                  if fs.effType = some (.single "array") then
                    match envItemCls env st.cls k with
                    | some _ => some (.vlist [])
                    | none => some (.vlist [])
                  else some .vnone
              | none => some .vnone

/-- Specification-side matching predicate (from the spec's words: the
element's "fields equal every criterion key/value pair"): a `MongoModel`
element matches when every criterion equals its observable field value, a
plain dict matches through `get`, anything else never matches. -/
def specMatches (env : Env) (h : Heap) (criteria : List (String × HVal))
    (item : HVal) : Bool :=
  match item with
  | .vref i =>
      (match h.get i with
       | some (.node _) =>
           criteria.all (fun kv =>
             match readObs env h i kv.1 with
             | some v => pyEq v kv.2
             | none => false)
       | _ => false)
  | .vdict d => matchDict d criteria
  | _ => false

/-- Concrete field schemas for a small generated model family (used by the
witnesses below). -/
def fsStr : FieldSchema := .mk (some (.single "string")) none none none

def fsInt : FieldSchema := .mk (some (.single "int")) none none none

def fsLong : FieldSchema := .mk (some (.single "long")) none none none

def fsGender : FieldSchema :=
  .mk none none (some [.vstr "male", .vstr "female"]) none

def fsObj : FieldSchema := .mk (some (.single "object")) none none none

def fsAddrs : FieldSchema :=
  .mk (some (.single "array")) none none
    (some (.mk (some (.single "object")) none none none))

def fsTags : FieldSchema :=
  .mk (some (.single "array")) none none
    (some (.mk (some (.single "string")) none none none))

/-- The `Person` model class: scalars, an enum field, a nested object
field and two array fields. -/
def personCls : ModelClass :=
  { props := [("name", fsStr), ("age", fsInt), ("count", fsLong),
      ("gender", fsGender), ("health", fsObj), ("addresses", fsAddrs),
      ("tags", fsTags)],
    classFor := [("health", "Health")],
    itemCls := [("addresses", "Address")],
    nestedAttr := [("health", "Health")] }

def healthCls : ModelClass :=
  { props := [("status", fsStr), ("physician", fsObj)],
    classFor := [("physician", "Physician")],
    itemCls := [],
    nestedAttr := [("physician", "Physician")] }

def physicianCls : ModelClass :=
  { props := [("name", fsStr)], classFor := [], itemCls := [],
    nestedAttr := [] }

def addressCls : ModelClass :=
  { props := [("kind", fsStr), ("city", fsStr)], classFor := [],
    itemCls := [], nestedAttr := [] }

/-- The generated class environment of the witness model family. -/
def envA : Env :=
  [("Person", personCls), ("Health", healthCls),
   ("Physician", physicianCls), ("Address", addressCls)]

mutual

/-- Plain document data carries no reserved instance-slot names as dict
keys (such keys would be routed to `super().__setattr__` during nested
construction instead of the field map). -/
def noResKeys : HVal → Bool
  | .vdict kvs => noResEntries kvs
  | .vlist xs => noResList xs
  | _ => true

def noResList : List HVal → Bool
  | [] => true
  | v :: rest => noResKeys v && noResList rest

def noResEntries : List (String × HVal) → Bool
  | [] => true
  | (k, v) :: rest => !(reservedName k) && noResKeys v && noResEntries rest

end

/-- Parent-stamping of this value only touches heap objects at ids `≥ M`
(used to show deserialization leaves pre-existing objects untouched). -/
def stampSafe (h : Heap) (M : Nat) : HVal → Prop
  | .vref j => M ≤ j ∧
      (∀ w, wrapOf h j = some w → ∀ i, HVal.vref i ∈ w.items → M ≤ i)
  | .vlist xs => ∀ j, HVal.vref j ∈ xs → M ≤ j
  | _ => True

/-- The concrete container scenario: a `Person` whose `addresses` slot
holds a wrapper with two `Address` elements. -/
def hW : Heap :=
  [HObj.node ⟨"Person", [("addresses", .vref 1)], none, none⟩,
   HObj.wrap ⟨0, "addresses", "Address", [.vref 2, .vref 3]⟩,
   HObj.node ⟨"Address", [("kind", .vstr "home")], some 0,
     some "addresses"⟩,
   HObj.node ⟨"Address", [("kind", .vstr "work")], some 0,
     some "addresses"⟩]

/-- A concrete three-level tree: `Person` → `Health` → `Physician`. -/
def hT : Heap :=
  [HObj.node ⟨"Person", [("health", .vref 1)], none, none⟩,
   HObj.node ⟨"Health", [("physician", .vref 2)], some 0, some "health"⟩,
   HObj.node ⟨"Physician", [], some 1, some "physician"⟩]

/-- A single parentless `Person` node, target of the atomic-write
scenario. -/
def hC4 : Heap := [HObj.node ⟨"Person", [], none, none⟩]

/-- The node state stored in `hC4`. -/
def stC4 : NodeState := ⟨"Person", [], none, none⟩

/-- Admissible container element: a reference must point at a live node
(the wrapper invariant for typed items), a plain dict must have unique
keys at every level (true of every real Python dict); anything else is
unconstrained (such elements never match and never interfere). -/
def itemOkB (h : Heap) : HVal → Bool
  | .vref i =>
      (match h.get i with
       | some (.node _) => true
       | _ => false)
  | v => refFree v && wfp v

/-- Pure view of the removal loop of `remove_all_by`: remove the first
`==`-equal occurrence of each listed element in turn. -/
def removeListEach : List HVal → List HVal → Option (List HVal)
  | [], live => some live
  | c :: cs, live =>
      match removeFirstEq c live with
      | some live2 => removeListEach cs live2
      | none => none

mutual

/-- Deep admissibility of a value for heap-aware comparison: every
reference inside it points at a node (model instances compare by
identity), so the wrapper-unfolding view leaves it unchanged. -/
def deepOkV (h : Heap) : HVal → Bool
  | .vref j =>
      (match h.get j with
       | some (.node _) => true
       | _ => false)
  | .vlist xs => deepOkList h xs
  | .vdict kvs => deepOkEntries h kvs
  | _ => true

def deepOkList (h : Heap) : List HVal → Bool
  | [] => true
  | x :: rest => deepOkV h x && deepOkList h rest

def deepOkEntries (h : Heap) : List (String × HVal) → Bool
  | [] => true
  | (_, v) :: rest => deepOkV h v && deepOkEntries h rest

end

/-- Admissibility of one stored field value: a live top-level reference
(node or wrapper), or plain data whose inner references are nodes. -/
def storedOk (h : Heap) : HVal → Bool
  | .vref j => decide (j < h.length)
  | v => deepOkV h v

/-- Realizable-heap invariant for the removal methods: every node's
stored values are admissible and every wrapper holds admissible
container items (the states the construction API produces). -/
def heapOk (h : Heap) : Prop :=
  (∀ m st, nodeOf h m = some st →
    ∀ kv ∈ st.data, storedOk h kv.2 = true) ∧
  (∀ j ws, wrapOf h j = some ws →
    ∀ x ∈ ws.items, itemOkB h x = true)

/-- Executable check of the realizable-heap invariant (for concrete
heaps). -/
def heapOkB (h : Heap) : Bool :=
  h.all (fun o =>
    match o with
    | .node st => st.data.all (fun kv => storedOk h kv.2)
    | .wrap ws => ws.items.all (fun x => itemOkB h x))

/-- Heap evolution under criteria probes: existing wrappers are intact,
existing nodes stay nodes, the observable probe outcome of any field
of a pre-existing node against any reference-free criteria value is
unchanged, and the heap stays admissible. -/
def heapStable (env : Env) (h h2 : Heap) : Prop :=
  (∀ j ws, wrapOf h j = some ws → wrapOf h2 j = some ws) ∧
  (∀ m st, nodeOf h m = some st → ∃ st2, nodeOf h2 m = some st2) ∧
  (∀ m st, nodeOf h m = some st → ∀ (k : String) (vc : HVal),
    refFree vc = true →
    (match readObs env h2 m k with
     | some v => pyEq v vc
     | none => false) =
    (match readObs env h m k with
     | some v => pyEq v vc
     | none => false)) ∧
  heapOk h2

mutual

/-- All heap references inside a value lie in `[L, N)` — the live fresh
region of a rebuild (no dangling references, nothing below the frame
boundary). -/
def refsIn (L N : Nat) : HVal → Bool
  | .vref j => decide (L ≤ j) && decide (j < N)
  | .vlist xs => refsInList L N xs
  | .vdict kvs => refsInEntries L N kvs
  | _ => true

def refsInList (L N : Nat) : List HVal → Bool
  | [] => true
  | v :: rest => refsIn L N v && refsInList L N rest

def refsInEntries (L N : Nat) : List (String × HVal) → Bool
  | [] => true
  | (_, v) :: rest => refsIn L N v && refsInEntries L N rest

end

/-- Every object at index `L` or above is a node whose data references
lie in `[L, heap length)` (no wrappers and no dangling references in the
fresh region).  The serialization frame lemma runs over heaps agreeing on
this region. -/
def heapAbove (L : Nat) (h : Heap) : Prop :=
  ∀ m, L ≤ m →
    match h.get m with
    | none => True
    | some (.node st) => refsInEntries L h.length st.data = true
    | some (.wrap _) => False

/-- Serialization view of one heap slot: identical, or nodes sharing
class and field map (parent pointers are not serialized). -/
def serEqObj : Option HObj → Option HObj → Prop
  | a, b =>
      a = b ∨ (∃ st st2, a = some (.node st) ∧ b = some (.node st2) ∧
        st2.cls = st.cls ∧ st2.data = st.data)

mutual

/-- Serialized form of a node of class `cls` (spec-side normal form of
`to_dict` output over well-formed trees): keys non-reserved, values in
serialized form for their field. -/
def serNode (env : Env) (cls : String) : List (String × HVal) → Bool
  | [] => true
  | (k, v) :: rest =>
      !(reservedName k) && serVal env cls k v && serNode env cls rest

/-- Serialized form of one field value: `None`; a nested dict for a wired
single-`object` field without enum; a list for a single-`array` field
(dicts of the wired item class, or plain inert items); or an inert plain
value passing validation (validation of reference-free values is
heap-independent, checked here on the empty heap). -/
def serVal (env : Env) (cls name : String) : HVal → Bool
  | .vnone => true
  | .vref _ => false
  | .vdict d =>
      (let fs := (alGet (envProps env cls) name).getD emptyFS
       match envClassFor env cls name with
       | some c =>
           if fs.effType == some (.single "object") then
             fs.enum.isNone && strNodup (alKeys d) && serNode env c d
           else
             refFree (.vdict d) && wfp (.vdict d) &&
               deseInert env cls name (.vdict d) &&
               (match validate_field_type env [] cls name (.vdict d) with
                | .ok _ => true
                | .error _ => false)
       | none =>
           refFree (.vdict d) && wfp (.vdict d) &&
             deseInert env cls name (.vdict d) &&
             (match validate_field_type env [] cls name (.vdict d) with
              | .ok _ => true
              | .error _ => false))
  | .vlist xs =>
      (let fs := (alGet (envProps env cls) name).getD emptyFS
       (fs.effType == some (.single "array")) &&
         match fs.items, envItemCls env cls name with
         | some isch, some ic =>
             if isch.effType == some (.single "object") then
               fs.enum.isNone && serObjList env ic xs
             else
               (collapseBT isch.effType != some "object") &&
                 wfPlainItems env [] cls name fs xs
         | _, _ => wfPlainItems env [] cls name fs xs)
  | v =>
      refFree v && wfp v &&
        (match validate_field_type env [] cls name v with
         | .ok _ => true
         | .error _ => false)

/-- Serialized form of an object-item array: every element a dict in
serialized node form for the wired item class. -/
def serObjList (env : Env) (ic : String) : List HVal → Bool
  | [] => true
  | .vdict d :: rest =>
      strNodup (alKeys d) && serNode env ic d && serObjList env ic rest
  | _ => false

end

/-- Serialization results under some sufficient fuel (all serialization
functions are fuel-monotone). -/
def toDictE (h : Heap) (i : Nat) (d : List (String × HVal)) : Prop :=
  ∃ g, to_dict g h i = some d

def serEntriesE (h : Heap) (l out : List (String × HVal)) : Prop :=
  ∃ g, serializeEntries g h l = some out

def serValE (h : Heap) (v sv : HVal) : Prop :=
  ∃ g, serializeVal g h v = some sv

def serItemsE (h : Heap) (xs out : List HVal) : Prop :=
  ∃ g, serializeItems g h xs = some out

/-- Ascending heap region: every node at index `m ≥ L` only references
strictly larger indices (children are always allocated after their
parents during a rebuild), and the region holds no wrappers. -/
def heapAsc (L : Nat) (h : Heap) : Prop :=
  ∀ m, L ≤ m →
    match h.get m with
    | none => True
    | some (.node st) => refsInEntries (m+1) h.length st.data = true
    | some (.wrap _) => False

/-- Rebuild invariant for the `setattr` loop: assigning serialized-form
entries to a parentless node in the ascending fresh region succeeds,
extends the heap, preserves everything but the target node, and the
node's final field map re-serializes to the already-serialized prefix
followed by the assigned entries. -/
def rebuildPK (env : Env) (n : Nat) : Prop :=
  ∀ (rest : List (String × HVal)) (H : Heap) (id L : Nat)
    (st : NodeState),
    sizeOf rest ≤ n →
    serNode env st.cls rest = true →
    strNodup (alKeys st.data ++ alKeys rest) = true →
    nodeOf H id = some st → st.parent = none →
    L ≤ id → L ≤ H.length → heapAsc L H →
    ∃ g h2 st2, setattr_kwargs env g H id rest = some (h2, .ok ()) ∧
      H.length ≤ h2.length ∧
      (∀ m, m < H.length → m ≠ id → h2.get m = H.get m) ∧
      heapAsc L h2 ∧
      nodeOf h2 id = some st2 ∧ st2.cls = st.cls ∧
      st2.parent = none ∧
      (∀ done, serEntriesE H st.data done →
        serEntriesE h2 st2.data (done ++ rest))

/-- Rebuild invariant for a single `__setattr__` of a serialized-form
value: the write succeeds, stores a deserialized value that
re-serializes to the assigned one, and touches nothing else. -/
def rebuildPV (env : Env) (n : Nat) : Prop :=
  ∀ (v : HVal) (k : String) (H : Heap) (id L : Nat) (st : NodeState),
    sizeOf v ≤ n →
    serVal env st.cls k v = true →
    reservedName k = false →
    nodeOf H id = some st → st.parent = none →
    L ≤ id → L ≤ H.length → heapAsc L H →
    ∃ g h2 dv, setattrM env g H id k v = some (h2, .ok ()) ∧
      H.length ≤ h2.length ∧
      (∀ m, m < H.length → m ≠ id → h2.get m = H.get m) ∧
      heapAsc L h2 ∧ refsIn (id+1) h2.length dv = true ∧
      nodeOf h2 id = some {st with data := alSet st.data k dv} ∧
      serValE h2 dv v

/-- Rebuild invariant for the element-wise conversion of an
object-item array: every dict becomes a fresh node of the wired item
class, and the resulting reference list re-serializes to the input. -/
def rebuildPL (env : Env) (n : Nat) : Prop :=
  ∀ (xs : List HVal) (H : Heap) (L : Nat) (ic : String),
    sizeOf xs ≤ n →
    serObjList env ic xs = true →
    L ≤ H.length → heapAsc L H →
    ∃ g h2 vs, deserialize_items env g H ic xs = some (h2, .ok vs) ∧
      H.length ≤ h2.length ∧
      (∀ m, m < H.length → h2.get m = H.get m) ∧
      heapAsc L h2 ∧
      refsInList H.length h2.length vs = true ∧
      (∀ x ∈ vs, ∃ j stj, x = HVal.vref j ∧ nodeOf h2 j = some stj ∧
        stj.cls = ic) ∧
      serItemsE h2 vs xs

/-- Rebuild invariant for `__init__`/`from_dict` on a serialized-form
document: construction succeeds with a fresh parentless node whose
field map re-serializes to the input document. -/
def rebuildPI (env : Env) (n : Nat) : Prop :=
  ∀ (d : List (String × HVal)) (H : Heap) (L : Nat) (cls : String),
    sizeOf d ≤ n →
    strNodup (alKeys d) = true →
    serNode env cls d = true →
    L ≤ H.length → heapAsc L H →
    ∃ g h2 st2, model_init env g H cls d = some (h2, .ok H.length) ∧
      H.length < h2.length ∧
      (∀ m, m < H.length → h2.get m = H.get m) ∧
      heapAsc L h2 ∧
      nodeOf h2 H.length = some st2 ∧ st2.cls = cls ∧
      st2.parent = none ∧
      serEntriesE h2 st2.data d

/-- Round-trip witness tree: a `Person` with a scalar, a nested `Health`
object, an object-item array with one `Address` element, and a plain
string array. -/
def stC1 : NodeState :=
  ⟨"Person",
   [("name", .vstr "Ada"), ("health", .vref 1),
    ("addresses", .vlist [.vref 2]),
    ("tags", .vlist [.vstr "a", .vstr "b"])], none, none⟩

def hC1 : Heap :=
  [HObj.node stC1,
   HObj.node ⟨"Health", [("status", .vstr "ok")], some 0, some "health"⟩,
   HObj.node ⟨"Address", [("kind", .vstr "home"), ("city", .vstr "X")],
     some 0, some "addresses"⟩]

-- ===================================================================
-- Helper lemmas
-- ===================================================================

theorem alGet_alSet_self {α : Type} (l : List (String × α)) (k : String)
    (v : α) : alGet (alSet l k v) k = some v := by
  induction l with
  | nil => simp [alGet, alSet]
  | cons kv rest ih =>
      obtain ⟨k', v'⟩ := kv
      by_cases hk : k' = k
      · simp [alGet, alSet, hk]
      · simp [alGet, alSet, hk, ih]

theorem alGet_alSet_ne {α : Type} (l : List (String × α)) (k k' : String)
    (v : α) (hne : k' ≠ k) : alGet (alSet l k v) k' = alGet l k' := by
  induction l with
  | nil => simp [alGet, alSet, Ne.symm hne]
  | cons kv rest ih =>
      obtain ⟨k0, v0⟩ := kv
      by_cases hk : k0 = k
      · subst hk
        simp [alGet, alSet, Ne.symm hne]
      · by_cases hk' : k0 = k'
        · simp [alGet, alSet, hk, hk', hne]
        · simp [alGet, alSet, hk, hk', ih]

theorem heap_get_set_self (h : Heap) (i : Nat) (o : HObj)
    (hi : i < h.length) : (h.setObj i o).get i = some o := by
  simp [Heap.get, Heap.setObj, List.get?_set_eq_of_lt, hi]

theorem heap_get_set_ne (h : Heap) (i j : Nat) (o : HObj) (hne : i ≠ j) :
    (h.setObj i o).get j = h.get j := by
  simp [Heap.get, Heap.setObj, List.get?_set_ne, hne]

theorem heap_get_append_new (h : Heap) (o : HObj) :
    (h ++ [o]).get h.length = some o := by
  simp [Heap.get, List.get?_concat_length]

theorem heap_get_append_old (h : Heap) (o : HObj) (i : Nat)
    (hi : i < h.length) : (h ++ [o]).get i = h.get i := by
  simp [Heap.get, List.get?_eq_getElem?, List.getElem?_append_left hi]

theorem heap_length_set (h : Heap) (i : Nat) (o : HObj) :
    (h.setObj i o).length = h.length := by
  simp [Heap.setObj]

theorem heap_get_lt (h : Heap) (i : Nat) (o : HObj)
    (hg : h.get i = some o) : i < h.length := by
  by_contra hlt
  push_neg at hlt
  rw [Heap.get, List.get?_eq_none.mpr hlt] at hg
  exact absurd hg (by simp)

theorem get_writeField_ne (h : Heap) (i : Nat) (k : String) (v : HVal)
    (j : Nat) (hne : i ≠ j) : (writeField h i k v).get j = h.get j := by
  unfold writeField
  cases hst : nodeOf h i with
  | none => rfl
  | some st => exact heap_get_set_ne h i j _ hne

theorem nodeOf_writeField_self (h : Heap) (i : Nat) (k : String)
    (v : HVal) (st : NodeState) (hn : nodeOf h i = some st) :
    nodeOf (writeField h i k v) i =
      some {st with data := alSet st.data k v} := by
  have hg : h.get i = some (.node st) := by
    unfold nodeOf at hn
    cases hget : h.get i with
    | none => rw [hget] at hn; simp at hn
    | some o =>
        cases o with
        | node st' => rw [hget] at hn; simp at hn; rw [hn]
        | wrap w => rw [hget] at hn; simp at hn
  have hlt := heap_get_lt h i _ hg
  unfold writeField
  rw [hn]
  unfold nodeOf
  rw [heap_get_set_self _ _ _ hlt]

theorem nodeOf_writeField_ne (h : Heap) (i : Nat) (k : String) (v : HVal)
    (j : Nat) (hne : i ≠ j) :
    nodeOf (writeField h i k v) j = nodeOf h j := by
  unfold nodeOf
  rw [get_writeField_ne h i k v j hne]

theorem deseAction_scalar (env : Env) (h : Heap) (cls name : String)
    (v : HVal) (hv : isScalarV v = true) :
    deseAction env h cls name v = .keep := by
  unfold deseAction
  rcases v with _ | b | n | s | n | n | s | l | n | xs | kvs | j <;>
    simp [isScalarV] at hv <;> (repeat' split) <;> simp_all [isinst] <;>
    (try (split <;> rfl))

theorem deserialize_scalar (env : Env) (f : Nat) (h : Heap)
    (cls name : String) (v : HVal) (hv : isScalarV v = true) :
    deserialize_field env (f+1) h cls name v = some (h, .ok v) := by
  simp [deserialize_field, deseAction_scalar env h cls name v hv]

theorem stampParent_scalar (h : Heap) (v : HVal) (id : Nat)
    (name : String) (hv : isScalarV v = true) :
    stampParent h v id name = h := by
  rcases v with _ | b | n | s | n | n | s | l | n | xs | kvs | j <;>
    simp [isScalarV] at hv <;> simp [stampParent]

theorem mark_dirty_root (f : Nat) (h : Heap) (id : Nat) (st : NodeState)
    (hn : nodeOf h id = some st) (hp : st.parent = none) :
    mark_dirty (f+1) h id = some h := by
  simp [mark_dirty, hn, hp]

theorem mark_dirty_stop_list (f : Nat) (h : Heap) (id p : Nat)
    (k : String) (st pst : NodeState) (sv : HVal)
    (hn : nodeOf h id = some st) (hp : st.parent = some p)
    (hk : st.parentKey = some k) (hpp : nodeOf h p = some pst)
    (hslot : alGet pst.data k = some sv)
    (hlist : isinst h sv .pcList = true) :
    mark_dirty (f+1) h id = some h := by
  simp [mark_dirty, hn, hp, hk, hpp, hslot, hlist]

theorem setattrM_scalar_ok (env : Env) (f : Nat) (h : Heap) (id : Nat)
    (name : String) (v : HVal) (st : NodeState)
    (hres : reservedName name = false)
    (hn : nodeOf h id = some st)
    (hv : isScalarV v = true)
    (hval : validate_field_type env h st.cls name v = .ok ()) :
    setattrM env (f+2) h id name v =
      (mark_dirty (f+1) (writeField h id name v) id).map
        (fun h4 => (h4, .ok ())) := by
  show setattrM env (f+1+1) h id name v = _
  unfold setattrM
  rw [hres]
  simp only [Bool.false_eq_true, if_false, hn]
  rw [deserialize_scalar env f h st.cls name v hv]
  simp only [steBind, hval, stampParent_scalar h v id name hv]
  cases hmd : mark_dirty (f+1) (writeField h id name v) id <;> simp [hmd]

theorem heap_set_same (h : Heap) (i : Nat) (o : HObj)
    (hg : h.get i = some o) : h.setObj i o = h := by
  induction h generalizing i with
  | nil => simp [Heap.get] at hg
  | cons hd tl ih =>
      cases i with
      | zero =>
          simp [Heap.get] at hg
          simp [Heap.setObj, hg]
      | succ j =>
          simp [Heap.get] at hg
          have := ih j (by simpa [Heap.get] using hg)
          simp [Heap.setObj] at this ⊢
          exact this

theorem serializeItems_mono_plain
    {f : Nat}
    (ihi : ∀ h l out, serializeItems f h l = some out →
      serializeItems (f+1) h l = some out)
    (h : Heap) (rest : List HVal) {v : HVal} {out : List HVal}
    (hl : (match serializeItems f h rest with
           | some o => some (v :: o)
           | none => none) = some out) :
    (match serializeItems (f+1) h rest with
     | some o => some (v :: o)
     | none => none) = some out := by
  cases hre : serializeItems f h rest with
  | none => rw [hre] at hl; simp at hl
  | some out' =>
      rw [hre] at hl
      rw [ihi h rest out' hre]
      exact hl

theorem serialize_mono (f : Nat) :
    (∀ h id d, to_dict f h id = some d → to_dict (f+1) h id = some d) ∧
    (∀ h l out, serializeEntries f h l = some out →
      serializeEntries (f+1) h l = some out) ∧
    (∀ h v sv, serializeVal f h v = some sv →
      serializeVal (f+1) h v = some sv) ∧
    (∀ h l out, serializeItems f h l = some out →
      serializeItems (f+1) h l = some out) := by
  induction f with
  | zero =>
      refine ⟨?_, ?_, ?_, ?_⟩ <;> intro h x y hx <;>
        simp [to_dict, serializeEntries, serializeVal, serializeItems]
          at hx
  | succ f ih =>
      obtain ⟨ihd, ihe, ihv, ihi⟩ := ih
      refine ⟨?_, ?_, ?_, ?_⟩
      · intro h id d hd
        cases hn : nodeOf h id with
        | none => simp [to_dict, hn] at hd
        | some st =>
            simp only [to_dict, hn] at hd ⊢
            exact ihe h st.data d hd
      · intro h l out he
        cases l with
        | nil => simpa [serializeEntries] using he
        | cons kv rest =>
            obtain ⟨k, v⟩ := kv
            simp only [serializeEntries] at he ⊢
            cases hsv : serializeVal f h v with
            | none => rw [hsv] at he; simp at he
            | some sv =>
                rw [hsv] at he
                cases hre : serializeEntries f h rest with
                | none => rw [hre] at he; simp at he
                | some out' =>
                    rw [hre] at he
                    rw [ihv h v sv hsv, ihe h rest out' hre]
                    exact he
      · intro h v sv hv
        cases v with
        | vref j =>
            simp only [serializeVal] at hv ⊢
            cases hg : h.get j with
            | none => rw [hg] at hv; simp at hv
            | some o =>
                cases o with
                | node st =>
                    rw [hg] at hv
                    cases hd : to_dict f h j with
                    | none => rw [hd] at hv; simp at hv
                    | some d => rw [hd] at hv; rw [ihd h j d hd]; exact hv
                | wrap w =>
                    rw [hg] at hv
                    have hv' : (match serializeItems f h w.items with
                      | some xs => some (HVal.vlist xs)
                      | none => none) = some sv := hv
                    show (match serializeItems (f+1) h w.items with
                      | some xs => some (HVal.vlist xs)
                      | none => none) = some sv
                    cases hi : serializeItems f h w.items with
                    | none => rw [hi] at hv'; simp at hv'
                    | some xs =>
                        rw [hi] at hv'
                        rw [ihi h w.items xs hi]
                        exact hv' 
        | vlist xs =>
            simp only [serializeVal] at hv ⊢
            cases hi : serializeItems f h xs with
            | none => rw [hi] at hv; simp at hv
            | some ys => rw [hi] at hv; rw [ihi h xs ys hi]; exact hv
        | vnone => simpa [serializeVal] using hv
        | vbool b => simpa [serializeVal] using hv
        | vint n => simpa [serializeVal] using hv
        | vstr t => simpa [serializeVal] using hv
        | vfloat n => simpa [serializeVal] using hv
        | vdate n => simpa [serializeVal] using hv
        | vobjid t => simpa [serializeVal] using hv
        | vbytes l => simpa [serializeVal] using hv
        | vdec n => simpa [serializeVal] using hv
        | vdict d => simpa [serializeVal] using hv
      · intro h l out hl
        cases l with
        | nil => simpa [serializeItems] using hl
        | cons v rest =>
            cases v with
            | vref j =>
                simp only [serializeItems] at hl ⊢
                cases hg : h.get j with
                | none =>
                    rw [hg] at hl
                    exact serializeItems_mono_plain ihi h rest hl
                | some o =>
                    cases o with
                    | node st =>
                        rw [hg] at hl
                        cases hd : to_dict f h j with
                        | none => rw [hd] at hl; simp at hl
                        | some d =>
                            rw [hd] at hl
                            rw [ihd h j d hd]
                            exact serializeItems_mono_plain ihi h rest hl
                    | wrap w =>
                        rw [hg] at hl
                        exact serializeItems_mono_plain ihi h rest hl
            | vnone => simp only [serializeItems] at hl ⊢
                       exact serializeItems_mono_plain ihi h rest hl
            | vbool b => simp only [serializeItems] at hl ⊢
                         exact serializeItems_mono_plain ihi h rest hl
            | vint n => simp only [serializeItems] at hl ⊢
                        exact serializeItems_mono_plain ihi h rest hl
            | vstr t => simp only [serializeItems] at hl ⊢
                        exact serializeItems_mono_plain ihi h rest hl
            | vfloat n => simp only [serializeItems] at hl ⊢
                          exact serializeItems_mono_plain ihi h rest hl
            | vdate n => simp only [serializeItems] at hl ⊢
                         exact serializeItems_mono_plain ihi h rest hl
            | vobjid t => simp only [serializeItems] at hl ⊢
                          exact serializeItems_mono_plain ihi h rest hl
            | vbytes lb => simp only [serializeItems] at hl ⊢
                           exact serializeItems_mono_plain ihi h rest hl
            | vdec n => simp only [serializeItems] at hl ⊢
                        exact serializeItems_mono_plain ihi h rest hl
            | vlist ys => simp only [serializeItems] at hl ⊢
                          exact serializeItems_mono_plain ihi h rest hl
            | vdict d => simp only [serializeItems] at hl ⊢
                         exact serializeItems_mono_plain ihi h rest hl

theorem serializeVal_mono_le (f g : Nat) (h : Heap) (v : HVal)
    (sv : HVal) (hle : f ≤ g) (hv : serializeVal f h v = some sv) :
    serializeVal g h v = some sv := by
  induction g with
  | zero =>
      have : f = 0 := Nat.le_zero.mp hle
      subst this
      exact hv
  | succ g ih =>
      rcases Nat.lt_or_ge f (g+1) with hlt | hge
      · exact (serialize_mono g).2.2.1 h v sv
          (ih (Nat.lt_succ_iff.mp hlt))
      · have : f = g + 1 := Nat.le_antisymm hle hge
        subst this
        exact hv

theorem serializeEntries_alGet :
    ∀ (l : List (String × HVal)) (f : Nat) (h : Heap)
      (out : List (String × HVal)),
      serializeEntries f h l = some out → ∀ (k : String),
      (alGet l k = none → alGet out k = none) ∧
      (∀ v, alGet l k = some v →
        ∃ sv, serializeVal f h v = some sv ∧ alGet out k = some sv) := by
  intro l
  induction l with
  | nil =>
      intro f h out hs k
      cases f with
      | zero => simp [serializeEntries] at hs
      | succ f' =>
          simp [serializeEntries] at hs
          subst hs
          simp [alGet]
  | cons kv rest ih =>
      intro f h out hs k
      obtain ⟨k0, v0⟩ := kv
      cases f with
      | zero => simp [serializeEntries] at hs
      | succ f' =>
          simp only [serializeEntries] at hs
          cases hsv : serializeVal f' h v0 with
          | none => rw [hsv] at hs; simp at hs
          | some sv0 =>
              rw [hsv] at hs
              cases hre : serializeEntries f' h rest with
              | none => rw [hre] at hs; simp at hs
              | some out' =>
                  rw [hre] at hs
                  simp at hs
                  subst hs
                  by_cases hk : k0 = k
                  · subst hk
                    constructor
                    · intro hnone; simp [alGet] at hnone
                    · intro v hv
                      have hv0 : some v0 = some v := by
                        simpa [alGet] using hv
                      obtain rfl : v0 = v := by injection hv0
                      refine ⟨sv0, ?_, by simp [alGet]⟩
                      exact serializeVal_mono_le f' (f'+1) h v0 sv0
                        (Nat.le_succ f') hsv
                  · have := ih f' h out' hre k
                    constructor
                    · intro hnone
                      simp [alGet, hk] at hnone ⊢
                      exact this.1 hnone
                    · intro v hv
                      simp [alGet, hk] at hv ⊢
                      obtain ⟨sv, hsv2, hout⟩ := this.2 v hv
                      refine ⟨sv, ?_, hout⟩
                      exact serializeVal_mono_le f' (f'+1) h v sv
                        (Nat.le_succ f') hsv2

theorem serializeVal_scalar (f : Nat) (h : Heap) (v : HVal)
    (hv : isScalarV v = true) : serializeVal (f+1) h v = some v := by
  rcases v with _ | b | n | s | n | n | s | l | n | xs | kvs | j <;>
    simp [isScalarV] at hv <;> simp [serializeVal]

theorem serializeVal_scalar_inv (f : Nat) (h : Heap) (v sv : HVal)
    (hv : isScalarV v = true) (hs : serializeVal f h v = some sv) :
    sv = v := by
  cases f with
  | zero => simp [serializeVal] at hs
  | succ f' =>
      rw [serializeVal_scalar f' h v hv] at hs
      injection hs with he
      exact he.symm

-- ===================================================================
-- Claim theorems
-- ===================================================================

/-- Claim C5 counterexample: the claim says that writing `None` to a field
whose enum does not contain `None` is rejected with an `EnumViolation`;
on the concrete `Person.gender` field (enum `["male", "female"]`, no
`None`) validation of `None` succeeds and a full write of `None` succeeds
and stores the explicit null — the `value is not None` guard on the enum
check makes `None` bypass it. -/
theorem mso_c5_counterexample :
    validate_field_type envA [] "Person" "gender" .vnone = .ok () ∧
    setattrM envA 9 [HObj.node ⟨"Person", [], none, none⟩] 0 "gender"
        .vnone =
      some ([HObj.node ⟨"Person", [("gender", .vnone)], none, none⟩],
        .ok ()) := by
  constructor <;> rfl

/-- Claim C5 (amended): the enum-membership check does run before the base
type check and even without a declared base type, but a `None` value skips
the enum check itself (the guard is `enum_values is not None and value is
not None`): writing `None` always passes validation, and a non-`None`
scalar outside the enum set is rejected with `EnumViolation` regardless of
any declared base type. -/
theorem mso_c5_amended :
    (∀ (env : Env) (h : Heap) (cls name : String),
        validate_field_type env h cls name .vnone = .ok ()) ∧
    (∀ (env : Env) (h : Heap) (cls name : String) (fs : FieldSchema)
        (es : List HVal) (v : HVal),
        underscoreFirst name = false →
        alGet (envProps env cls) name = some fs →
        fs.enum = some es →
        v.isNone = false →
        isinst h v .pcList = false →
        pyIn v es = false →
        validate_field_type env h cls name v =
          .error (.valueError name)) := by
  constructor
  · intro env h cls name
    by_cases hs : underscoreFirst name <;>
      simp [validate_field_type, hs, HVal.isNone, pure, Except.pure] <;>
      (repeat' split) <;>
      first
        | rfl
        | simp_all [HVal.isNone, pure, Except.pure]
  · intro env h cls name fs es v hs hfs hes hnone hlist hin
    simp [validate_field_type, hs, hfs, hes, hnone, hlist, hin, pure,
      Except.pure, throw, throwThe, MonadExceptOf.throw, Bind.bind,
      Except.bind]

/-- Claim C5 amended witness: `None` passes on the enum-only
`Person.gender` field while the out-of-enum string `"Rabbit"` is
rejected. -/
theorem mso_c5_amended_witness :
    validate_field_type envA [] "Person" "gender" .vnone = .ok () ∧
    validate_field_type envA [] "Person" "gender" (.vstr "Rabbit") =
      .error (.valueError "gender") :=
  ⟨mso_c5_amended.1 envA [] "Person" "gender",
   mso_c5_amended.2 envA [] "Person" "gender" fsGender
     [.vstr "male", .vstr "female"] (.vstr "Rabbit")
     rfl rfl rfl rfl rfl rfl⟩

/-- Claim C9 (implicit): a Python `bool` passes validation on an `int` (or
`long`) field and is stored, because `isinstance` is subclass-inclusive
and `bool` subclasses `int`; no `TypeMismatch` is raised. -/
theorem mso_c9_bool_passes_int (env : Env) (f : Nat) (h : Heap) (id : Nat)
    (name : String) (b : Bool) (st : NodeState) (fs : FieldSchema)
    (hn : nodeOf h id = some st)
    (hp : st.parent = none)
    (hres : reservedName name = false)
    (hfs : alGet (envProps env st.cls) name = some fs)
    (htyp : fs.effType = some (.single "int") ∨
      fs.effType = some (.single "long"))
    (henum : fs.enum = none) :
    validate_field_type env h st.cls name (.vbool b) = .ok () ∧
    setattrM env (f+2) h id name (.vbool b) =
      some (writeField h id name (.vbool b), .ok ()) ∧
    nodeOf (writeField h id name (.vbool b)) id =
      some {st with data := alSet st.data name (.vbool b)} := by
  have hval : validate_field_type env h st.cls name (.vbool b) = .ok () := by
    by_cases hs : underscoreFirst name
    · simp [validate_field_type, hs, pure, Except.pure]
    · rcases htyp with ht | ht <;>
        simp [validate_field_type, hs, hfs, henum, HVal.isNone, ht,
          tdTruthy, bsonMapGet, BSON_TYPE_MAP, alGet, isinst, pure,
          Except.pure, Bind.bind, Except.bind]
  refine ⟨hval, ?_, nodeOf_writeField_self h id name (.vbool b) st hn⟩
  rw [setattrM_scalar_ok env f h id name (.vbool b) st hres hn rfl hval]
  rw [mark_dirty_root f _ id _ (nodeOf_writeField_self h id name
    (.vbool b) st hn) hp]
  rfl

/-- Claim C9 witness: `Person.age` (bsonType `int`) accepts `True`. -/
theorem mso_c9_witness :
    validate_field_type envA [HObj.node ⟨"Person", [], none, none⟩]
        "Person" "age" (.vbool true) = .ok () ∧
    setattrM envA 7 [HObj.node ⟨"Person", [], none, none⟩] 0 "age"
        (.vbool true) =
      some (writeField [HObj.node ⟨"Person", [], none, none⟩] 0 "age"
        (.vbool true), .ok ()) ∧
    nodeOf (writeField [HObj.node ⟨"Person", [], none, none⟩] 0 "age"
        (.vbool true)) 0 =
      some ⟨"Person", [("age", .vbool true)], none, none⟩ :=
  mso_c9_bool_passes_int envA 5 [HObj.node ⟨"Person", [], none, none⟩] 0
    "age" true ⟨"Person", [], none, none⟩ fsInt rfl rfl rfl rfl
    (Or.inl rfl) rfl

/-- Claim C10 (implicit): reading a schema-declared non-array field with
no stored value stores an explicit `None` into the field map and returns
`None`; the node's `to_dict` did not contain the field before the read and
materializes it as an explicit null afterwards — reads alone change the
serialized form. -/
theorem mso_c10_read_materializes_null (env : Env) (h : Heap) (id : Nat)
    (name : String) (st : NodeState) (fs : FieldSchema)
    (hn : nodeOf h id = some st)
    (hd : alGet st.data name = none)
    (hna : envNestedAttr env st.cls name = none)
    (hfs : alGet (envProps env st.cls) name = some fs)
    (harr : fs.effType ≠ some (.single "array")) :
    getattrM env h id name = (writeField h id name .vnone, .ok .vnone) ∧
    (∀ f d, to_dict f h id = some d → alGet d name = none) ∧
    (∀ f d, to_dict f (writeField h id name .vnone) id = some d →
      alGet d name = some .vnone) := by
  refine ⟨?_, ?_, ?_⟩
  · simp [getattrM, hn, hd, hna, hfs, harr]
  · intro f d hser
    cases f with
    | zero => simp [to_dict] at hser
    | succ g =>
        simp [to_dict, hn] at hser
        exact (serializeEntries_alGet st.data g h d hser name).1 hd
  · intro f d hser
    cases f with
    | zero => simp [to_dict] at hser
    | succ g =>
        simp [to_dict, nodeOf_writeField_self h id name .vnone st hn]
          at hser
        obtain ⟨sv, hsv, hout⟩ :=
          (serializeEntries_alGet _ g _ d hser name).2 .vnone
            (alGet_alSet_self st.data name .vnone)
        have : sv = .vnone :=
          serializeVal_scalar_inv g _ .vnone sv rfl hsv
        rw [this] at hout
        exact hout

/-- Claim C10 witness: fresh `Person` node, reading `age` stores and
returns `None` and materializes it in `to_dict`. -/
theorem mso_c10_witness :
    getattrM envA [HObj.node ⟨"Person", [], none, none⟩] 0 "age" =
      (writeField [HObj.node ⟨"Person", [], none, none⟩] 0 "age" .vnone,
        .ok .vnone) ∧
    (∀ f d, to_dict f [HObj.node ⟨"Person", [], none, none⟩] 0 = some d →
      alGet d "age" = none) ∧
    (∀ f d, to_dict f (writeField [HObj.node ⟨"Person", [], none, none⟩]
        0 "age" .vnone) 0 = some d → alGet d "age" = some .vnone) :=
  mso_c10_read_materializes_null envA
    [HObj.node ⟨"Person", [], none, none⟩] 0 "age"
    ⟨"Person", [], none, none⟩ fsInt rfl rfl rfl rfl
    (by simp [fsInt, FieldSchema.effType, FieldSchema.bsonType, tdTruthy])

theorem nodeOf_append (h : Heap) (o : HObj) (i : Nat) (hi : i < h.length) :
    nodeOf (h ++ [o]) i = nodeOf h i := by
  unfold nodeOf
  rw [heap_get_append_old h o i hi]

/-- Claim C7: the first read of an unset object-typed field instantiates
an empty instance of the declared nested class wired with parent
back-references and stores it; the second read returns the very same
instance, leaving the heap unchanged. -/
theorem mso_c7_autoviv_idempotent (env : Env) (h : Heap) (id : Nat)
    (name : String) (st : NodeState) (c : String)
    (hn : nodeOf h id = some st)
    (hd : alGet st.data name = none)
    (hna : envNestedAttr env st.cls name = some c) :
    getattrM env h id name =
      (writeField (h ++ [HObj.node ⟨c, [], some id, some name⟩]) id name
        (.vref h.length), .ok (.vref h.length)) ∧
    nodeOf (writeField (h ++ [HObj.node ⟨c, [], some id, some name⟩]) id
        name (.vref h.length)) h.length =
      some ⟨c, [], some id, some name⟩ ∧
    nodeOf (writeField (h ++ [HObj.node ⟨c, [], some id, some name⟩]) id
        name (.vref h.length)) id =
      some {st with data := alSet st.data name (.vref h.length)} ∧
    getattrM env
      (writeField (h ++ [HObj.node ⟨c, [], some id, some name⟩]) id name
        (.vref h.length)) id name =
      (writeField (h ++ [HObj.node ⟨c, [], some id, some name⟩]) id name
        (.vref h.length), .ok (.vref h.length)) := by
  have hg : h.get id = some (.node st) := by
    unfold nodeOf at hn
    cases hget : h.get id with
    | none => rw [hget] at hn; simp at hn
    | some o =>
        cases o with
        | node st' => rw [hget] at hn; simp at hn; rw [hn]
        | wrap w => rw [hget] at hn; simp at hn
  have hid : id < h.length := heap_get_lt h id _ hg
  have hidn : id ≠ h.length := Nat.ne_of_lt hid
  have hchild : nodeOf (h ++ [HObj.node ⟨c, [], some id, some name⟩])
      h.length = some ⟨c, [], some id, some name⟩ := by
    unfold nodeOf
    rw [heap_get_append_new]
  have hold : nodeOf (h ++ [HObj.node ⟨c, [], some id, some name⟩]) id =
      some st := by rw [nodeOf_append h _ id hid, hn]
  have hwid := nodeOf_writeField_self
    (h ++ [HObj.node ⟨c, [], some id, some name⟩]) id name
    (.vref h.length) st hold
  have hwn : nodeOf (writeField
      (h ++ [HObj.node ⟨c, [], some id, some name⟩]) id name
      (.vref h.length)) h.length = some ⟨c, [], some id, some name⟩ := by
    rw [nodeOf_writeField_ne _ id name _ h.length hidn]
    exact hchild
  refine ⟨?_, hwn, hwid, ?_⟩
  · simp [getattrM, hn, hd, hna]
  · have hlook : alGet (alSet st.data name (.vref h.length)) name =
      some (.vref h.length) := alGet_alSet_self st.data name _
    have hset : (writeField (h ++ [HObj.node ⟨c, [], some id, some name⟩])
        id name (.vref h.length)).setObj h.length
        (.node ⟨c, [], some id, some name⟩) =
        writeField (h ++ [HObj.node ⟨c, [], some id, some name⟩]) id name
        (.vref h.length) := by
      apply heap_set_same
      unfold nodeOf at hwn
      cases hget2 : (writeField (h ++ [HObj.node ⟨c, [], some id,
          some name⟩]) id name (.vref h.length)).get h.length with
      | none => rw [hget2] at hwn; simp at hwn
      | some o =>
          cases o with
          | node st2 =>
              rw [hget2] at hwn
              simp at hwn
              rw [hwn]
          | wrap w => rw [hget2] at hwn; simp at hwn
    simp [getattrM, hwid, hlook, hwn, stampOne, hset]

/-- Claim C7 witness: on a fresh `Person`, the first read of `health`
creates and stores the wired `Health` instance and the second read
returns the same reference with the heap unchanged. -/
theorem mso_c7_witness :
    getattrM envA [HObj.node ⟨"Person", [], none, none⟩] 0 "health" =
      (writeField ([HObj.node ⟨"Person", [], none, none⟩] ++
        [HObj.node ⟨"Health", [], some 0, some "health"⟩]) 0 "health"
        (.vref 1), .ok (.vref 1)) ∧
    getattrM envA
      (writeField ([HObj.node ⟨"Person", [], none, none⟩] ++
        [HObj.node ⟨"Health", [], some 0, some "health"⟩]) 0 "health"
        (.vref 1)) 0 "health" =
      (writeField ([HObj.node ⟨"Person", [], none, none⟩] ++
        [HObj.node ⟨"Health", [], some 0, some "health"⟩]) 0 "health"
        (.vref 1), .ok (.vref 1)) :=
  ⟨(mso_c7_autoviv_idempotent envA [HObj.node ⟨"Person", [], none, none⟩]
      0 "health" ⟨"Person", [], none, none⟩ "Health" rfl rfl rfl).1,
   (mso_c7_autoviv_idempotent envA [HObj.node ⟨"Person", [], none, none⟩]
      0 "health" ⟨"Person", [], none, none⟩ "Health" rfl rfl rfl).2.2.2⟩

theorem nodeOf_get (h : Heap) (i : Nat) (st : NodeState)
    (hn : nodeOf h i = some st) : h.get i = some (.node st) := by
  unfold nodeOf at hn
  cases hget : h.get i with
  | none => rw [hget] at hn; simp at hn
  | some o =>
      cases o with
      | node st' => rw [hget] at hn; simp at hn; rw [hn]
      | wrap w => rw [hget] at hn; simp at hn

theorem wrapOf_get (h : Heap) (i : Nat) (w : WrapState)
    (hw : wrapOf h i = some w) : h.get i = some (.wrap w) := by
  unfold wrapOf at hw
  cases hget : h.get i with
  | none => rw [hget] at hw; simp at hw
  | some o =>
      cases o with
      | node st' => rw [hget] at hw; simp at hw
      | wrap w' => rw [hget] at hw; simp at hw; rw [hw]

/-- Claim C6: a successful scalar write on an element held inside an
array field container does not rewrite the owning node's slot for that
array field — after the write the slot still refers to the same container
instance with the same items, and dirty propagation stops at that slot:
the whole write only changes the element's own field map. -/
theorem mso_c6_array_slot_stable (env : Env) (f : Nat) (h : Heap)
    (e p w : Nat) (arr name : String) (v : HVal)
    (est pst : NodeState) (ws : WrapState)
    (hne : nodeOf h e = some est)
    (hp : est.parent = some p)
    (hk : est.parentKey = some arr)
    (hpp : nodeOf h p = some pst)
    (hslot : alGet pst.data arr = some (.vref w))
    (hw : wrapOf h w = some ws)
    (hmem : (HVal.vref e) ∈ ws.items)
    (hep : e ≠ p)
    (hres : reservedName name = false)
    (hv : isScalarV v = true)
    (hval : validate_field_type env h est.cls name v = .ok ()) :
    setattrM env (f+2) h e name v =
      some (writeField h e name v, .ok ()) ∧
    nodeOf (writeField h e name v) p = some pst ∧
    alGet pst.data arr = some (.vref w) ∧
    wrapOf (writeField h e name v) w = some ws ∧
    nodeOf (writeField h e name v) e =
      some {est with data := alSet est.data name v} := by
  have hwe : w ≠ e := by
    intro heq
    rw [heq] at hw
    have := wrapOf_get h e _ hw
    rw [nodeOf_get h e est hne] at this
    simp at this
  have hgw : h.get w = some (.wrap ws) := wrapOf_get h w ws hw
  have hwp : nodeOf (writeField h e name v) p = nodeOf h p :=
    nodeOf_writeField_ne h e name v p hep
  have hww : (writeField h e name v).get w = some (.wrap ws) := by
    rw [get_writeField_ne h e name v w (fun hx => hwe hx.symm)]
    exact hgw
  have hwe' := nodeOf_writeField_self h e name v est hne
  refine ⟨?_, by rw [hwp]; exact hpp, hslot, ?_, hwe'⟩
  · rw [setattrM_scalar_ok env f h e name v est hres hne hv hval]
    rw [mark_dirty_stop_list f (writeField h e name v) e p arr _ pst
      (.vref w) hwe' hp hk (by rw [hwp]; exact hpp) hslot
      (by simp [isinst, hww])]
    rfl
  · unfold wrapOf
    rw [hww]

/-- Claim C6 witness: writing `city` on the first address element leaves
the `addresses` slot pointing at the same wrapper with the same items. -/
theorem mso_c6_witness :
    setattrM envA 7 hW 2 "city" (.vstr "X") =
      some (writeField hW 2 "city" (.vstr "X"), .ok ()) ∧
    wrapOf (writeField hW 2 "city" (.vstr "X")) 1 =
      some ⟨0, "addresses", "Address", [.vref 2, .vref 3]⟩ :=
  ⟨(mso_c6_array_slot_stable envA 5 hW 2 0 1 "addresses" "city"
      (.vstr "X") ⟨"Address", [("kind", .vstr "home")], some 0,
        some "addresses"⟩
      ⟨"Person", [("addresses", .vref 1)], none, none⟩
      ⟨0, "addresses", "Address", [.vref 2, .vref 3]⟩
      rfl rfl rfl rfl rfl rfl (List.mem_cons_self _ _) (by decide)
      rfl rfl rfl).1,
   (mso_c6_array_slot_stable envA 5 hW 2 0 1 "addresses" "city"
      (.vstr "X") ⟨"Address", [("kind", .vstr "home")], some 0,
        some "addresses"⟩
      ⟨"Person", [("addresses", .vref 1)], none, none⟩
      ⟨0, "addresses", "Address", [.vref 2, .vref 3]⟩
      rfl rfl rfl rfl rfl rfl (List.mem_cons_self _ _) (by decide)
      rfl rfl rfl).2.2.2.1⟩

theorem isinst_pcList_writeField (h : Heap) (i : Nat) (k : String)
    (v sv : HVal) :
    isinst (writeField h i k v) sv .pcList = isinst h sv .pcList := by
  cases sv <;> simp [isinst]
  case vref j =>
    by_cases hij : i = j
    · subst hij
      unfold writeField
      cases hst : nodeOf h i with
      | none => rfl
      | some st =>
          have hg := nodeOf_get h i st hst
          have hlt := heap_get_lt h i _ hg
          rw [heap_get_set_self _ _ _ hlt, hg]
    · rw [get_writeField_ne h i k v j hij]

theorem mark_dirty_step (f : Nat) (h : Heap) (id p : Nat) (k : String)
    (st pst : NodeState)
    (hn : nodeOf h id = some st) (hp : st.parent = some p)
    (hk : st.parentKey = some k) (hpp : nodeOf h p = some pst)
    (hnotlist : ∀ sv, alGet pst.data k = some sv →
      isinst h sv .pcList = false) :
    mark_dirty (f+1) h id =
      mark_dirty f (writeField h p k (.vref id)) p := by
  conv_lhs => rw [mark_dirty]
  simp only [hn, hp, hk, hpp]
  cases halg : alGet pst.data k with
  | none => simp
  | some sv => simp [hnotlist sv halg]

/-- Claim C2: in a three-level tree root → child → grandchild linked
through object-typed fields (slots not holding array containers), a
successful scalar write on the grandchild rewrites every strict-object
ancestor's slot for the mutated path to the mutated node, so the root's
plain-map form contains the new value without any explicit re-assignment. -/
theorem mso_c2_dirty_propagation (env : Env) (f : Nat) (h : Heap)
    (r c g : Nat) (kc kg name : String) (v : HVal)
    (rst cst gst : NodeState)
    (hng : nodeOf h g = some gst)
    (hgp : gst.parent = some c) (hgk : gst.parentKey = some kg)
    (hnc : nodeOf h c = some cst)
    (hcp : cst.parent = some r) (hck : cst.parentKey = some kc)
    (hnr : nodeOf h r = some rst)
    (hrp : rst.parent = none)
    (hgc : g ≠ c) (hgr : g ≠ r) (hcr : c ≠ r)
    (hslotC : ∀ sv, alGet cst.data kg = some sv →
      isinst h sv .pcList = false)
    (hslotR : ∀ sv, alGet rst.data kc = some sv →
      isinst h sv .pcList = false)
    (hres : reservedName name = false)
    (hv : isScalarV v = true)
    (hval : validate_field_type env h gst.cls name v = .ok ()) :
    setattrM env (f+4) h g name v =
      some (writeField (writeField (writeField h g name v) c kg
        (.vref g)) r kc (.vref c), .ok ()) ∧
    nodeOf (writeField (writeField (writeField h g name v) c kg
        (.vref g)) r kc (.vref c)) g =
      some {gst with data := alSet gst.data name v} ∧
    (∃ cst', nodeOf (writeField (writeField (writeField h g name v) c kg
        (.vref g)) r kc (.vref c)) c = some cst' ∧
      alGet cst'.data kg = some (.vref g)) ∧
    (∃ rst', nodeOf (writeField (writeField (writeField h g name v) c kg
        (.vref g)) r kc (.vref c)) r = some rst' ∧
      alGet rst'.data kc = some (.vref c)) ∧
    (∀ f2 d, to_dict f2 (writeField (writeField (writeField h g name v)
        c kg (.vref g)) r kc (.vref c)) r = some d →
      ∃ dc dg, alGet d kc = some (.vdict dc) ∧
        alGet dc kg = some (.vdict dg) ∧ alGet dg name = some v) := by
  set h1 := writeField h g name v with hh1
  set h2 := writeField h1 c kg (.vref g) with hh2
  set h3 := writeField h2 r kc (.vref c) with hh3
  have hn1g : nodeOf h1 g = some {gst with data := alSet gst.data name v} :=
    nodeOf_writeField_self h g name v gst hng
  have hn1c : nodeOf h1 c = some cst := by
    rw [hh1, nodeOf_writeField_ne h g name v c hgc]; exact hnc
  have hn2c : nodeOf h2 c =
      some {cst with data := alSet cst.data kg (.vref g)} :=
    nodeOf_writeField_self h1 c kg (.vref g) cst hn1c
  have hn2r : nodeOf h2 r = some rst := by
    rw [hh2, nodeOf_writeField_ne h1 c kg (.vref g) r hcr, hh1,
      nodeOf_writeField_ne h g name v r hgr]
    exact hnr
  have hn3r : nodeOf h3 r =
      some {rst with data := alSet rst.data kc (.vref c)} :=
    nodeOf_writeField_self h2 r kc (.vref c) rst hn2r
  have hn3g : nodeOf h3 g = some {gst with data := alSet gst.data name v} := by
    rw [hh3, nodeOf_writeField_ne h2 r kc (.vref c) g
      (fun hx => hgr hx.symm), hh2,
      nodeOf_writeField_ne h1 c kg (.vref g) g (fun hx => hgc hx.symm)]
    exact hn1g
  have hn3c : nodeOf h3 c =
      some {cst with data := alSet cst.data kg (.vref g)} := by
    rw [hh3, nodeOf_writeField_ne h2 r kc (.vref c) c
      (fun hx => hcr hx.symm)]
    exact hn2c
  have hmd : mark_dirty (f+3) h1 g = some h3 := by
    rw [mark_dirty_step (f+2) h1 g c kg _ cst hn1g hgp hgk hn1c
      (fun sv hsv => by
        rw [hh1, isinst_pcList_writeField]
        exact hslotC sv hsv)]
    rw [show writeField h1 c kg (.vref g) = h2 from rfl]
    rw [mark_dirty_step (f+1) h2 c r kc _ rst hn2c hcp hck hn2r
      (fun sv hsv => by
        rw [hh2, isinst_pcList_writeField, hh1, isinst_pcList_writeField]
        exact hslotR sv hsv)]
    rw [show writeField h2 r kc (.vref c) = h3 from rfl]
    exact mark_dirty_root f h3 r _ hn3r hrp
  refine ⟨?_, hn3g, ⟨_, hn3c, alGet_alSet_self _ _ _⟩,
    ⟨_, hn3r, alGet_alSet_self _ _ _⟩, ?_⟩
  · have := setattrM_scalar_ok env (f+2) h g name v gst hres hng hv hval
    rw [this, ← hh1, hmd]
    rfl
  · intro f2 d hser
    cases f2 with
    | zero => simp [to_dict] at hser
    | succ fa =>
        simp only [to_dict, hn3r] at hser
        obtain ⟨svc, hsvc, houtc⟩ :=
          (serializeEntries_alGet _ fa h3 d hser kc).2 (.vref c)
            (alGet_alSet_self _ _ _)
        cases fa with
        | zero => simp [serializeVal] at hsvc
        | succ fb =>
            have hgc3 : h3.get c = some (.node
                {cst with data := alSet cst.data kg (.vref g)}) :=
              nodeOf_get h3 c _ hn3c
            simp only [serializeVal, hgc3] at hsvc
            cases hdc : to_dict fb h3 c with
            | none => rw [hdc] at hsvc; simp at hsvc
            | some dc =>
                rw [hdc] at hsvc
                simp at hsvc
                cases fb with
                | zero => simp [to_dict] at hdc
                | succ fc =>
                    simp only [to_dict, hn3c] at hdc
                    obtain ⟨svg, hsvg, houtg⟩ :=
                      (serializeEntries_alGet _ fc h3 dc hdc kg).2
                        (.vref g) (alGet_alSet_self _ _ _)
                    cases fc with
                    | zero => simp [serializeVal] at hsvg
                    | succ fd =>
                        have hgg3 : h3.get g = some (.node
                            {gst with data := alSet gst.data name v}) :=
                          nodeOf_get h3 g _ hn3g
                        simp only [serializeVal, hgg3] at hsvg
                        cases hdg : to_dict fd h3 g with
                        | none => rw [hdg] at hsvg; simp at hsvg
                        | some dg =>
                            rw [hdg] at hsvg
                            simp at hsvg
                            cases fd with
                            | zero => simp [to_dict] at hdg
                            | succ fe =>
                                simp only [to_dict, hn3g] at hdg
                                obtain ⟨svv, hsvv, houtv⟩ :=
                                  (serializeEntries_alGet _ fe h3 dg hdg
                                    name).2 v (alGet_alSet_self _ _ _)
                                have hsvv' : svv = v :=
                                  serializeVal_scalar_inv fe h3 v svv hv
                                    hsvv
                                refine ⟨dc, dg, ?_, ?_, ?_⟩
                                · rw [← hsvc] at houtc; exact houtc
                                · rw [← hsvg] at houtg; exact houtg
                                · rw [hsvv'] at houtv; exact houtv

/-- Claim C2 witness: writing the physician's name on the grandchild
propagates so that the root's `to_dict` contains the new value. -/
theorem mso_c2_witness :
    setattrM envA 7 hT 2 "name" (.vstr "Dr") =
      some (writeField (writeField (writeField hT 2 "name" (.vstr "Dr"))
        1 "physician" (.vref 2)) 0 "health" (.vref 1), .ok ()) ∧
    (∃ dc dg,
      alGet [("health", HVal.vdict [("physician",
        HVal.vdict [("name", HVal.vstr "Dr")])])] "health" =
          some (.vdict dc) ∧
      alGet dc "physician" = some (.vdict dg) ∧
      alGet dg "name" = some (.vstr "Dr")) := by
  have H := mso_c2_dirty_propagation envA 3 hT 0 1 2 "health" "physician"
    "name" (.vstr "Dr")
    ⟨"Person", [("health", .vref 1)], none, none⟩
    ⟨"Health", [("physician", .vref 2)], some 0, some "health"⟩
    ⟨"Physician", [], some 1, some "physician"⟩
    rfl rfl rfl rfl rfl rfl rfl rfl (by decide) (by decide) (by decide)
    (by
      intro sv hsv
      rw [show alGet [("physician", HVal.vref 2)] "physician" =
        some (HVal.vref 2) from rfl] at hsv
      injection hsv with he
      rw [← he]
      rfl)
    (by
      intro sv hsv
      rw [show alGet [("health", HVal.vref 1)] "health" =
        some (HVal.vref 1) from rfl] at hsv
      injection hsv with he
      rw [← he]
      rfl)
    rfl rfl rfl
  exact ⟨H.1, H.2.2.2.2 9
    [("health", HVal.vdict [("physician",
      HVal.vdict [("name", HVal.vstr "Dr")])])] rfl⟩

theorem stampList_refFree (h : Heap) (items : List HVal) (id : Nat)
    (name : String) (hrf : refFreeList items = true) :
    stampList h items id name = h := by
  induction items with
  | nil => rfl
  | cons v rest ih =>
      rw [refFreeList, Bool.and_eq_true] at hrf
      obtain ⟨h1, h2⟩ := hrf
      cases v <;> simp [refFree] at h1 <;> simp [stampList, ih h2]

theorem stampParent_refFree (h : Heap) (v : HVal) (id : Nat)
    (name : String) (hrf : refFree v = true) :
    stampParent h v id name = h := by
  cases v <;> simp [refFree] at hrf <;> try rfl
  case vlist xs => exact stampList_refFree h xs id name hrf

theorem deserialize_keep (env : Env) (f : Nat) (h : Heap)
    (cls name : String) (v : HVal)
    (hact : deseAction env h cls name v = .keep) :
    deserialize_field env (f+1) h cls name v = some (h, .ok v) := by
  simp [deserialize_field, hact]

theorem setattrM_keep (env : Env) (f : Nat) (h : Heap) (id : Nat)
    (name : String) (v : HVal) (st : NodeState)
    (hres : reservedName name = false)
    (hn : nodeOf h id = some st)
    (hact : deseAction env h st.cls name v = .keep)
    (hval : validate_field_type env h st.cls name v = .ok ()) :
    setattrM env (f+2) h id name v =
      (mark_dirty (f+1) (writeField (stampParent h v id name) id name v)
        id).map (fun h4 => (h4, .ok ())) := by
  show setattrM env (f+1+1) h id name v = _
  unfold setattrM
  rw [hres]
  simp only [Bool.false_eq_true, if_false, hn]
  rw [deserialize_keep env f h st.cls name v hact]
  simp only [steBind, hval]
  cases hmd : mark_dirty (f+1)
    (writeField (stampParent h v id name) id name v) id <;> simp [hmd]

theorem deseAction_unknown (env : Env) (h : Heap) (cls name : String)
    (v : HVal) (hfs : alGet (envProps env cls) name = none) :
    deseAction env h cls name v = .keep := by
  unfold deseAction
  simp only [hfs, Option.getD_none]
  (repeat' split) <;>
    simp_all [emptyFS, FieldSchema.items, FieldSchema.effType,
      FieldSchema.bsonType, FieldSchema.typeKey, collapseBT]

theorem validate_unknown (env : Env) (h : Heap) (cls name : String)
    (v : HVal) (hfs : alGet (envProps env cls) name = none) :
    validate_field_type env h cls name v = .ok () := by
  by_cases hs : underscoreFirst name
  · simp [validate_field_type, hs, pure, Except.pure]
  · simp [validate_field_type, hs, hfs, emptyFS, FieldSchema.enum,
      FieldSchema.effType, FieldSchema.bsonType, FieldSchema.typeKey,
      pure, Except.pure, Bind.bind, Except.bind]

/-- Claim C3 counterexample: on a `Person` node, writing the name
`nickname` — absent from both the stored fields and the schema — is
claimed to fail with `UnknownField` and store nothing; instead the write
succeeds and silently stores the value (`__setattr__` never checks the
schema for unknown names and `_validate_field_type` passes vacuously). -/
theorem mso_c3_counterexample :
    setattrM envA 9 [HObj.node ⟨"Person", [], none, none⟩] 0 "nickname"
        (.vstr "x") =
      some ([HObj.node ⟨"Person", [("nickname", .vstr "x")], none,
        none⟩], .ok ()) := by
  rfl

/-- Claim C3 (amended): reading a non-reserved name absent from the
stored fields, the nested-class wiring and the schema fails with
`AttributeError` (`UnknownField`); but writing such a name does not fail —
the value is silently deserialized as-is, passes the vacuous validation,
and is stored in the field map. -/
theorem mso_c3_unknown_field (env : Env) (f : Nat) (h : Heap) (id : Nat)
    (name : String) (v : HVal) (st : NodeState)
    (hn : nodeOf h id = some st)
    (hd : alGet st.data name = none)
    (hna : envNestedAttr env st.cls name = none)
    (hfs : alGet (envProps env st.cls) name = none)
    (hp : st.parent = none)
    (hres : reservedName name = false)
    (hrf : refFree v = true) :
    getattrM env h id name = (h, .error (.attributeError st.cls name)) ∧
    setattrM env (f+2) h id name v =
      some (writeField h id name v, .ok ()) ∧
    nodeOf (writeField h id name v) id =
      some {st with data := alSet st.data name v} := by
  refine ⟨?_, ?_, nodeOf_writeField_self h id name v st hn⟩
  · simp [getattrM, hn, hd, hna, hfs]
  · rw [setattrM_keep env f h id name v st hres hn
      (deseAction_unknown env h st.cls name v hfs)
      (validate_unknown env h st.cls name v hfs)]
    rw [stampParent_refFree h v id name hrf]
    rw [mark_dirty_root f _ id _ (nodeOf_writeField_self h id name v st
      hn) hp]
    rfl

/-- Claim C3 amended witness: reading `nickname` on a fresh `Person`
raises `AttributeError`, while writing it silently stores the value. -/
theorem mso_c3_witness :
    getattrM envA [HObj.node ⟨"Person", [], none, none⟩] 0 "nickname" =
      ([HObj.node ⟨"Person", [], none, none⟩],
        .error (.attributeError "Person" "nickname")) ∧
    setattrM envA 7 [HObj.node ⟨"Person", [], none, none⟩] 0 "nickname"
        (.vstr "x") =
      some (writeField [HObj.node ⟨"Person", [], none, none⟩] 0
        "nickname" (.vstr "x"), .ok ()) ∧
    nodeOf (writeField [HObj.node ⟨"Person", [], none, none⟩] 0
        "nickname" (.vstr "x")) 0 =
      some ⟨"Person", [("nickname", .vstr "x")], none, none⟩ :=
  mso_c3_unknown_field envA 5 [HObj.node ⟨"Person", [], none, none⟩] 0
    "nickname" (.vstr "x") ⟨"Person", [], none, none⟩
    rfl rfl rfl rfl rfl rfl rfl

theorem length_writeField (h : Heap) (i : Nat) (k : String) (v : HVal) :
    (writeField h i k v).length = h.length := by
  unfold writeField
  cases nodeOf h i <;> simp [Heap.setObj]

theorem length_stampOne (h : Heap) (j id : Nat) (name : String) :
    (stampOne h j id name).length = h.length := by
  unfold stampOne
  cases nodeOf h j <;> simp [Heap.setObj]

theorem length_stampList (h : Heap) (items : List HVal) (id : Nat)
    (name : String) : (stampList h items id name).length = h.length := by
  induction items generalizing h with
  | nil => rfl
  | cons v rest ih =>
      cases v <;> simp [stampList, ih, length_stampOne] <;>
        (try split) <;> simp [ih, length_stampOne]

theorem length_stampParent (h : Heap) (v : HVal) (id : Nat)
    (name : String) : (stampParent h v id name).length = h.length := by
  cases v <;> simp [stampParent, length_stampOne, length_stampList]
  case vref j => cases h.get j with
    | none => rfl
    | some o => cases o <;> simp [length_stampOne, length_stampList]

theorem get_stampOne_ne (h : Heap) (j id : Nat) (name : String) (i : Nat)
    (hij : i ≠ j) : (stampOne h j id name).get i = h.get i := by
  unfold stampOne
  cases nodeOf h j with
  | none => rfl
  | some st => exact heap_get_set_ne h j i _ (fun hx => hij hx.symm)

theorem get_stampList_lt (h : Heap) (items : List HVal) (id : Nat)
    (name : String) (M i : Nat) (hi : i < M)
    (hsafe : ∀ j, HVal.vref j ∈ items → M ≤ j) :
    (stampList h items id name).get i = h.get i := by
  induction items generalizing h with
  | nil => rfl
  | cons v rest ih =>
      have hrest : ∀ j, HVal.vref j ∈ rest → M ≤ j :=
        fun j hj => hsafe j (List.mem_cons_of_mem _ hj)
      cases v with
      | vref j =>
          have hj : M ≤ j := hsafe j (List.mem_cons_self _ _)
          have hij : i ≠ j := Nat.ne_of_lt (Nat.lt_of_lt_of_le hi hj)
          show (stampList (if (nodeOf h j).isSome = true then
            stampOne h j id name else h) rest id name).get i = h.get i
          by_cases hn : (nodeOf h j).isSome = true
          · rw [if_pos hn, ih _ hrest, get_stampOne_ne h j id name i hij]
          · rw [if_neg hn, ih _ hrest]
      | vnone => exact ih h hrest
      | vbool b => exact ih h hrest
      | vint n => exact ih h hrest
      | vstr t => exact ih h hrest
      | vfloat n => exact ih h hrest
      | vdate n => exact ih h hrest
      | vobjid t => exact ih h hrest
      | vbytes lb => exact ih h hrest
      | vdec n => exact ih h hrest
      | vlist ys => exact ih h hrest
      | vdict d => exact ih h hrest

theorem get_stampParent_lt (h : Heap) (v : HVal) (id : Nat)
    (name : String) (M i : Nat) (hi : i < M)
    (hsafe : stampSafe h M v) :
    (stampParent h v id name).get i = h.get i := by
  cases v with
  | vref j =>
      obtain ⟨hj, hw⟩ := hsafe
      have hij : i ≠ j := Nat.ne_of_lt (Nat.lt_of_lt_of_le hi hj)
      show (match h.get j with
        | some (HObj.node _) => stampOne h j id name
        | some (HObj.wrap w) => stampList h w.items id name
        | none => h).get i = h.get i
      cases hg : h.get j with
      | none => rfl
      | some o =>
          cases o with
          | node st => exact get_stampOne_ne h j id name i hij
          | wrap w =>
              exact get_stampList_lt h w.items id name M i hi
                (hw w (by unfold wrapOf; rw [hg]))
  | vlist xs => exact get_stampList_lt h xs id name M i hi hsafe
  | vnone => rfl
  | vbool b => rfl
  | vint n => rfl
  | vstr t => rfl
  | vfloat n => rfl
  | vdate n => rfl
  | vobjid t => rfl
  | vbytes lb => rfl
  | vdec n => rfl
  | vdict d => rfl

theorem deseAction_convObj_inv (env : Env) (h : Heap) (cls name : String)
    (v : HVal) (c : String) (kvs : List (String × HVal))
    (hact : deseAction env h cls name v = .convObj c kvs) :
    v = .vdict kvs := by
  unfold deseAction at hact
  repeat'
    first
      | split at hact
      | simp_all

theorem deseAction_convArr_inv (env : Env) (h : Heap) (cls name : String)
    (v : HVal) (ic : String) (items : List HVal)
    (hact : deseAction env h cls name v = .convArr ic items) :
    isinst h v .pcList = true ∧ items = iterItems h v := by
  unfold deseAction at hact
  repeat'
    first
      | split at hact
      | simp_all

theorem nodeOf_not_wrap (h : Heap) (i : Nat) (st : NodeState)
    (hn : nodeOf h i = some st) : wrapOf h i = none := by
  unfold wrapOf
  rw [nodeOf_get h i st hn]

theorem nodeOf_of_get_eq (h h2 : Heap) (i : Nat) (st : NodeState)
    (hn : nodeOf h i = some st) (hg : h2.get i = h.get i) :
    nodeOf h2 i = some st := by
  unfold nodeOf
  rw [hg]
  rw [nodeOf_get h i st hn]

theorem refFreeList_not_mem_ref (xs : List HVal) (j : Nat)
    (hrf : refFreeList xs = true) (hm : HVal.vref j ∈ xs) : False := by
  induction xs with
  | nil => simp at hm
  | cons v rest ih =>
      rw [refFreeList, Bool.and_eq_true] at hrf
      rcases List.mem_cons.mp hm with he | hm2
      · rw [← he] at hrf
        simp [refFree] at hrf
      · exact ih hrf.2 hm2

theorem stampSafe_refFree (h : Heap) (M : Nat) (v : HVal)
    (hrf : refFree v = true) : stampSafe h M v := by
  cases v <;> simp [stampSafe]
  case vref j => simp [refFree] at hrf
  case vlist xs =>
      intro j hm
      exact absurd (refFreeList_not_mem_ref xs j hrf hm) (fun hx => hx)

theorem refFree_isinst_list (h : Heap) (v : HVal)
    (hrf : refFree v = true) (hl : isinst h v .pcList = true) :
    ∃ xs, v = .vlist xs := by
  cases v <;> simp_all [isinst, refFree]

theorem cluster_items_plain (env : Env) (f : Nat)
    (ih2 : ∀ h ic items h1 r, refFreeList items = true →
      noResList items = true →
      deserialize_items env f h ic items = some (h1, r) →
      h.length ≤ h1.length ∧ (∀ i, i < h.length → h1.get i = h.get i) ∧
      (∀ vs, r = .ok vs → ∀ j, HVal.vref j ∈ vs → h.length ≤ j))
    (ih3 : ∀ h cls kwargs h1 r, refFreeEntries kwargs = true →
      noResEntries kwargs = true →
      model_init env f h cls kwargs = some (h1, r) →
      h.length ≤ h1.length ∧ (∀ i, i < h.length → h1.get i = h.get i) ∧
      (∀ nid, r = .ok nid → nid = h.length ∧
        ∃ st, nodeOf h1 nid = some st ∧ st.parent = none))
    (h : Heap) (ic : String) (rest : List HVal)
    (h1 : Heap) (r : Except PyErr (List HVal)) (v : HVal)
    (hrf2 : refFreeList rest = true) (hnr2 : noResList rest = true)
    (hvr : refFree v = true)
    (hd : (steBind (some (h, Except.ok v)) (fun h0 v' =>
      steBind (deserialize_items env f h0 ic rest)
        (fun h2 vs => some (h2, .ok (v' :: vs))))) = some (h1, r)) :
    h.length ≤ h1.length ∧ (∀ i, i < h.length → h1.get i = h.get i) ∧
    (∀ vs, r = .ok vs → ∀ j, HVal.vref j ∈ vs → h.length ≤ j) := by
  simp only [steBind] at hd
  cases hdi : deserialize_items env f h ic rest with
  | none => rw [hdi] at hd; simp at hd
  | some q =>
      obtain ⟨h3, r3⟩ := q
      rw [hdi] at hd
      cases r3 with
      | error e =>
          simp at hd
          obtain ⟨rfl, rfl⟩ := hd
          have H2 := ih2 h ic rest h3 (.error e) hrf2 hnr2 hdi
          exact ⟨H2.1, H2.2.1, fun vs hvs => by simp at hvs⟩
      | ok vs =>
          simp at hd
          obtain ⟨rfl, rfl⟩ := hd
          have H2 := ih2 h ic rest h3 (.ok vs) hrf2 hnr2 hdi
          refine ⟨H2.1, H2.2.1, ?_⟩
          intro vs' hvs j hj
          injection hvs with he
          rw [← he] at hj
          rcases List.mem_cons.mp hj with he2 | hm2
          · rw [← he2] at hvr
            simp [refFree] at hvr
          · exact H2.2.2 vs rfl j hm2

theorem cluster_preserves (env : Env) : ∀ f : Nat,
    (∀ h cls name v h1 r, refFree v = true → noResKeys v = true →
      deserialize_field env f h cls name v = some (h1, r) →
      h.length ≤ h1.length ∧ (∀ i, i < h.length → h1.get i = h.get i) ∧
      (∀ dv, r = .ok dv → stampSafe h1 h.length dv)) ∧
    (∀ h ic items h1 r, refFreeList items = true →
      noResList items = true →
      deserialize_items env f h ic items = some (h1, r) →
      h.length ≤ h1.length ∧ (∀ i, i < h.length → h1.get i = h.get i) ∧
      (∀ vs, r = .ok vs → ∀ j, HVal.vref j ∈ vs → h.length ≤ j)) ∧
    (∀ h cls kwargs h1 r, refFreeEntries kwargs = true →
      noResEntries kwargs = true →
      model_init env f h cls kwargs = some (h1, r) →
      h.length ≤ h1.length ∧ (∀ i, i < h.length → h1.get i = h.get i) ∧
      (∀ nid, r = .ok nid → nid = h.length ∧
        ∃ st, nodeOf h1 nid = some st ∧ st.parent = none)) ∧
    (∀ h id kwargs h1 r st, refFreeEntries kwargs = true →
      noResEntries kwargs = true →
      nodeOf h id = some st → st.parent = none →
      setattr_kwargs env f h id kwargs = some (h1, r) →
      h.length ≤ h1.length ∧
      (∀ i, i < h.length → i ≠ id → h1.get i = h.get i) ∧
      (∃ st', nodeOf h1 id = some st' ∧ st'.parent = none)) ∧
    (∀ h id name v h1 r st, refFree v = true → noResKeys v = true →
      reservedName name = false →
      nodeOf h id = some st → st.parent = none →
      setattrM env f h id name v = some (h1, r) →
      h.length ≤ h1.length ∧
      (∀ i, i < h.length → i ≠ id → h1.get i = h.get i) ∧
      (∃ st', nodeOf h1 id = some st' ∧ st'.parent = none)) := by
  intro f
  induction f with
  | zero =>
      refine ⟨?_, ?_, ?_, ?_, ?_⟩
      · intro h cls name v h1 r _ _ hd
        simp [deserialize_field] at hd
      · intro h ic items h1 r _ _ hd
        simp [deserialize_items] at hd
      · intro h cls kwargs h1 r _ _ hd
        simp [model_init] at hd
      · intro h id kwargs h1 r st _ _ _ _ hd
        simp [setattr_kwargs] at hd
      · intro h id name v h1 r st _ _ _ _ _ hd
        simp [setattrM] at hd
  | succ f ih =>
      obtain ⟨ih1, ih2, ih3, ih4, ih5⟩ := ih
      refine ⟨?_, ?_, ?_, ?_, ?_⟩
      -- deserialize_field
      · intro h cls name v h1 r hrf hnr hd
        simp only [deserialize_field] at hd
        cases hact : deseAction env h cls name v with
        | keep =>
            rw [hact] at hd
            simp at hd
            obtain ⟨rfl, rfl⟩ := hd
            refine ⟨Nat.le_refl _, fun i _ => rfl, ?_⟩
            intro dv hdv
            injection hdv with he
            rw [← he]
            exact stampSafe_refFree _ _ v hrf
        | convObj c kvs =>
            rw [hact] at hd
            obtain rfl := deseAction_convObj_inv env h cls name v c kvs
              hact
            have hrfE : refFreeEntries kvs = true := by
              simpa [refFree] using hrf
            have hnrE : noResEntries kvs = true := by
              simpa [noResKeys] using hnr
            have hd2 : steBind (model_init env f h c kvs)
                (fun h0 nid => some (h0, Except.ok (HVal.vref nid))) =
                some (h1, r) := hd
            cases hmi : model_init env f h c kvs with
            | none => rw [hmi] at hd2; simp [steBind] at hd2
            | some p =>
                obtain ⟨h2, r2⟩ := p
                rw [hmi] at hd2
                cases r2 with
                | error e =>
                    simp [steBind] at hd2
                    obtain ⟨rfl, rfl⟩ := hd2
                    have H := ih3 h c kvs h2 (.error e) hrfE hnrE hmi
                    exact ⟨H.1, H.2.1, fun dv hdv => by simp at hdv⟩
                | ok nid =>
                    simp [steBind] at hd2
                    obtain ⟨rfl, rfl⟩ := hd2
                    have H := ih3 h c kvs h2 (.ok nid) hrfE hnrE hmi
                    obtain ⟨hnid, st, hst, hsp⟩ := H.2.2 nid rfl
                    refine ⟨H.1, H.2.1, ?_⟩
                    intro dv hdv
                    injection hdv with he
                    rw [← he]
                    refine ⟨by omega, ?_⟩
                    intro w hw
                    rw [nodeOf_not_wrap h2 nid st hst] at hw
                    simp at hw
        | convArr ic items =>
            rw [hact] at hd
            obtain ⟨hlist, hitems⟩ := deseAction_convArr_inv env h cls
              name v ic items hact
            obtain ⟨xs, rfl⟩ := refFree_isinst_list h v hrf hlist
            have hxs : items = xs := by
              rw [hitems]; rfl
            subst hxs
            have hrfL : refFreeList items = true := by
              simpa [refFree] using hrf
            have hnrL : noResList items = true := by
              simpa [noResKeys] using hnr
            have hd2 : steBind (deserialize_items env f h ic items)
                (fun h0 vs => some (h0, Except.ok (HVal.vlist vs))) =
                some (h1, r) := hd
            cases hdi : deserialize_items env f h ic items with
            | none => rw [hdi] at hd2; simp [steBind] at hd2
            | some p =>
                obtain ⟨h2, r2⟩ := p
                rw [hdi] at hd2
                cases r2 with
                | error e =>
                    simp [steBind] at hd2
                    obtain ⟨rfl, rfl⟩ := hd2
                    have H := ih2 h ic items h2 (.error e) hrfL hnrL hdi
                    exact ⟨H.1, H.2.1, fun dv hdv => by simp at hdv⟩
                | ok vs =>
                    simp [steBind] at hd2
                    obtain ⟨rfl, rfl⟩ := hd2
                    have H := ih2 h ic items h2 (.ok vs) hrfL hnrL hdi
                    refine ⟨H.1, H.2.1, ?_⟩
                    intro dv hdv
                    injection hdv with he
                    rw [← he]
                    exact fun j hj => H.2.2 vs rfl j hj
      -- deserialize_items
      · intro h ic items h1 r hrf hnr hd
        cases items with
        | nil =>
            simp [deserialize_items] at hd
            obtain ⟨rfl, rfl⟩ := hd
            exact ⟨Nat.le_refl _, fun i _ => rfl,
              fun vs hvs => by
                injection hvs with he
                rw [← he]
                intro j hj
                simp at hj⟩
        | cons v rest =>
            rw [refFreeList, Bool.and_eq_true] at hrf
            obtain ⟨hrf1, hrf2⟩ := hrf
            rw [noResList, Bool.and_eq_true] at hnr
            obtain ⟨hnr1, hnr2⟩ := hnr
            simp only [deserialize_items] at hd
            cases v with
            | vdict kvs =>
                have hrfE : refFreeEntries kvs = true := by
                  simpa [refFree] using hrf1
                have hnrE : noResEntries kvs = true := by
                  simpa [noResKeys] using hnr1
                have hd2 : steBind (steBind (model_init env f h ic kvs)
                    (fun h0 nid => some (h0, Except.ok (HVal.vref nid))))
                    (fun hA v2 =>
                      steBind (deserialize_items env f hA ic rest)
                        (fun hB vs => some (hB, Except.ok (v2 :: vs)))) =
                    some (h1, r) := hd
                cases hmi : model_init env f h ic kvs with
                | none => rw [hmi] at hd2; simp [steBind] at hd2
                | some p =>
                    obtain ⟨h2, r2⟩ := p
                    rw [hmi] at hd2
                    cases r2 with
                    | error e =>
                        simp [steBind] at hd2
                        obtain ⟨rfl, rfl⟩ := hd2
                        have H := ih3 h ic kvs h2 (.error e) hrfE hnrE hmi
                        exact ⟨H.1, H.2.1,
                          fun vs hvs => by simp at hvs⟩
                    | ok nid =>
                        have H := ih3 h ic kvs h2 (.ok nid) hrfE hnrE hmi
                        obtain ⟨hnid, stn, hstn, _⟩ := H.2.2 nid rfl
                        simp only [steBind] at hd2
                        cases hdi : deserialize_items env f h2 ic rest
                          with
                        | none => rw [hdi] at hd2; simp at hd2
                        | some q =>
                            obtain ⟨h3, r3⟩ := q
                            rw [hdi] at hd2
                            cases r3 with
                            | error e =>
                                simp at hd2
                                obtain ⟨rfl, rfl⟩ := hd2
                                have H2 := ih2 h2 ic rest h3 (.error e)
                                  hrf2 hnr2 hdi
                                refine ⟨Nat.le_trans H.1 H2.1, ?_,
                                  fun vs hvs => by simp at hvs⟩
                                intro i hi
                                rw [H2.2.1 i (Nat.lt_of_lt_of_le hi H.1),
                                  H.2.1 i hi]
                            | ok vs =>
                                simp at hd2
                                obtain ⟨rfl, rfl⟩ := hd2
                                have H2 := ih2 h2 ic rest h3 (.ok vs)
                                  hrf2 hnr2 hdi
                                refine ⟨Nat.le_trans H.1 H2.1, ?_, ?_⟩
                                · intro i hi
                                  rw [H2.2.1 i
                                    (Nat.lt_of_lt_of_le hi H.1),
                                    H.2.1 i hi]
                                · intro vs' hvs j hj
                                  injection hvs with he
                                  rw [← he] at hj
                                  rcases List.mem_cons.mp hj with he2 |
                                    hm2
                                  · injection he2 with he3
                                    omega
                                  · have := H2.2.2 vs rfl j hm2
                                    omega
            | vref j => simp [refFree] at hrf1
            | vnone =>
                exact cluster_items_plain env f ih2 ih3 h ic rest h1 r
                  .vnone hrf2 hnr2 hrf1 hd
            | vbool b =>
                exact cluster_items_plain env f ih2 ih3 h ic rest h1 r
                  (.vbool b) hrf2 hnr2 hrf1 hd
            | vint n =>
                exact cluster_items_plain env f ih2 ih3 h ic rest h1 r
                  (.vint n) hrf2 hnr2 hrf1 hd
            | vstr t =>
                exact cluster_items_plain env f ih2 ih3 h ic rest h1 r
                  (.vstr t) hrf2 hnr2 hrf1 hd
            | vfloat n =>
                exact cluster_items_plain env f ih2 ih3 h ic rest h1 r
                  (.vfloat n) hrf2 hnr2 hrf1 hd
            | vdate n =>
                exact cluster_items_plain env f ih2 ih3 h ic rest h1 r
                  (.vdate n) hrf2 hnr2 hrf1 hd
            | vobjid t =>
                exact cluster_items_plain env f ih2 ih3 h ic rest h1 r
                  (.vobjid t) hrf2 hnr2 hrf1 hd
            | vbytes lb =>
                exact cluster_items_plain env f ih2 ih3 h ic rest h1 r
                  (.vbytes lb) hrf2 hnr2 hrf1 hd
            | vdec n =>
                exact cluster_items_plain env f ih2 ih3 h ic rest h1 r
                  (.vdec n) hrf2 hnr2 hrf1 hd
            | vlist ys =>
                exact cluster_items_plain env f ih2 ih3 h ic rest h1 r
                  (.vlist ys) hrf2 hnr2 hrf1 hd
      -- model_init
      · intro h cls kwargs h1 r hrf hnr hd
        simp only [model_init] at hd
        unfold steBind at hd
        have hn0 : nodeOf (h ++ [HObj.node ⟨cls, [], none, none⟩])
            h.length = some ⟨cls, [], none, none⟩ := by
          unfold nodeOf
          rw [heap_get_append_new]
        cases hsk : setattr_kwargs env f
            (h ++ [HObj.node ⟨cls, [], none, none⟩]) h.length kwargs with
        | none => rw [hsk] at hd; simp at hd
        | some p =>
            obtain ⟨h2, r2⟩ := p
            rw [hsk] at hd
            have H := ih4 (h ++ [HObj.node ⟨cls, [], none, none⟩])
              h.length kwargs h2 r2 ⟨cls, [], none, none⟩ hrf hnr hn0 rfl
              hsk
            have hlen : h.length ≤ h2.length := by
              have := H.1
              simp at this
              omega
            have hpres : ∀ i, i < h.length → h2.get i = h.get i := by
              intro i hi
              rw [H.2.1 i (by simp; omega) (Nat.ne_of_lt hi)]
              exact heap_get_append_old h _ i hi
            cases r2 with
            | error e =>
                simp at hd
                obtain ⟨rfl, rfl⟩ := hd
                exact ⟨hlen, hpres, fun nid hnid => by simp at hnid⟩
            | ok u =>
                simp at hd
                obtain ⟨rfl, rfl⟩ := hd
                refine ⟨hlen, hpres, ?_⟩
                intro nid hnid
                injection hnid with he
                rw [← he]
                exact ⟨rfl, H.2.2⟩
      -- setattr_kwargs
      · intro h id kwargs h1 r st hrf hnr hn hp hd
        cases kwargs with
        | nil =>
            simp [setattr_kwargs] at hd
            obtain ⟨rfl, rfl⟩ := hd
            exact ⟨Nat.le_refl _, fun i _ _ => rfl, st, hn, hp⟩
        | cons kv rest =>
            obtain ⟨k, v⟩ := kv
            rw [noResEntries, Bool.and_eq_true, Bool.and_eq_true] at hnr
            obtain ⟨⟨hk, hnr1⟩, hnr2⟩ := hnr
            rw [refFreeEntries, Bool.and_eq_true] at hrf
            obtain ⟨hrf1, hrf2⟩ := hrf
            simp only [setattr_kwargs] at hd
            unfold steBind at hd
            cases hsa : setattrM env f h id k v with
            | none => rw [hsa] at hd; simp at hd
            | some p =>
                obtain ⟨h2, r2⟩ := p
                rw [hsa] at hd
                cases r2 with
                | error e =>
                    simp at hd
                    obtain ⟨rfl, rfl⟩ := hd
                    exact ih5 h id k v h2 (.error e) st hrf1 hnr1
                      (by simp at hk; exact hk) hn hp hsa
                | ok u =>
                    have H := ih5 h id k v h2 (.ok u) st hrf1 hnr1
                      (by simp at hk; exact hk) hn hp hsa
                    obtain ⟨st2, hst2, hp2⟩ := H.2.2
                    have H2 := ih4 h2 id rest h1 r st2 hrf2 hnr2 hst2
                      hp2 hd
                    refine ⟨Nat.le_trans H.1 H2.1, ?_, H2.2.2⟩
                    intro i hi hne
                    rw [H2.2.1 i (Nat.lt_of_lt_of_le hi H.1) hne,
                      H.2.1 i hi hne]
      -- setattrM
      · intro h id name v h1 r st hrf hnr hres hn hp hd
        have hid : id < h.length := heap_get_lt h id _ (nodeOf_get h id
          st hn)
        simp only [setattrM] at hd
        rw [hres] at hd
        simp only [Bool.false_eq_true, if_false, hn] at hd
        unfold steBind at hd
        cases hde : deserialize_field env f h st.cls name v with
        | none => rw [hde] at hd; simp at hd
        | some p =>
            obtain ⟨h2, r2⟩ := p
            rw [hde] at hd
            have H1 := ih1 h st.cls name v h2 r2 hrf hnr hde
            have hpres2 : ∀ i, i < h.length → h2.get i = h.get i :=
              H1.2.1
            have hn2 : nodeOf h2 id = some st :=
              nodeOf_of_get_eq h h2 id st hn (hpres2 id hid)
            cases r2 with
            | error e =>
                simp at hd
                obtain ⟨rfl, rfl⟩ := hd
                exact ⟨H1.1, fun i hi _ => hpres2 i hi, st, hn2, hp⟩
            | ok dv =>
                simp only at hd
                cases hval : validate_field_type env h2 st.cls name dv
                  with
                | error e =>
                    rw [hval] at hd
                    simp at hd
                    obtain ⟨rfl, rfl⟩ := hd
                    exact ⟨H1.1, fun i hi _ => hpres2 i hi, st, hn2, hp⟩
                | ok u =>
                    rw [hval] at hd
                    simp only at hd
                    have hsafe := H1.2.2 dv rfl
                    have hpres3 : ∀ i, i < h.length →
                        (stampParent h2 dv id name).get i = h.get i := by
                      intro i hi
                      rw [get_stampParent_lt h2 dv id name h.length i hi
                        ?_, hpres2 i hi]
                      exact hsafe
                    have hn3 : nodeOf (stampParent h2 dv id name) id =
                        some st :=
                      nodeOf_of_get_eq h _ id st hn (hpres3 id hid)
                    have hn4 := nodeOf_writeField_self
                      (stampParent h2 dv id name) id name dv st hn3
                    cases f with
                    | zero => simp [mark_dirty] at hd
                    | succ f' =>
                        rw [mark_dirty_root f' _ id _ hn4 hp] at hd
                        simp at hd
                        obtain ⟨rfl, rfl⟩ := hd
                        refine ⟨?_, ?_, ?_⟩
                        · rw [length_writeField, length_stampParent]
                          exact Nat.le_trans H1.1
                            (Nat.le_of_eq rfl)
                        · intro i hi hne
                          rw [get_writeField_ne _ id name dv i
                            (fun hx => hne hx.symm), hpres3 i hi]
                        · exact ⟨_, hn4, hp⟩

/-- Claim C4: an attribute write whose deserialized value fails
validation raises the error synchronously and leaves every pre-existing
object — in particular the written node's field map and every ancestor
slot — exactly as before the write (for plain document values, which
by construction carry no live references and no reserved keys). -/
theorem mso_c4_write_atomic (env : Env) (f : Nat) (h : Heap) (id : Nat)
    (name : String) (v : HVal) (h2 : Heap) (dv : HVal) (e : PyErr)
    (st : NodeState)
    (hrf : refFree v = true) (hnr : noResKeys v = true)
    (hres : reservedName name = false)
    (hn : nodeOf h id = some st)
    (hde : deserialize_field env f h st.cls name v = some (h2, .ok dv))
    (hval : validate_field_type env h2 st.cls name dv = .error e) :
    setattrM env (f+1) h id name v = some (h2, .error e) ∧
    (∀ i, i < h.length → h2.get i = h.get i) ∧
    nodeOf h2 id = some st := by
  have H1 := (cluster_preserves env f).1 h st.cls name v h2 (.ok dv)
    hrf hnr hde
  have hpres := H1.2.1
  have hid : id < h.length :=
    heap_get_lt h id _ (nodeOf_get h id st hn)
  refine ⟨?_, hpres, nodeOf_of_get_eq h h2 id st hn (hpres id hid)⟩
  simp only [setattrM, hres, Bool.false_eq_true, if_false, hn]
  rw [hde]
  simp only [steBind, hval]

/-- Claim C4 witness: assigning the string `"nope"` to the `int` field
`age` of a fresh `Person` fails with a `TypeError` and leaves the node
untouched. -/
theorem mso_c4_witness :
    refFree (HVal.vstr "nope") = true ∧
    noResKeys (HVal.vstr "nope") = true ∧
    reservedName "age" = false ∧
    nodeOf hC4 0 = some stC4 ∧
    deserialize_field envA 1 hC4 "Person" "age" (HVal.vstr "nope") =
      some (hC4, Except.ok (HVal.vstr "nope")) ∧
    validate_field_type envA hC4 "Person" "age" (HVal.vstr "nope") =
      Except.error (PyErr.typeError "age") ∧
    (setattrM envA 2 hC4 0 "age" (HVal.vstr "nope") =
        some (hC4, Except.error (PyErr.typeError "age")) ∧
      (∀ i, i < hC4.length → hC4.get i = hC4.get i) ∧
      nodeOf hC4 0 = some stC4) :=
  ⟨rfl, rfl, by decide, rfl, rfl, rfl,
    mso_c4_write_atomic envA 1 hC4 0 "age" (HVal.vstr "nope") hC4
      (HVal.vstr "nope") (PyErr.typeError "age") stC4 rfl rfl
      (by decide) rfl rfl rfl⟩

theorem alGet_mem {α : Type} :
    ∀ (l : List (String × α)) (k : String) (v : α),
    alGet l k = some v → (k, v) ∈ l := by
  intro l
  induction l with
  | nil => intro k v hg; simp [alGet] at hg
  | cons kv rest ih =>
      intro k v hg
      obtain ⟨k2, v2⟩ := kv
      rw [alGet] at hg
      by_cases hk : k2 = k
      · rw [if_pos hk] at hg
        injection hg with he
        rw [← hk, ← he]
        exact List.mem_cons_self _ _
      · rw [if_neg hk] at hg
        exact List.mem_cons_of_mem _ (ih k v hg)

theorem mem_alGet_isSome {α : Type} :
    ∀ (l : List (String × α)) (k : String) (v : α),
    (k, v) ∈ l → (alGet l k).isSome = true := by
  intro l
  induction l with
  | nil => intro k v hm; simp at hm
  | cons kv rest ih =>
      intro k v hm
      obtain ⟨k2, v2⟩ := kv
      rw [alGet]
      by_cases hk : k2 = k
      · rw [if_pos hk]; rfl
      · rw [if_neg hk]
        rcases List.mem_cons.mp hm with he | hm2
        · injection he with h1 h2
          exact absurd h1.symm hk
        · exact ih k v hm2

theorem mem_keys_of_alGet {α : Type} (l : List (String × α))
    (k : String) (v : α) (hg : alGet l k = some v) : k ∈ alKeys l := by
  have := alGet_mem l k v hg
  exact List.mem_map_of_mem Prod.fst this

theorem alGet_isSome_of_mem_keys {α : Type} (l : List (String × α))
    (k : String) (hk : k ∈ alKeys l) : (alGet l k).isSome = true := by
  obtain ⟨p, hp, he⟩ := List.mem_map.mp hk
  obtain ⟨k2, v⟩ := p
  simp at he
  rw [← he]
  exact mem_alGet_isSome l k2 v hp

theorem strNodup_iff_nodup : ∀ l : List String,
    strNodup l = true ↔ l.Nodup := by
  intro l
  induction l with
  | nil => simp [strNodup]
  | cons k rest ih =>
      rw [strNodup, Bool.and_eq_true, List.nodup_cons, ih]
      constructor
      · rintro ⟨h1, h2⟩
        refine ⟨?_, h2⟩
        intro hm
        rw [Bool.not_eq_true', ← Bool.not_eq_true] at h1
        exact h1 (List.elem_iff.mpr hm)
      · rintro ⟨h1, h2⟩
        refine ⟨?_, h2⟩
        rw [Bool.not_eq_true', ← Bool.not_eq_true]
        intro hc
        exact h1 (List.elem_iff.mp hc)

theorem alGet_of_mem_nodup {α : Type} :
    ∀ (l : List (String × α)) (k : String) (v : α),
    strNodup (alKeys l) = true → (k, v) ∈ l → alGet l k = some v := by
  intro l
  induction l with
  | nil => intro k v _ hm; simp at hm
  | cons kv rest ih =>
      intro k v hnd hm
      obtain ⟨k2, v2⟩ := kv
      have hnd2 : strNodup (alKeys rest) = true := by
        rw [show alKeys ((k2, v2) :: rest) = k2 :: alKeys rest from rfl,
          strNodup, Bool.and_eq_true] at hnd
        exact hnd.2
      have hnc : (alKeys rest).contains k2 = false := by
        rw [show alKeys ((k2, v2) :: rest) = k2 :: alKeys rest from rfl,
          strNodup, Bool.and_eq_true] at hnd
        have := hnd.1
        rw [Bool.not_eq_true'] at this
        exact this
      rcases List.mem_cons.mp hm with he | hm2
      · injection he with h1 h2
        rw [alGet, if_pos h1.symm, h2]
      · rw [alGet]
        by_cases hk : k2 = k
        · exfalso
          have hkm : k ∈ alKeys rest :=
            List.mem_map_of_mem Prod.fst hm2
          rw [hk] at hnc
          rw [← List.elem_iff] at hkm
          rw [show (alKeys rest).contains k = (alKeys rest).elem k from
            rfl] at hnc
          rw [hnc] at hkm
          exact Bool.false_ne_true hkm
        · rw [if_neg hk]
          exact ih k v hnd2 hm2

theorem pyEqEntries_mem :
    ∀ (a b : List (String × HVal)) (k : String) (v : HVal),
    pyEqEntries a b = true → (k, v) ∈ a →
    ∃ w, alGet b k = some w ∧ pyEq v w = true := by
  intro a
  induction a with
  | nil => intro b k v _ hm; simp at hm
  | cons kv rest ih =>
      intro b k v hpe hm
      obtain ⟨k2, v2⟩ := kv
      rw [pyEqEntries, Bool.and_eq_true] at hpe
      obtain ⟨h1, h2⟩ := hpe
      rcases List.mem_cons.mp hm with he | hm2
      · injection he with he1 he2
        subst he1; subst he2
        cases hg : alGet b k with
        | none => rw [hg] at h1; simp at h1
        | some w =>
            rw [hg] at h1
            exact ⟨w, rfl, h1⟩
      · exact ih b k v h2 hm2

theorem pyEq_none_inv : ∀ b, pyEq .vnone b = true → b = .vnone := by
  intro b
  cases b <;> simp [pyEq, pyNum]

theorem pyEq_str_inv : ∀ s b, pyEq (.vstr s) b = true → b = .vstr s := by
  intro s b
  cases b <;> simp [pyEq, pyNum]
  intro h; rw [h]

theorem pyEq_date_inv : ∀ d b, pyEq (.vdate d) b = true → b = .vdate d := by
  intro d b
  cases b <;> simp [pyEq, pyNum]
  intro h; rw [h]

theorem pyEq_objid_inv : ∀ t b, pyEq (.vobjid t) b = true →
    b = .vobjid t := by
  intro t b
  cases b <;> simp [pyEq, pyNum]
  intro h; rw [h]

theorem pyEq_bytes_inv : ∀ x b, pyEq (.vbytes x) b = true →
    b = .vbytes x := by
  intro x b
  cases b <;> simp [pyEq, pyNum]
  intro h; rw [h]

theorem pyEq_ref_inv : ∀ i b, pyEq (.vref i) b = true → b = .vref i := by
  intro i b
  cases b <;> simp [pyEq, pyNum]
  intro h; rw [h]

theorem pyEq_list_inv : ∀ xs b, pyEq (.vlist xs) b = true →
    ∃ ys, b = .vlist ys ∧ pyEqList xs ys = true := by
  intro xs b
  cases b <;> simp [pyEq, pyNum]

theorem pyEq_dict_inv : ∀ d b, pyEq (.vdict d) b = true →
    ∃ d2, b = .vdict d2 ∧ strNodup (alKeys d) = true ∧
      strNodup (alKeys d2) = true ∧ d.length = d2.length ∧
      pyEqEntries d d2 = true := by
  intro d b
  cases b <;> simp [pyEq, pyNum]
  intro h1 h2 h3 h4
  exact ⟨h1, h2, h3, h4⟩

theorem pyEq_num_right : ∀ a b x, pyNum a = some x → pyEq a b = true →
    pyNum b = some x := by
  intro a b x hx hab
  cases a <;> simp [pyNum] at hx <;> cases b <;>
    simp_all [pyEq, pyNum]

theorem pyEq_of_num : ∀ a c x, pyNum a = some x → pyNum c = some x →
    pyEq a c = true := by
  intro a c x hx hc
  cases a <;> simp [pyNum] at hx <;> cases c <;>
    simp_all [pyEq, pyNum]

theorem pyEq_vref_refFree : ∀ n vc, refFree vc = true →
    pyEq (.vref n) vc = false := by
  intro n vc hrf
  cases vc <;> simp_all [pyEq, pyNum, refFree]

theorem pyEqList_trans_aux (n : Nat)
    (ih : ∀ a b c, sizeOf a ≤ n → pyEq a b = true → pyEq b c = true →
      pyEq a c = true) :
    ∀ xs ys zs, (∀ x ∈ xs, sizeOf x ≤ n) → pyEqList xs ys = true →
    pyEqList ys zs = true → pyEqList xs zs = true := by
  intro xs
  induction xs with
  | nil =>
      intro ys zs _ h1 h2
      cases ys with
      | nil => cases zs with
        | nil => rfl
        | cons z zs => simp [pyEqList] at h2
      | cons y ys => simp [pyEqList] at h1
  | cons x rest ihl =>
      intro ys zs hs h1 h2
      cases ys with
      | nil => simp [pyEqList] at h1
      | cons y ys2 =>
          cases zs with
          | nil => simp [pyEqList] at h2
          | cons z zs2 =>
              rw [pyEqList, Bool.and_eq_true] at h1 h2 ⊢
              refine ⟨?_, ?_⟩
              · exact ih x y z (hs x (List.mem_cons_self _ _)) h1.1 h2.1
              · exact ihl ys2 zs2
                  (fun a ha => hs a (List.mem_cons_of_mem _ ha))
                  h1.2 h2.2

theorem pyEqEntries_trans_aux (n : Nat)
    (ih : ∀ a b c, sizeOf a ≤ n → pyEq a b = true → pyEq b c = true →
      pyEq a c = true) :
    ∀ d1 d2 d3, (∀ kv ∈ d1, sizeOf kv.2 ≤ n) →
    pyEqEntries d1 d2 = true → pyEqEntries d2 d3 = true →
    pyEqEntries d1 d3 = true := by
  intro d1
  induction d1 with
  | nil => intro d2 d3 _ _ _; rfl
  | cons kv rest ihl =>
      intro d2 d3 hs h1 h2
      obtain ⟨k, v⟩ := kv
      rw [pyEqEntries, Bool.and_eq_true] at h1 ⊢
      obtain ⟨h1a, h1b⟩ := h1
      refine ⟨?_, ihl d2 d3
        (fun a ha => hs a (List.mem_cons_of_mem _ ha)) h1b h2⟩
      cases hg : alGet d2 k with
      | none => rw [hg] at h1a; simp at h1a
      | some w =>
          rw [hg] at h1a
          have hmem := alGet_mem d2 k w hg
          obtain ⟨u, hu, hwu⟩ := pyEqEntries_mem d2 d3 k w h2 hmem
          rw [hu]
          exact ih v w u (hs (k, v) (List.mem_cons_self _ _)) h1a hwu

theorem pyEq_trans_n : ∀ n a b c, sizeOf a ≤ n → pyEq a b = true →
    pyEq b c = true → pyEq a c = true := by
  intro n
  induction n with
  | zero =>
      intro a b c hs
      exfalso
      cases a <;> simp at hs
  | succ n ih =>
      intro a b c hs hab hbc
      cases a with
      | vnone =>
          obtain rfl := pyEq_none_inv b hab
          obtain rfl := pyEq_none_inv c hbc
          rfl
      | vstr s =>
          obtain rfl := pyEq_str_inv s b hab
          obtain rfl := pyEq_str_inv s c hbc
          simp [pyEq]
      | vdate d =>
          obtain rfl := pyEq_date_inv d b hab
          obtain rfl := pyEq_date_inv d c hbc
          simp [pyEq]
      | vobjid t =>
          obtain rfl := pyEq_objid_inv t b hab
          obtain rfl := pyEq_objid_inv t c hbc
          simp [pyEq]
      | vbytes x =>
          obtain rfl := pyEq_bytes_inv x b hab
          obtain rfl := pyEq_bytes_inv x c hbc
          simp [pyEq]
      | vref i =>
          obtain rfl := pyEq_ref_inv i b hab
          obtain rfl := pyEq_ref_inv i c hbc
          simp [pyEq]
      | vbool b0 =>
          have hb := pyEq_num_right (HVal.vbool b0) b
            (if b0 then 1 else 0) rfl hab
          have hc := pyEq_num_right b c _ hb hbc
          exact pyEq_of_num (HVal.vbool b0) c _ rfl hc
      | vint n0 =>
          have hb := pyEq_num_right (HVal.vint n0) b n0 rfl hab
          have hc := pyEq_num_right b c _ hb hbc
          exact pyEq_of_num (HVal.vint n0) c _ rfl hc
      | vfloat n0 =>
          have hb := pyEq_num_right (HVal.vfloat n0) b n0 rfl hab
          have hc := pyEq_num_right b c _ hb hbc
          exact pyEq_of_num (HVal.vfloat n0) c _ rfl hc
      | vdec n0 =>
          have hb := pyEq_num_right (HVal.vdec n0) b n0 rfl hab
          have hc := pyEq_num_right b c _ hb hbc
          exact pyEq_of_num (HVal.vdec n0) c _ rfl hc
      | vlist xs =>
          obtain ⟨ys, rfl, hl1⟩ := pyEq_list_inv xs b hab
          obtain ⟨zs, rfl, hl2⟩ := pyEq_list_inv ys c hbc
          have hsz : ∀ x ∈ xs, sizeOf x ≤ n := by
            intro x hx
            have h1 := List.sizeOf_lt_of_mem hx
            have h2 : sizeOf (HVal.vlist xs) = 1 + sizeOf xs := by
              simp
            omega
          show pyEq (HVal.vlist xs) (HVal.vlist zs) = true
          rw [pyEq]
          exact pyEqList_trans_aux n ih xs ys zs hsz hl1 hl2
      | vdict d1 =>
          obtain ⟨d2, rfl, hn1, hn2, hlen12, he12⟩ :=
            pyEq_dict_inv d1 b hab
          obtain ⟨d3, rfl, _, hn3, hlen23, he23⟩ :=
            pyEq_dict_inv d2 c hbc
          have hsz : ∀ kv ∈ d1, sizeOf kv.2 ≤ n := by
            intro kv hkv
            have h1 := List.sizeOf_lt_of_mem hkv
            have h2 : sizeOf (HVal.vdict d1) = 1 + sizeOf d1 := by
              simp
            obtain ⟨k, v⟩ := kv
            have h3 : sizeOf ((k, v) : String × HVal) =
                1 + sizeOf k + sizeOf v := by simp
            simp only at h1 h3 ⊢
            omega
          show pyEq (HVal.vdict d1) (HVal.vdict d3) = true
          rw [pyEq]
          simp only [Bool.and_eq_true]
          refine ⟨⟨⟨hn1, hn3⟩, ?_⟩, ?_⟩
          · simp [hlen12, hlen23]
          · exact pyEqEntries_trans_aux n ih d1 d2 d3 hsz he12 he23

theorem pyEq_trans (a b c : HVal) (hab : pyEq a b = true)
    (hbc : pyEq b c = true) : pyEq a c = true :=
  pyEq_trans_n (sizeOf a) a b c (Nat.le_refl _) hab hbc

theorem wfpList_mem : ∀ xs x, wfpList xs = true → x ∈ xs →
    wfp x = true := by
  intro xs
  induction xs with
  | nil => intro x _ hm; simp at hm
  | cons y rest ih =>
      intro x hw hm
      rw [wfpList, Bool.and_eq_true] at hw
      rcases List.mem_cons.mp hm with he | hm2
      · rw [he]; exact hw.1
      · exact ih x hw.2 hm2

theorem wfpEntries_mem : ∀ d (kv : String × HVal), wfpEntries d = true →
    kv ∈ d → wfp kv.2 = true := by
  intro d
  induction d with
  | nil => intro kv _ hm; simp at hm
  | cons e rest ih =>
      intro kv hw hm
      obtain ⟨k, v⟩ := e
      rw [wfpEntries, Bool.and_eq_true] at hw
      rcases List.mem_cons.mp hm with he | hm2
      · rw [he]; exact hw.1
      · exact ih kv hw.2 hm2

theorem pyEqList_self_aux (n : Nat)
    (ih : ∀ v, sizeOf v ≤ n → wfp v = true → pyEq v v = true) :
    ∀ xs, (∀ x ∈ xs, sizeOf x ≤ n ∧ wfp x = true) →
    pyEqList xs xs = true := by
  intro xs
  induction xs with
  | nil => intro _; rfl
  | cons x rest ihl =>
      intro hs
      rw [pyEqList, Bool.and_eq_true]
      obtain ⟨h1, h2⟩ := hs x (List.mem_cons_self _ _)
      exact ⟨ih x h1 h2,
        ihl (fun a ha => hs a (List.mem_cons_of_mem _ ha))⟩

theorem pyEqEntries_self_aux (n : Nat)
    (ih : ∀ v, sizeOf v ≤ n → wfp v = true → pyEq v v = true) :
    ∀ d0 d, (∀ kv ∈ d0, alGet d kv.1 = some kv.2 ∧ wfp kv.2 = true ∧
      sizeOf kv.2 ≤ n) →
    pyEqEntries d0 d = true := by
  intro d0
  induction d0 with
  | nil => intro d _; rfl
  | cons e rest ihl =>
      intro d hs
      obtain ⟨k, v⟩ := e
      rw [pyEqEntries, Bool.and_eq_true]
      obtain ⟨hg, hw, hsz⟩ := hs (k, v) (List.mem_cons_self _ _)
      refine ⟨?_, ihl d (fun a ha => hs a (List.mem_cons_of_mem _ ha))⟩
      rw [hg]
      exact ih v hsz hw

theorem pyEq_refl_n : ∀ n v, sizeOf v ≤ n → wfp v = true →
    pyEq v v = true := by
  intro n
  induction n with
  | zero =>
      intro v hs
      exfalso
      cases v <;> simp at hs
  | succ n ih =>
      intro v hs hw
      cases v with
      | vnone => rfl
      | vstr s => simp [pyEq]
      | vdate d => simp [pyEq]
      | vobjid t => simp [pyEq]
      | vbytes x => simp [pyEq]
      | vref i => simp [pyEq]
      | vbool b0 => exact pyEq_of_num _ _ (if b0 then 1 else 0) rfl rfl
      | vint n0 => exact pyEq_of_num _ _ n0 rfl rfl
      | vfloat n0 => exact pyEq_of_num _ _ n0 rfl rfl
      | vdec n0 => exact pyEq_of_num _ _ n0 rfl rfl
      | vlist xs =>
          show pyEq (HVal.vlist xs) (HVal.vlist xs) = true
          rw [pyEq]
          refine pyEqList_self_aux n ih xs ?_
          intro x hx
          have h1 := List.sizeOf_lt_of_mem hx
          have h2 : sizeOf (HVal.vlist xs) = 1 + sizeOf xs := by simp
          refine ⟨by omega, ?_⟩
          have hwl : wfpList xs = true := by
            simpa [wfp] using hw
          exact wfpList_mem xs x hwl hx
      | vdict d =>
          have hw2 : strNodup (alKeys d) = true ∧ wfpEntries d = true := by
            rw [wfp, Bool.and_eq_true] at hw
            exact hw
          show pyEq (HVal.vdict d) (HVal.vdict d) = true
          rw [pyEq]
          simp only [Bool.and_eq_true]
          refine ⟨⟨⟨hw2.1, hw2.1⟩, by simp⟩, ?_⟩
          refine pyEqEntries_self_aux n ih d d ?_
          intro kv hkv
          obtain ⟨k, v⟩ := kv
          have h1 := List.sizeOf_lt_of_mem hkv
          have h2 : sizeOf (HVal.vdict d) = 1 + sizeOf d := by simp
          have h3 : sizeOf ((k, v) : String × HVal) =
              1 + sizeOf k + sizeOf v := by simp
          refine ⟨alGet_of_mem_nodup d k v hw2.1 hkv,
            wfpEntries_mem d (k, v) hw2.2 hkv, ?_⟩
          simp only at h1 h3 ⊢
          omega

theorem pyEq_refl_wfp (v : HVal) (hw : wfp v = true) : pyEq v v = true :=
  pyEq_refl_n (sizeOf v) v (Nat.le_refl _) hw

theorem pyEq_ref_inv_r : ∀ x i, pyEq x (.vref i) = true → x = .vref i := by
  intro x i
  cases x <;> simp [pyEq, pyNum]

theorem pyEq_dict_inv_r : ∀ x d, pyEq x (.vdict d) = true →
    ∃ d1, x = .vdict d1 := by
  intro x d
  cases x <;> simp [pyEq, pyNum]

theorem pyEq_dict_keys (d1 d2 : List (String × HVal))
    (hn1 : strNodup (alKeys d1) = true)
    (hn2 : strNodup (alKeys d2) = true)
    (hlen : d1.length = d2.length) (he : pyEqEntries d1 d2 = true) :
    ∀ k, (alGet d2 k).isSome = true → (alGet d1 k).isSome = true := by
  have hsub : alKeys d1 ⊆ alKeys d2 := by
    intro k hk
    have hs := alGet_isSome_of_mem_keys d1 k hk
    cases hg : alGet d1 k with
    | none => rw [hg] at hs; simp at hs
    | some v =>
        obtain ⟨w, hw, _⟩ :=
          pyEqEntries_mem d1 d2 k v he (alGet_mem d1 k v hg)
        exact mem_keys_of_alGet d2 k w hw
  have hperm : (alKeys d1).Perm (alKeys d2) := by
    have hsp := List.subperm_of_subset
      ((strNodup_iff_nodup (alKeys d1)).mp hn1) hsub
    refine hsp.perm_of_length_le ?_
    have l1 : (alKeys d1).length = d1.length := List.length_map _ _
    have l2 : (alKeys d2).length = d2.length := List.length_map _ _
    omega
  intro k hk2
  cases hg2 : alGet d2 k with
  | none => rw [hg2] at hk2; simp at hk2
  | some w =>
      have hm2 := mem_keys_of_alGet d2 k w hg2
      have hm1 : k ∈ alKeys d1 := hperm.mem_iff.mpr hm2
      exact alGet_isSome_of_mem_keys d1 k hm1

theorem matchDict_congr (d1 d2 c : List (String × HVal))
    (hpe : pyEq (.vdict d1) (.vdict d2) = true)
    (hm : matchDict d2 c = true) : matchDict d1 c = true := by
  obtain ⟨d2x, he2, hn1, hn2, hlen, hent⟩ := pyEq_dict_inv d1 _ hpe
  injection he2 with he2x
  subst he2x
  rw [matchDict, List.all_eq_true] at hm ⊢
  intro kv hkv
  have hmk := hm kv hkv
  obtain ⟨k, vc⟩ := kv
  simp only at hmk ⊢
  cases hg1 : alGet d1 k with
  | some v1 =>
      obtain ⟨w, hw, hvw⟩ :=
        pyEqEntries_mem d1 d2 k v1 hent (alGet_mem d1 k v1 hg1)
      rw [hw] at hmk
      simp only [Option.getD_some] at hmk ⊢
      exact pyEq_trans v1 w vc hvw hmk
  | none =>
      have hg2 : alGet d2 k = none := by
        cases hg2x : alGet d2 k with
        | none => rfl
        | some w =>
            have := pyEq_dict_keys d1 d2 hn1 hn2 hlen hent k
              (by rw [hg2x]; rfl)
            rw [hg1] at this
            simp at this
      rw [hg2] at hmk
      simpa using hmk

theorem specMatches_congr (env : Env) (h : Heap)
    (criteria : List (String × HVal)) (x y : HVal)
    (hxy : pyEq x y = true)
    (hm : specMatches env h criteria y = true) :
    specMatches env h criteria x = true := by
  cases y with
  | vref i =>
      obtain rfl := pyEq_ref_inv_r x i hxy
      exact hm
  | vdict d =>
      obtain ⟨d1, rfl⟩ := pyEq_dict_inv_r x d hxy
      show matchDict d1 criteria = true
      exact matchDict_congr d1 d criteria hxy hm
  | vnone => simp [specMatches] at hm
  | vbool b0 => simp [specMatches] at hm
  | vint n0 => simp [specMatches] at hm
  | vfloat n0 => simp [specMatches] at hm
  | vstr s => simp [specMatches] at hm
  | vdate d0 => simp [specMatches] at hm
  | vobjid t => simp [specMatches] at hm
  | vbytes x0 => simp [specMatches] at hm
  | vdec n0 => simp [specMatches] at hm
  | vlist xs => simp [specMatches] at hm

theorem specMatches_pyEq_self (env : Env) (h : Heap)
    (criteria : List (String × HVal)) (x : HVal)
    (hok : itemOkB h x = true)
    (hm : specMatches env h criteria x = true) : pyEq x x = true := by
  cases x with
  | vref i => simp [pyEq]
  | vdict d =>
      have h2 : (refFree (HVal.vdict d) && wfp (HVal.vdict d)) = true :=
        hok
      rw [Bool.and_eq_true] at h2
      exact pyEq_refl_wfp _ h2.2
  | vnone => simp [specMatches] at hm
  | vbool b0 => simp [specMatches] at hm
  | vint n0 => simp [specMatches] at hm
  | vfloat n0 => simp [specMatches] at hm
  | vstr s => simp [specMatches] at hm
  | vdate d0 => simp [specMatches] at hm
  | vobjid t => simp [specMatches] at hm
  | vbytes x0 => simp [specMatches] at hm
  | vdec n0 => simp [specMatches] at hm
  | vlist xs => simp [specMatches] at hm

theorem refFreeEntries_mem : ∀ (l : List (String × HVal))
    (kv : String × HVal), refFreeEntries l = true → kv ∈ l →
    refFree kv.2 = true := by
  intro l
  induction l with
  | nil => intro kv _ hm; simp at hm
  | cons e rest ih =>
      intro kv hrf hm
      obtain ⟨k, v⟩ := e
      rw [refFreeEntries, Bool.and_eq_true] at hrf
      rcases List.mem_cons.mp hm with he | hm2
      · rw [he]; exact hrf.1
      · exact ih kv hrf.2 hm2

theorem list_all_congr {α : Type} (l : List α) (f g : α → Bool)
    (hfg : ∀ x ∈ l, f x = g x) : l.all f = l.all g := by
  induction l with
  | nil => rfl
  | cons x rest ih =>
      rw [List.all_cons, List.all_cons, hfg x (List.mem_cons_self _ _),
        ih (fun a ha => hfg a (List.mem_cons_of_mem _ ha))]

theorem unwrap_deepOk_n (h : Heap) : ∀ n : Nat,
    (∀ v f, sizeOf v ≤ n → deepOkV h v = true → unwrapV h f v = v) ∧
    (∀ xs f, sizeOf xs ≤ n → deepOkList h xs = true →
      unwrapVList h f xs = xs) ∧
    (∀ kvs f, sizeOf kvs ≤ n → deepOkEntries h kvs = true →
      unwrapVEntries h f kvs = kvs) := by
  intro n
  induction n with
  | zero =>
      refine ⟨?_, ?_, ?_⟩
      · intro v f hs; exfalso; cases v <;> simp at hs
      · intro xs f hs; exfalso; cases xs <;> simp at hs
      · intro kvs f hs; exfalso; cases kvs <;> simp at hs
  | succ n ih =>
      obtain ⟨ihv, ihl, ihe⟩ := ih
      refine ⟨?_, ?_, ?_⟩
      · intro v f hs hok
        cases f with
        | zero => rfl
        | succ f =>
            cases v with
            | vref j =>
                have hok2 : (match h.get j with
                    | some (HObj.node _) => true
                    | _ => false) = true := hok
                rw [unwrapV]
                cases hg : h.get j with
                | none => rfl
                | some o =>
                    cases o with
                    | node st => rfl
                    | wrap w => rw [hg] at hok2; simp at hok2
            | vlist xs =>
                have hok2 : deepOkList h xs = true := hok
                have hs2 : sizeOf (HVal.vlist xs) = 1 + sizeOf xs := by
                  simp
                rw [unwrapV, ihl xs f (by omega) hok2]
            | vdict kvs =>
                have hok2 : deepOkEntries h kvs = true := hok
                have hs2 : sizeOf (HVal.vdict kvs) = 1 + sizeOf kvs := by
                  simp
                rw [unwrapV, ihe kvs f (by omega) hok2]
            | vnone => rfl
            | vbool b => rfl
            | vint n0 => rfl
            | vstr s0 => rfl
            | vfloat n0 => rfl
            | vdate d0 => rfl
            | vobjid t0 => rfl
            | vbytes x0 => rfl
            | vdec n0 => rfl
      · intro xs f hs hok
        cases f with
        | zero => rfl
        | succ f =>
            cases xs with
            | nil => rfl
            | cons x rest =>
                rw [deepOkList, Bool.and_eq_true] at hok
                have h1 := List.sizeOf_lt_of_mem
                  (List.mem_cons_self x rest)
                have h2 : sizeOf (x :: rest) =
                    1 + sizeOf x + sizeOf rest := by simp
                rw [unwrapVList, ihv x f (by omega) hok.1,
                  ihl rest f (by omega) hok.2]
      · intro kvs f hs hok
        cases f with
        | zero => rfl
        | succ f =>
            cases kvs with
            | nil => rfl
            | cons kv rest =>
                obtain ⟨k, v⟩ := kv
                rw [deepOkEntries, Bool.and_eq_true] at hok
                have h2 : sizeOf ((k, v) :: rest) =
                    1 + sizeOf (k, v) + sizeOf rest := by simp
                have h3 : sizeOf ((k, v) : String × HVal) =
                    1 + sizeOf k + sizeOf v := by simp
                rw [unwrapVEntries, ihv v f (by omega) hok.1,
                  ihe rest f (by omega) hok.2]

theorem unwrapV_deepOk (h : Heap) (v : HVal) (f : Nat)
    (hok : deepOkV h v = true) : unwrapV h f v = v :=
  (unwrap_deepOk_n h (sizeOf v)).1 v f (Nat.le_refl _) hok

theorem unwrapVList_deepOk (h : Heap) (xs : List HVal) (f : Nat)
    (hok : deepOkList h xs = true) : unwrapVList h f xs = xs :=
  (unwrap_deepOk_n h (sizeOf xs)).2.1 xs f (Nat.le_refl _) hok

theorem deepOk_of_refFree_n (h : Heap) : ∀ n : Nat,
    (∀ v, sizeOf v ≤ n → refFree v = true → deepOkV h v = true) ∧
    (∀ xs, sizeOf xs ≤ n → refFreeList xs = true →
      deepOkList h xs = true) ∧
    (∀ kvs, sizeOf kvs ≤ n → refFreeEntries kvs = true →
      deepOkEntries h kvs = true) := by
  intro n
  induction n with
  | zero =>
      refine ⟨?_, ?_, ?_⟩
      · intro v hs; exfalso; cases v <;> simp at hs
      · intro xs hs; exfalso; cases xs <;> simp at hs
      · intro kvs hs; exfalso; cases kvs <;> simp at hs
  | succ n ih =>
      obtain ⟨ihv, ihl, ihe⟩ := ih
      refine ⟨?_, ?_, ?_⟩
      · intro v hs hrf
        cases v with
        | vref j => simp [refFree] at hrf
        | vlist xs =>
            have hrf2 : refFreeList xs = true := hrf
            have hs2 : sizeOf (HVal.vlist xs) = 1 + sizeOf xs := by simp
            exact ihl xs (by omega) hrf2
        | vdict kvs =>
            have hrf2 : refFreeEntries kvs = true := hrf
            have hs2 : sizeOf (HVal.vdict kvs) = 1 + sizeOf kvs := by
              simp
            exact ihe kvs (by omega) hrf2
        | vnone => rfl
        | vbool b => rfl
        | vint n0 => rfl
        | vstr s0 => rfl
        | vfloat n0 => rfl
        | vdate d0 => rfl
        | vobjid t0 => rfl
        | vbytes x0 => rfl
        | vdec n0 => rfl
      · intro xs hs hrf
        cases xs with
        | nil => rfl
        | cons x rest =>
            rw [refFreeList, Bool.and_eq_true] at hrf
            rw [deepOkList, Bool.and_eq_true]
            have h1 := List.sizeOf_lt_of_mem (List.mem_cons_self x rest)
            have h2 : sizeOf (x :: rest) =
                1 + sizeOf x + sizeOf rest := by simp
            exact ⟨ihv x (by omega) hrf.1, ihl rest (by omega) hrf.2⟩
      · intro kvs hs hrf
        cases kvs with
        | nil => rfl
        | cons kv rest =>
            obtain ⟨k, v⟩ := kv
            rw [refFreeEntries, Bool.and_eq_true] at hrf
            rw [deepOkEntries, Bool.and_eq_true]
            have h2 : sizeOf ((k, v) :: rest) =
                1 + sizeOf (k, v) + sizeOf rest := by simp
            have h3 : sizeOf ((k, v) : String × HVal) =
                1 + sizeOf k + sizeOf v := by simp
            exact ⟨ihv v (by omega) hrf.1, ihe rest (by omega) hrf.2⟩

theorem deepOkV_refFree (h : Heap) (v : HVal) (hrf : refFree v = true) :
    deepOkV h v = true :=
  (deepOk_of_refFree_n h (sizeOf v)).1 v (Nat.le_refl _) hrf

theorem itemOkB_deepOk (h : Heap) (v : HVal)
    (hok : itemOkB h v = true) : deepOkV h v = true := by
  cases v with
  | vref i => exact hok
  | vnone => rfl
  | vbool b => rfl
  | vint n0 => rfl
  | vstr s0 => rfl
  | vfloat n0 => rfl
  | vdate d0 => rfl
  | vobjid t0 => rfl
  | vbytes x0 => rfl
  | vdec n0 => rfl
  | vlist xs =>
      have h2 : (refFree (HVal.vlist xs) && wfp (HVal.vlist xs)) =
          true := hok
      rw [Bool.and_eq_true] at h2
      exact deepOkV_refFree h _ h2.1
  | vdict kvs =>
      have h2 : (refFree (HVal.vdict kvs) && wfp (HVal.vdict kvs)) =
          true := hok
      rw [Bool.and_eq_true] at h2
      exact deepOkV_refFree h _ h2.1

theorem pyEqH_pure (h : Heap) (a b : HVal)
    (ha : deepOkV h a = true) (hb : deepOkV h b = true) :
    pyEqH h a b = pyEq a b := by
  unfold pyEqH
  rw [unwrapV_deepOk h a _ ha, unwrapV_deepOk h b _ hb]

theorem deepOkList_of_mem (h : Heap) (xs : List HVal)
    (hm : ∀ x ∈ xs, deepOkV h x = true) : deepOkList h xs = true := by
  induction xs with
  | nil => rfl
  | cons x rest ih =>
      rw [deepOkList, Bool.and_eq_true]
      exact ⟨hm x (List.mem_cons_self x rest),
        ih (fun a ha => hm a (List.mem_cons_of_mem x ha))⟩

theorem pyEqH_wrap (h : Heap) (j : Nat) (ws : WrapState) (vc : HVal)
    (hw : wrapOf h j = some ws)
    (hitems : ∀ x ∈ ws.items, itemOkB h x = true)
    (hvc : refFree vc = true) :
    pyEqH h (.vref j) vc = pyEq (.vlist ws.items) vc := by
  have hg := wrapOf_get h j ws hw
  unfold pyEqH
  rw [unwrapV_deepOk h vc _ (deepOkV_refFree h vc hvc)]
  show pyEq (match h.get j with
      | some (HObj.wrap w) => HVal.vlist (unwrapVList h (heapSize h)
          w.items)
      | _ => HVal.vref j) vc = pyEq (HVal.vlist ws.items) vc
  rw [hg]
  show pyEq (HVal.vlist (unwrapVList h (heapSize h) ws.items)) vc =
    pyEq (HVal.vlist ws.items) vc
  rw [unwrapVList_deepOk h ws.items _
    (deepOkList_of_mem h ws.items
      (fun x hx => itemOkB_deepOk h x (hitems x hx)))]

theorem matchDictH_pure (h : Heap) (d criteria : List (String × HVal))
    (hd : refFree (.vdict d) = true)
    (hcr : refFreeEntries criteria = true) :
    matchDictH h d criteria = matchDict d criteria := by
  unfold matchDictH matchDict
  refine list_all_congr criteria _ _ ?_
  intro kv hkv
  have hvc : refFree kv.2 = true := refFreeEntries_mem criteria kv hcr hkv
  have hval : refFree ((alGet d kv.1).getD .vnone) = true := by
    cases hg : alGet d kv.1 with
    | none => rfl
    | some v =>
        have hde : refFreeEntries d = true := hd
        exact refFreeEntries_mem d (kv.1, v) hde (alGet_mem d kv.1 v hg)
  exact pyEqH_pure h _ _ (deepOkV_refFree h _ hval)
    (deepOkV_refFree h _ hvc)

theorem removeFirstEqH_pure (h : Heap) (x : HVal) :
    ∀ l : List HVal, (∀ y ∈ l, pyEqH h y x = pyEq y x) →
    removeFirstEqH h x l = removeFirstEq x l := by
  intro l
  induction l with
  | nil => intro _; rfl
  | cons y rest ih =>
      intro hl
      rw [removeFirstEqH, removeFirstEq,
        hl y (List.mem_cons_self y rest),
        ih (fun a ha => hl a (List.mem_cons_of_mem y ha))]

theorem removeFirstEqH_itemOk (h : Heap) (x : HVal) (l : List HVal)
    (hx : itemOkB h x = true) (hl : ∀ y ∈ l, itemOkB h y = true) :
    removeFirstEqH h x l = removeFirstEq x l :=
  removeFirstEqH_pure h x l (fun y hy =>
    pyEqH_pure h y x (itemOkB_deepOk h y (hl y hy))
      (itemOkB_deepOk h x hx))

theorem itemOkB_stable (h h2 : Heap) (v : HVal)
    (hpres : ∀ m st, nodeOf h m = some st → ∃ st2,
      nodeOf h2 m = some st2)
    (hok : itemOkB h v = true) : itemOkB h2 v = true := by
  cases v with
  | vref i =>
      have hok2 : (match h.get i with
          | some (HObj.node _) => true
          | _ => false) = true := hok
      show (match h2.get i with
          | some (HObj.node _) => true
          | _ => false) = true
      cases hg : h.get i with
      | none => rw [hg] at hok2; simp at hok2
      | some o =>
          cases o with
          | wrap w => rw [hg] at hok2; simp at hok2
          | node st =>
              obtain ⟨st2, hn2⟩ := hpres i st (by unfold nodeOf; rw [hg])
              rw [nodeOf_get h2 i st2 hn2]
  | vnone => exact hok
  | vbool b => exact hok
  | vint n0 => exact hok
  | vstr s0 => exact hok
  | vfloat n0 => exact hok
  | vdate d0 => exact hok
  | vobjid t0 => exact hok
  | vbytes x0 => exact hok
  | vdec n0 => exact hok
  | vlist xs => exact hok
  | vdict kvs => exact hok

theorem removeFirstEq_head (x : HVal) (l : List HVal)
    (hx : pyEq x x = true) : removeFirstEq x (x :: l) = some l := by
  rw [removeFirstEq, if_pos hx]

theorem removeFirstEq_skip (x y : HVal) (l : List HVal)
    (hxy : pyEq y x = false) :
    removeFirstEq x (y :: l) = (removeFirstEq x l).map (y :: ·) := by
  rw [removeFirstEq, if_neg (by simp [hxy])]

theorem removeListEach_skip (y : HVal) :
    ∀ (cs live : List HVal), (∀ c ∈ cs, pyEq y c = false) →
    removeListEach cs (y :: live) =
      (removeListEach cs live).map (y :: ·) := by
  intro cs
  induction cs with
  | nil => intro live _; rfl
  | cons c rest ih =>
      intro live hns
      rw [removeListEach]
      conv_rhs => rw [removeListEach]
      rw [removeFirstEq_skip c y live (hns c (List.mem_cons_self _ _))]
      cases hr : removeFirstEq c live with
      | none => simp
      | some l2 =>
          simp only [Option.map_some]
          exact ih l2 (fun a ha => hns a (List.mem_cons_of_mem _ ha))

theorem removeFirstEq_prefix (p : HVal → Bool)
    (hc : ∀ a b, pyEq a b = true → p b = true → p a = true) :
    ∀ (pre : List HVal) (y : HVal) (post : List HVal),
    (∀ x ∈ pre, p x = false) → p y = true → pyEq y y = true →
    removeFirstEq y (pre ++ y :: post) = some (pre ++ post) := by
  intro pre
  induction pre with
  | nil =>
      intro y post _ _ hy
      exact removeFirstEq_head y post hy
  | cons x rest ih =>
      intro y post hpre hpy hy
      have hne : pyEq x y = false := by
        cases hxy : pyEq x y with
        | false => rfl
        | true =>
            have := hc x y hxy hpy
            rw [hpre x (List.mem_cons_self _ _)] at this
            exact absurd this (by simp)
      rw [List.cons_append, removeFirstEq_skip y x _ hne,
        ih y post (fun a ha => hpre a (List.mem_cons_of_mem _ ha))
          hpy hy]
      rfl

theorem removeList_filter (p : HVal → Bool)
    (hc : ∀ a b, pyEq a b = true → p b = true → p a = true) :
    ∀ items : List HVal,
    (∀ x ∈ items, p x = true → pyEq x x = true) →
    removeListEach (items.filter p) items =
      some (items.filter (fun x => !(p x))) := by
  intro items
  induction items with
  | nil => intro _; rfl
  | cons x rest ih =>
      intro hrefl
      cases hp : p x with
      | true =>
          rw [List.filter_cons_of_pos (by rw [hp]),
            List.filter_cons_of_neg (by simp [hp])]
          rw [removeListEach, removeFirstEq_head x rest
            (hrefl x (List.mem_cons_self _ _) hp)]
          exact ih (fun a ha hpa =>
            hrefl a (List.mem_cons_of_mem _ ha) hpa)
      | false =>
          rw [List.filter_cons_of_neg (by simp [hp]),
            List.filter_cons_of_pos (by simp [hp])]
          have hns : ∀ c ∈ rest.filter p, pyEq x c = false := by
            intro c hcm
            have hpc : p c = true := List.of_mem_filter hcm
            cases hxc : pyEq x c with
            | false => rfl
            | true =>
                have := hc x c hxc hpc
                rw [hp] at this
                exact absurd this (by simp)
          rw [removeListEach_skip x (rest.filter p) rest hns,
            ih (fun a ha hpa => hrefl a (List.mem_cons_of_mem _ ha) hpa)]
          rfl

theorem itemsOfW_eq (h : Heap) (w : Nat) (ws : WrapState)
    (hw : wrapOf h w = some ws) : itemsOfW h w = ws.items := by
  unfold itemsOfW
  rw [hw]

theorem wrapOf_setWrapItems_self (h : Heap) (w : Nat) (ws : WrapState)
    (items : List HVal) (hw : wrapOf h w = some ws) :
    wrapOf (setWrapItems h w items) w = some {ws with items := items} := by
  unfold setWrapItems
  rw [hw]
  unfold wrapOf
  rw [heap_get_set_self h w _ (heap_get_lt h w _ (wrapOf_get h w ws hw))]

theorem nodeOf_setObj_self (h : Heap) (i : Nat) (st : NodeState)
    (hi : i < h.length) :
    nodeOf (h.setObj i (.node st)) i = some st := by
  unfold nodeOf
  rw [heap_get_set_self h i _ hi]

theorem nodeOf_setObj_ne (h : Heap) (i m : Nat) (o : HObj) (hne : i ≠ m) :
    nodeOf (h.setObj i o) m = nodeOf h m := by
  unfold nodeOf
  rw [heap_get_set_ne h i m o hne]

theorem writeField_eq (h : Heap) (i : Nat) (k : String) (v : HVal)
    (st : NodeState) (hn : nodeOf h i = some st) :
    writeField h i k v =
      h.setObj i (.node {st with data := alSet st.data k v}) := by
  unfold writeField
  rw [hn]

theorem removeFirstEq_subset (x : HVal) :
    ∀ (l l2 : List HVal), removeFirstEq x l = some l2 →
    ∀ y ∈ l2, y ∈ l := by
  intro l
  induction l with
  | nil => intro l2 hr; rw [removeFirstEq] at hr; cases hr
  | cons z rest ih =>
      intro l2 hr y hy
      rw [removeFirstEq] at hr
      by_cases hz : pyEq z x = true
      · rw [if_pos hz] at hr
        injection hr with he
        subst he
        exact List.mem_cons_of_mem z hy
      · rw [if_neg hz] at hr
        cases hrr : removeFirstEq x rest with
        | none => rw [hrr] at hr; cases hr
        | some l3 =>
            rw [hrr] at hr
            injection hr with he
            subst he
            rcases List.mem_cons.mp hy with rfl | hy2
            · exact List.mem_cons_self y rest
            · exact List.mem_cons_of_mem z (ih l3 hrr y hy2)

theorem setWrapItems_node_pres (h : Heap) (w : Nat)
    (items : List HVal) (m : Nat) (st : NodeState)
    (hn : nodeOf h m = some st) :
    nodeOf (setWrapItems h w items) m = some st := by
  unfold setWrapItems
  cases hw : wrapOf h w with
  | none => exact hn
  | some ws =>
      have hne : w ≠ m := by
        intro he
        rw [he] at hw
        have hg := nodeOf_get h m st hn
        unfold wrapOf at hw
        rw [hg] at hw
        simp at hw
      rw [nodeOf_setObj_ne h w m _ hne]
      exact hn

theorem removeEach_spec (w : Nat) :
    ∀ (cs : List HVal) (h : Heap) (ws : WrapState) (live2 : List HVal),
    wrapOf h w = some ws →
    (∀ c ∈ cs, itemOkB h c = true) →
    (∀ y ∈ ws.items, itemOkB h y = true) →
    removeListEach cs ws.items = some live2 →
    (removeEach w h cs).2 = .ok () ∧
    wrapOf (removeEach w h cs).1 w = some {ws with items := live2} := by
  intro cs
  induction cs with
  | nil =>
      intro h ws live2 hw _ _ hrl
      rw [removeListEach] at hrl
      injection hrl with he
      rw [removeEach, ← he, hw]
      exact ⟨rfl, by cases ws; rfl⟩
  | cons c rest ih =>
      intro h ws live2 hw hcs hitems hrl
      rw [removeListEach] at hrl
      cases hr : removeFirstEq c ws.items with
      | none => rw [hr] at hrl; simp at hrl
      | some l1 =>
          rw [hr] at hrl
          have hbr : removeFirstEqH h c (itemsOfW h w) =
              removeFirstEq c ws.items := by
            rw [itemsOfW_eq h w ws hw]
            exact removeFirstEqH_itemOk h c ws.items
              (hcs c (List.mem_cons_self c rest)) hitems
          rw [removeEach, hbr, hr]
          have hw2 := wrapOf_setWrapItems_self h w ws l1 hw
          have hpres : ∀ m st, nodeOf h m = some st →
              ∃ st2, nodeOf (setWrapItems h w l1) m = some st2 :=
            fun m st hn => ⟨st, setWrapItems_node_pres h w l1 m st hn⟩
          have := ih (setWrapItems h w l1) {ws with items := l1} live2
            hw2
            (fun a ha => itemOkB_stable h _ a hpres
              (hcs a (List.mem_cons_of_mem c ha)))
            (fun y hy => itemOkB_stable h _ y hpres
              (hitems y (removeFirstEq_subset c ws.items l1 hr y hy)))
            hrl
          exact this

theorem obsView_setObj_node (h : Heap) (i : Nat) (st st2 : NodeState)
    (hn : nodeOf h i = some st) :
    ∀ v, obsView (h.setObj i (.node st2)) v = obsView h v := by
  intro v
  cases v with
  | vref j =>
      show (match (h.setObj i (.node st2)).get j with
        | some (HObj.wrap w) => HVal.vlist w.items
        | _ => HVal.vref j) =
        (match h.get j with
         | some (HObj.wrap w) => HVal.vlist w.items
         | _ => HVal.vref j)
      by_cases hj : i = j
      · subst hj
        have hlt : i < h.length := heap_get_lt h i _ (nodeOf_get h i st hn)
        rw [heap_get_set_self h i _ hlt, nodeOf_get h i st hn]
      · rw [heap_get_set_ne h i j _ hj]
  | vnone => rfl
  | vbool b => rfl
  | vint n0 => rfl
  | vstr s0 => rfl
  | vfloat n0 => rfl
  | vdate d0 => rfl
  | vobjid t0 => rfl
  | vbytes x0 => rfl
  | vdec n0 => rfl
  | vlist xs => rfl
  | vdict kvs => rfl

theorem obsView_append (h : Heap) (o : HObj) (v : HVal)
    (hv : storedOk h v = true) : obsView (h ++ [o]) v = obsView h v := by
  cases v with
  | vref j =>
      have hlt : j < h.length := by
        have h2 : decide (j < h.length) = true := hv
        exact of_decide_eq_true h2
      show (match (h ++ [o]).get j with
        | some (HObj.wrap w) => HVal.vlist w.items
        | _ => HVal.vref j) =
        (match h.get j with
         | some (HObj.wrap w) => HVal.vlist w.items
         | _ => HVal.vref j)
      rw [heap_get_append_old h o j hlt]
  | vnone => rfl
  | vbool b => rfl
  | vint n0 => rfl
  | vstr s0 => rfl
  | vfloat n0 => rfl
  | vdate d0 => rfl
  | vobjid t0 => rfl
  | vbytes x0 => rfl
  | vdec n0 => rfl
  | vlist xs => rfl
  | vdict kvs => rfl

theorem readObs_congr (env : Env) (h h2 : Heap) (m : Nat) (k : String)
    (hg : nodeOf h2 m = nodeOf h m)
    (hobs : ∀ v, obsView h2 v = obsView h v) :
    readObs env h2 m k = readObs env h m k := by
  have hof : obsView h2 = obsView h := funext hobs
  unfold readObs
  rw [hg, hof]

theorem readObs_setObj_node (env : Env) (h : Heap) (i : Nat)
    (st st2 : NodeState) (m : Nat) (k : String)
    (hn : nodeOf h i = some st)
    (hcls : m = i → st2.cls = st.cls)
    (hdata : m = i → alGet st2.data k = alGet st.data k) :
    readObs env (h.setObj i (.node st2)) m k = readObs env h m k := by
  have hlt : i < h.length := heap_get_lt h i _ (nodeOf_get h i st hn)
  have hof : obsView (h.setObj i (.node st2)) = obsView h :=
    funext (obsView_setObj_node h i st st2 hn)
  by_cases hm : m = i
  · subst hm
    simp only [readObs, nodeOf_setObj_self h m st2 hlt, hn, hof,
      hdata rfl, hcls rfl]
  · exact readObs_congr env h _ m k
      (nodeOf_setObj_ne h i m _ (fun hx => hm hx.symm))
      (obsView_setObj_node h i st st2 hn)

theorem readObs_stampOne (env : Env) (h : Heap) (j id : Nat)
    (name : String) (m : Nat) (k : String) :
    readObs env (stampOne h j id name) m k = readObs env h m k := by
  unfold stampOne
  cases hn : nodeOf h j with
  | none => rfl
  | some st =>
      exact readObs_setObj_node env h j st _ m k hn
        (fun _ => rfl) (fun _ => rfl)

theorem readObs_writeField_ne_key (env : Env) (h : Heap) (i : Nat)
    (k : String) (v : HVal) (m : Nat) (k2 : String)
    (hd : m ≠ i ∨ k2 ≠ k) :
    readObs env (writeField h i k v) m k2 = readObs env h m k2 := by
  cases hn : nodeOf h i with
  | none =>
      unfold writeField
      rw [hn]
  | some st =>
      rw [writeField_eq h i k v st hn]
      refine readObs_setObj_node env h i st _ m k2 hn
        (fun _ => rfl) ?_
      intro hm
      rcases hd with hmne | hk
      · exact absurd hm hmne
      · exact alGet_alSet_ne st.data k k2 v hk

theorem readObs_append (env : Env) (h : Heap) (o : HObj) (m : Nat)
    (k : String) (hm : m < h.length)
    (hso : ∀ st, nodeOf h m = some st →
      ∀ kv ∈ st.data, storedOk h kv.2 = true) :
    readObs env (h ++ [o]) m k = readObs env h m k := by
  cases hn : nodeOf h m with
  | none => simp only [readObs, nodeOf_append h o m hm, hn]
  | some st =>
      cases hg : alGet st.data k with
      | none => simp only [readObs, nodeOf_append h o m hm, hn, hg]
      | some v =>
          simp only [readObs, nodeOf_append h o m hm, hn, hg]
          rw [obsView_append h o v
            (hso st hn (k, v) (alGet_mem st.data k v hg))]

theorem wrapOf_setObj_node (h : Heap) (j : Nat) (st st2 : NodeState)
    (hn : nodeOf h j = some st) (m : Nat) (ws : WrapState)
    (hw : wrapOf h m = some ws) :
    wrapOf (h.setObj j (.node st2)) m = some ws := by
  have hne : j ≠ m := by
    intro he
    rw [he] at hn
    have hg := nodeOf_get h m st hn
    unfold wrapOf at hw
    rw [hg] at hw
    simp at hw
  unfold wrapOf
  rw [heap_get_set_ne h j m _ hne, wrapOf_get h m ws hw]

theorem wrapOf_append_old (h : Heap) (o : HObj) (m : Nat)
    (ws : WrapState) (hw : wrapOf h m = some ws) :
    wrapOf (h ++ [o]) m = some ws := by
  unfold wrapOf
  rw [heap_get_append_old h o m
    (heap_get_lt h m _ (wrapOf_get h m ws hw)), wrapOf_get h m ws hw]

theorem heap_get_set_inv (h : Heap) (j : Nat) (o : HObj) (m : Nat)
    (x : HObj) (hg : (h.setObj j o).get m = some x) :
    h.get m = some x ∨ (m = j ∧ x = o) := by
  by_cases hjm : j = m
  · subst hjm
    by_cases hlt : j < h.length
    · right
      rw [heap_get_set_self h j o hlt] at hg
      injection hg with hg2
      exact ⟨rfl, hg2.symm⟩
    · left
      have hlt2 : j < (h.setObj j o).length := heap_get_lt _ j x hg
      rw [heap_length_set] at hlt2
      exact absurd hlt2 hlt
  · left
    rw [heap_get_set_ne h j m o hjm] at hg
    exact hg

theorem heap_get_append_inv (h : Heap) (o : HObj) (m : Nat) (x : HObj)
    (hg : (h ++ [o]).get m = some x) :
    h.get m = some x ∨ (m = h.length ∧ x = o) := by
  by_cases hm : m < h.length
  · left
    rw [← heap_get_append_old h o m hm]
    exact hg
  · right
    have hlt : m < (h ++ [o]).length := heap_get_lt _ m x hg
    have hlen : (h ++ [o]).length = h.length + 1 := by simp
    have hme : m = h.length := by omega
    subst hme
    rw [heap_get_append_new h o] at hg
    injection hg with hg2
    exact ⟨rfl, hg2.symm⟩

theorem deepOk_mono_n (h h2 : Heap)
    (hpres : ∀ m st, nodeOf h m = some st → ∃ st2,
      nodeOf h2 m = some st2) :
    ∀ n : Nat,
    (∀ v, sizeOf v ≤ n → deepOkV h v = true → deepOkV h2 v = true) ∧
    (∀ xs, sizeOf xs ≤ n → deepOkList h xs = true →
      deepOkList h2 xs = true) ∧
    (∀ kvs, sizeOf kvs ≤ n → deepOkEntries h kvs = true →
      deepOkEntries h2 kvs = true) := by
  intro n
  induction n with
  | zero =>
      refine ⟨?_, ?_, ?_⟩
      · intro v hs; exfalso; cases v <;> simp at hs
      · intro xs hs; exfalso; cases xs <;> simp at hs
      · intro kvs hs; exfalso; cases kvs <;> simp at hs
  | succ n ih =>
      obtain ⟨ihv, ihl, ihe⟩ := ih
      refine ⟨?_, ?_, ?_⟩
      · intro v hs hok
        cases v with
        | vref j =>
            have hok2 : (match h.get j with
                | some (HObj.node _) => true
                | _ => false) = true := hok
            show (match h2.get j with
                | some (HObj.node _) => true
                | _ => false) = true
            cases hg : h.get j with
            | none => rw [hg] at hok2; simp at hok2
            | some o =>
                cases o with
                | wrap w => rw [hg] at hok2; simp at hok2
                | node st =>
                    obtain ⟨st2, hn2⟩ := hpres j st
                      (by unfold nodeOf; rw [hg])
                    rw [nodeOf_get h2 j st2 hn2]
        | vlist xs =>
            have hok2 : deepOkList h xs = true := hok
            have hs2 : sizeOf (HVal.vlist xs) = 1 + sizeOf xs := by simp
            exact ihl xs (by omega) hok2
        | vdict kvs =>
            have hok2 : deepOkEntries h kvs = true := hok
            have hs2 : sizeOf (HVal.vdict kvs) = 1 + sizeOf kvs := by
              simp
            exact ihe kvs (by omega) hok2
        | vnone => exact hok
        | vbool b => exact hok
        | vint n0 => exact hok
        | vstr s0 => exact hok
        | vfloat n0 => exact hok
        | vdate d0 => exact hok
        | vobjid t0 => exact hok
        | vbytes x0 => exact hok
        | vdec n0 => exact hok
      · intro xs hs hok
        cases xs with
        | nil => rfl
        | cons x rest =>
            rw [deepOkList, Bool.and_eq_true] at hok
            have h2s : sizeOf (x :: rest) =
                1 + sizeOf x + sizeOf rest := by simp
            rw [deepOkList, Bool.and_eq_true]
            exact ⟨ihv x (by omega) hok.1, ihl rest (by omega) hok.2⟩
      · intro kvs hs hok
        cases kvs with
        | nil => rfl
        | cons kv rest =>
            obtain ⟨k, v⟩ := kv
            rw [deepOkEntries, Bool.and_eq_true] at hok
            have h2s : sizeOf ((k, v) :: rest) =
                1 + sizeOf (k, v) + sizeOf rest := by simp
            have h3s : sizeOf ((k, v) : String × HVal) =
                1 + sizeOf k + sizeOf v := by simp
            rw [deepOkEntries, Bool.and_eq_true]
            exact ⟨ihv v (by omega) hok.1, ihe rest (by omega) hok.2⟩

theorem deepOkV_mono (h h2 : Heap)
    (hpres : ∀ m st, nodeOf h m = some st → ∃ st2,
      nodeOf h2 m = some st2)
    (v : HVal) (hok : deepOkV h v = true) : deepOkV h2 v = true :=
  (deepOk_mono_n h h2 hpres (sizeOf v)).1 v (Nat.le_refl _) hok

theorem storedOk_mono (h h2 : Heap)
    (hpres : ∀ m st, nodeOf h m = some st → ∃ st2,
      nodeOf h2 m = some st2)
    (hlen : h.length ≤ h2.length)
    (v : HVal) (hok : storedOk h v = true) : storedOk h2 v = true := by
  cases v with
  | vref j =>
      have hlt : j < h.length := of_decide_eq_true hok
      exact decide_eq_true (by omega)
  | vnone => exact deepOkV_mono h h2 hpres _ hok
  | vbool b => exact deepOkV_mono h h2 hpres _ hok
  | vint n0 => exact deepOkV_mono h h2 hpres _ hok
  | vstr s0 => exact deepOkV_mono h h2 hpres _ hok
  | vfloat n0 => exact deepOkV_mono h h2 hpres _ hok
  | vdate d0 => exact deepOkV_mono h h2 hpres _ hok
  | vobjid t0 => exact deepOkV_mono h h2 hpres _ hok
  | vbytes x0 => exact deepOkV_mono h h2 hpres _ hok
  | vdec n0 => exact deepOkV_mono h h2 hpres _ hok
  | vlist xs => exact deepOkV_mono h h2 hpres _ hok
  | vdict kvs => exact deepOkV_mono h h2 hpres _ hok

theorem storedOk_of_refFree (h : Heap) (v : HVal)
    (hrf : refFree v = true) : storedOk h v = true := by
  cases v with
  | vref j => exact absurd hrf Bool.false_ne_true
  | vnone => rfl
  | vbool b => rfl
  | vint n0 => rfl
  | vstr s0 => rfl
  | vfloat n0 => rfl
  | vdate d0 => rfl
  | vobjid t0 => rfl
  | vbytes x0 => rfl
  | vdec n0 => rfl
  | vlist xs => exact deepOkV_refFree h _ hrf
  | vdict kvs => exact deepOkV_refFree h _ hrf

theorem alSet_mem_inv {α : Type} :
    ∀ (l : List (String × α)) (k : String) (v : α) (kv : String × α),
    kv ∈ alSet l k v → kv = (k, v) ∨ kv ∈ l := by
  intro l
  induction l with
  | nil =>
      intro k v kv hm
      rw [alSet] at hm
      exact Or.inl (List.mem_singleton.mp hm)
  | cons p rest ih =>
      intro k v kv hm
      obtain ⟨k1, v1⟩ := p
      rw [alSet] at hm
      by_cases hk : k1 = k
      · rw [if_pos hk] at hm
        rcases List.mem_cons.mp hm with he | hm2
        · subst hk
          exact Or.inl he
        · exact Or.inr (List.mem_cons_of_mem _ hm2)
      · rw [if_neg hk] at hm
        rcases List.mem_cons.mp hm with he | hm2
        · rw [he]
          exact Or.inr (List.mem_cons_self _ _)
        · rcases ih k v kv hm2 with h1 | h2
          · exact Or.inl h1
          · exact Or.inr (List.mem_cons_of_mem _ h2)

theorem heapOk_setObj_node (h : Heap) (j : Nat) (st st2 : NodeState)
    (hn : nodeOf h j = some st) (hok : heapOk h)
    (hdata : ∀ kv ∈ st2.data, storedOk h kv.2 = true) :
    heapOk (h.setObj j (.node st2)) := by
  have hpres : ∀ m stm, nodeOf h m = some stm →
      ∃ stm2, nodeOf (h.setObj j (.node st2)) m = some stm2 := by
    intro m stm hm
    by_cases hjm : j = m
    · subst hjm
      exact ⟨st2, nodeOf_setObj_self h j st2
        (heap_get_lt h j _ (nodeOf_get h j stm hm))⟩
    · exact ⟨stm, by rw [nodeOf_setObj_ne h j m _ hjm]; exact hm⟩
  have hlen : h.length ≤ (h.setObj j (.node st2)).length := by
    rw [heap_length_set]
  constructor
  · intro m stm hm kv hkv
    have hg := nodeOf_get _ m stm hm
    rcases heap_get_set_inv h j _ m _ hg with hold | ⟨hmj, he⟩
    · have hm0 : nodeOf h m = some stm := by unfold nodeOf; rw [hold]
      exact storedOk_mono h _ hpres hlen kv.2 (hok.1 m stm hm0 kv hkv)
    · injection he with he2
      rw [he2] at hkv
      exact storedOk_mono h _ hpres hlen kv.2 (hdata kv hkv)
  · intro w2 ws hw2 x hx
    have hg := wrapOf_get _ w2 ws hw2
    rcases heap_get_set_inv h j _ w2 _ hg with hold | ⟨hmj, he⟩
    · have hw0 : wrapOf h w2 = some ws := by unfold wrapOf; rw [hold]
      exact itemOkB_stable h _ x hpres (hok.2 w2 ws hw0 x hx)
    · exact HObj.noConfusion he

theorem heapOk_stampOne (h : Heap) (j id : Nat) (name : String)
    (hok : heapOk h) : heapOk (stampOne h j id name) := by
  unfold stampOne
  cases hj : nodeOf h j with
  | none => exact hok
  | some st =>
      exact heapOk_setObj_node h j st _ hj hok
        (fun kv hkv => hok.1 j st hj kv hkv)

theorem heapOk_writeField (h : Heap) (i : Nat) (k : String) (v : HVal)
    (hok : heapOk h) (hv : storedOk h v = true) :
    heapOk (writeField h i k v) := by
  unfold writeField
  cases hn : nodeOf h i with
  | none => exact hok
  | some st =>
      refine heapOk_setObj_node h i st _ hn hok ?_
      intro kv hkv
      rcases alSet_mem_inv st.data k v kv hkv with he | hm
      · rw [he]
        exact hv
      · exact hok.1 i st hn kv hm

theorem heapOk_append (h : Heap) (o : HObj) (hok : heapOk h)
    (ho : match o with
      | .node st => ∀ kv ∈ st.data, storedOk (h ++ [o]) kv.2 = true
      | .wrap ws => ∀ x ∈ ws.items, itemOkB (h ++ [o]) x = true) :
    heapOk (h ++ [o]) := by
  have hpres : ∀ m stm, nodeOf h m = some stm →
      ∃ stm2, nodeOf (h ++ [o]) m = some stm2 := by
    intro m stm hm
    refine ⟨stm, ?_⟩
    rw [nodeOf_append h o m (heap_get_lt h m _ (nodeOf_get h m stm hm))]
    exact hm
  have hlen : h.length ≤ (h ++ [o]).length := by simp
  constructor
  · intro m stm hm kv hkv
    have hg := nodeOf_get _ m stm hm
    rcases heap_get_append_inv h o m _ hg with hold | ⟨hml, he⟩
    · have hm0 : nodeOf h m = some stm := by unfold nodeOf; rw [hold]
      exact storedOk_mono h _ hpres hlen kv.2 (hok.1 m stm hm0 kv hkv)
    · cases o with
      | node st0 =>
          injection he with he2
          rw [he2] at hkv
          exact ho kv hkv
      | wrap ws0 => exact HObj.noConfusion he
  · intro w2 ws hw2 x hx
    have hg := wrapOf_get _ w2 ws hw2
    rcases heap_get_append_inv h o w2 _ hg with hold | ⟨hml, he⟩
    · have hw0 : wrapOf h w2 = some ws := by unfold wrapOf; rw [hold]
      exact itemOkB_stable h _ x hpres (hok.2 w2 ws hw0 x hx)
    · cases o with
      | node st0 => exact HObj.noConfusion he
      | wrap ws0 =>
          injection he with he2
          rw [he2] at hx
          exact ho x hx

theorem heapOk_setWrapItems (h : Heap) (w : Nat) (items : List HVal)
    (hok : heapOk h)
    (hitems : ∀ x ∈ items, itemOkB h x = true) :
    heapOk (setWrapItems h w items) := by
  unfold setWrapItems
  cases hw : wrapOf h w with
  | none => exact hok
  | some ws =>
      have hpres : ∀ m stm, nodeOf h m = some stm →
          ∃ stm2, nodeOf (h.setObj w
            (.wrap {ws with items := items})) m = some stm2 := by
        intro m stm hm
        refine ⟨stm, ?_⟩
        have hne : w ≠ m := by
          intro he
          subst he
          have hg := nodeOf_get h w stm hm
          rw [wrapOf_get h w ws hw] at hg
          exact HObj.noConfusion (Option.some.inj hg)
        rw [nodeOf_setObj_ne h w m _ hne]
        exact hm
      have hlen : h.length ≤
          (h.setObj w (HObj.wrap {ws with items := items})).length := by
        rw [heap_length_set]
      constructor
      · intro m stm hm kv hkv
        have hg := nodeOf_get _ m stm hm
        rcases heap_get_set_inv h w _ m _ hg with hold | ⟨hmw, he⟩
        · have hm0 : nodeOf h m = some stm := by
            unfold nodeOf; rw [hold]
          exact storedOk_mono h _ hpres hlen kv.2
            (hok.1 m stm hm0 kv hkv)
        · exact HObj.noConfusion he
      · intro w2 ws2 hw2 x hx
        have hg := wrapOf_get _ w2 ws2 hw2
        rcases heap_get_set_inv h w _ w2 _ hg with hold | ⟨hmw, he⟩
        · have hw0 : wrapOf h w2 = some ws2 := by
            unfold wrapOf; rw [hold]
          exact itemOkB_stable h _ x hpres (hok.2 w2 ws2 hw0 x hx)
        · injection he with he2
          rw [he2] at hx
          exact itemOkB_stable h _ x hpres (hitems x hx)

theorem heapOk_of_B (h : Heap) (hb : heapOkB h = true) : heapOk h := by
  rw [heapOkB, List.all_eq_true] at hb
  constructor
  · intro m st hm kv hkv
    have hg := nodeOf_get h m st hm
    have hmem : HObj.node st ∈ h := by
      rw [Heap.get] at hg
      exact List.get?_mem hg
    have hx2 : (st.data.all (fun kv => storedOk h kv.2)) = true :=
      hb _ hmem
    rw [List.all_eq_true] at hx2
    exact hx2 kv hkv
  · intro j ws hw x hx
    have hg := wrapOf_get h j ws hw
    have hmem : HObj.wrap ws ∈ h := by
      rw [Heap.get] at hg
      exact List.get?_mem hg
    have hx2 : (ws.items.all (fun x => itemOkB h x)) = true :=
      hb _ hmem
    rw [List.all_eq_true] at hx2
    exact hx2 x hx

theorem obsView_of_refFree (h : Heap) (v : HVal)
    (hrf : refFree v = true) : obsView h v = v := by
  cases v with
  | vref j => exact absurd hrf Bool.false_ne_true
  | vnone => rfl
  | vbool b => rfl
  | vint n0 => rfl
  | vstr s0 => rfl
  | vfloat n0 => rfl
  | vdate d0 => rfl
  | vobjid t0 => rfl
  | vbytes x0 => rfl
  | vdec n0 => rfl
  | vlist xs => rfl
  | vdict kvs => rfl

theorem obsView_node (h : Heap) (j : Nat) (st : NodeState)
    (hn : nodeOf h j = some st) : obsView h (.vref j) = .vref j := by
  show (match h.get j with
    | some (HObj.wrap w) => HVal.vlist w.items
    | _ => HVal.vref j) = HVal.vref j
  rw [nodeOf_get h j st hn]

theorem obsView_wrap (h : Heap) (j : Nat) (ws : WrapState)
    (hw : wrapOf h j = some ws) :
    obsView h (.vref j) = .vlist ws.items := by
  show (match h.get j with
    | some (HObj.wrap w) => HVal.vlist w.items
    | _ => HVal.vref j) = HVal.vlist ws.items
  rw [wrapOf_get h j ws hw]

theorem deepOkV_node (h : Heap) (j : Nat) (st : NodeState)
    (hn : nodeOf h j = some st) : deepOkV h (.vref j) = true := by
  show (match h.get j with
    | some (HObj.node _) => true
    | _ => false) = true
  rw [nodeOf_get h j st hn]

theorem nodeOf_writeField_append_new (h : Heap) (st0 : NodeState)
    (i : Nat) (k : String) (vnew : HVal) (st : NodeState)
    (hn : nodeOf h i = some st) :
    nodeOf (writeField (h ++ [.node st0]) i k vnew) h.length =
      some st0 := by
  have hi : i < h.length := heap_get_lt h i _ (nodeOf_get h i st hn)
  have hne : i ≠ h.length := by omega
  unfold nodeOf
  rw [get_writeField_ne _ i k vnew h.length hne, heap_get_append_new]

theorem wrapOf_writeField_append_new (h : Heap) (ws0 : WrapState)
    (i : Nat) (k : String) (vnew : HVal) (st : NodeState)
    (hn : nodeOf h i = some st) :
    wrapOf (writeField (h ++ [.wrap ws0]) i k vnew) h.length =
      some ws0 := by
  have hi : i < h.length := heap_get_lt h i _ (nodeOf_get h i st hn)
  have hne : i ≠ h.length := by omega
  unfold wrapOf
  rw [get_writeField_ne _ i k vnew h.length hne, heap_get_append_new]

theorem heapStable_refl (env : Env) (h : Heap) (hok : heapOk h) :
    heapStable env h h :=
  ⟨fun _ _ hw => hw, fun m st hn => ⟨st, hn⟩,
    fun _ _ _ _ _ _ => rfl, hok⟩

theorem heapStable_trans (env : Env) (h1 h2 h3 : Heap)
    (ha : heapStable env h1 h2) (hb : heapStable env h2 h3) :
    heapStable env h1 h3 := by
  obtain ⟨w1, n1, p1, o1⟩ := ha
  obtain ⟨w2, n2, p2, o2⟩ := hb
  refine ⟨fun j ws hw => w2 j ws (w1 j ws hw), ?_, ?_, o2⟩
  · intro m st hn
    obtain ⟨st2, hn2⟩ := n1 m st hn
    exact n2 m st2 hn2
  · intro m st hn k vc hrf
    obtain ⟨st2, hn2⟩ := n1 m st hn
    rw [p2 m st2 hn2 k vc hrf, p1 m st hn k vc hrf]

theorem stable_writeField_append (env : Env) (h : Heap) (o : HObj)
    (i : Nat) (k : String) (vnew : HVal) (st : NodeState)
    (hn : nodeOf h i = some st)
    (hok : heapOk h)
    (hok2 : heapOk (writeField (h ++ [o]) i k vnew))
    (hpv : ∀ vc, refFree vc = true →
      (match readObs env (writeField (h ++ [o]) i k vnew) i k with
       | some v => pyEq v vc
       | none => false) =
      (match readObs env h i k with
       | some v => pyEq v vc
       | none => false)) :
    heapStable env h (writeField (h ++ [o]) i k vnew) := by
  have hi : i < h.length := heap_get_lt h i _ (nodeOf_get h i st hn)
  have hn1 : nodeOf (h ++ [o]) i = some st := by
    rw [nodeOf_append h o i hi]
    exact hn
  refine ⟨?_, ?_, ?_, hok2⟩
  · intro m ws hw
    rw [writeField_eq (h ++ [o]) i k vnew st hn1]
    exact wrapOf_setObj_node (h ++ [o]) i st _ hn1 m ws
      (wrapOf_append_old h o m ws hw)
  · intro m stm hnm
    by_cases hm : m = i
    · subst hm
      rw [writeField_eq (h ++ [o]) m k vnew st hn1]
      refine ⟨_, nodeOf_setObj_self (h ++ [o]) m _ ?_⟩
      have := heap_get_lt h m _ (nodeOf_get h m stm hnm)
      simp
      omega
    · refine ⟨stm, ?_⟩
      rw [nodeOf_writeField_ne (h ++ [o]) i k vnew m
        (fun hx => hm hx.symm)]
      rw [nodeOf_append h o m (heap_get_lt h m _
        (nodeOf_get h m stm hnm))]
      exact hnm
  · intro m stm hnm k2 vc hrf
    by_cases hmk : m = i ∧ k2 = k
    · obtain ⟨rfl, rfl⟩ := hmk
      exact hpv vc hrf
    · have hm : m < h.length :=
        heap_get_lt h m _ (nodeOf_get h m stm hnm)
      rw [readObs_writeField_ne_key env (h ++ [o]) i k vnew m k2
        (by
          by_cases h1 : m = i
          · right
            intro h2
            exact hmk ⟨h1, h2⟩
          · left; exact h1),
        readObs_append env h o m k2 hm
          (fun st0 hst0 kv hkv => hok.1 m st0 hst0 kv hkv)]

theorem stable_writeField_same (env : Env) (h : Heap) (i : Nat)
    (k : String) (vnew : HVal) (st : NodeState)
    (hn : nodeOf h i = some st)
    (hro : readObs env h i k = some vnew)
    (hok : heapOk h)
    (hrfv : refFree vnew = true) :
    heapStable env h (writeField h i k vnew) := by
  have hi : i < h.length := heap_get_lt h i _ (nodeOf_get h i st hn)
  refine ⟨?_, ?_, ?_, heapOk_writeField h i k vnew hok
    (storedOk_of_refFree h vnew hrfv)⟩
  · intro m ws hw
    rw [writeField_eq h i k vnew st hn]
    exact wrapOf_setObj_node h i st _ hn m ws hw
  · intro m stm hnm
    by_cases hm : m = i
    · subst hm
      rw [writeField_eq h m k vnew st hn]
      exact ⟨_, nodeOf_setObj_self h m _ hi⟩
    · refine ⟨stm, ?_⟩
      rw [nodeOf_writeField_ne h i k vnew m (fun hx => hm hx.symm)]
      exact hnm
  · intro m stm hnm k2 vc hrf
    by_cases hmk : m = i ∧ k2 = k
    · obtain ⟨rfl, rfl⟩ := hmk
      rw [hro]
      have hrnew : readObs env (writeField h m k2 vnew) m k2 =
          some vnew := by
        simp only [readObs, nodeOf_writeField_self h m k2 vnew st hn,
          alGet_alSet_self st.data k2 vnew,
          obsView_of_refFree (writeField h m k2 vnew) vnew hrfv]
      rw [hrnew]
    · rw [readObs_writeField_ne_key env h i k vnew m k2
        (by
          by_cases h1 : m = i
          · right
            intro h2
            exact hmk ⟨h1, h2⟩
          · left; exact h1)]

theorem stable_stampOne (env : Env) (h : Heap) (j id : Nat)
    (name : String) (st2 : NodeState) (hj : nodeOf h j = some st2)
    (hok : heapOk h) :
    heapStable env h (stampOne h j id name) := by
  have hlt : j < h.length := heap_get_lt h j _ (nodeOf_get h j st2 hj)
  refine ⟨?_, ?_, ?_, heapOk_stampOne h j id name hok⟩
  · intro m ws hw
    unfold stampOne
    rw [hj]
    exact wrapOf_setObj_node h j st2 _ hj m ws hw
  · intro m stm hnm
    unfold stampOne
    rw [hj]
    by_cases hm : m = j
    · subst hm
      exact ⟨_, nodeOf_setObj_self h m _ hlt⟩
    · refine ⟨stm, ?_⟩
      rw [nodeOf_setObj_ne h j m _ (fun hx => hm hx.symm)]
      exact hnm
  · intro m stm hnm k2 vc hrf
    rw [readObs_stampOne env h j id name m k2]

theorem getattrDef_step (env : Env) (h : Heap) (i : Nat) (k : String)
    (hhp : heapOk h) :
    heapStable env h (getattrDef env h i k).1 ∧
    (∀ vc, refFree vc = true →
      pyEqH (getattrDef env h i k).1 (getattrDef env h i k).2 vc =
        (match readObs env h i k with
         | some v => pyEq v vc
         | none => false)) := by
  cases hn : nodeOf h i with
  | none =>
      constructor
      · unfold getattrDef getattrM
        simp only [hn]
        exact heapStable_refl env h hhp
      · intro vc hrf
        unfold getattrDef getattrM readObs
        simp only [hn]
        exact pyEqH_pure h .vnone vc rfl (deepOkV_refFree h vc hrf)
  | some st =>
      cases hv : alGet st.data k with
      | some val =>
          have hso : storedOk h val = true :=
            hhp.1 i st hn (k, val) (alGet_mem st.data k val hv)
          cases val with
          | vref j =>
              have hjlt : j < h.length := of_decide_eq_true hso
              cases hj : nodeOf h j with
              | some st2 =>
                  constructor
                  · unfold getattrDef getattrM
                    simp only [hn, hv, hj]
                    exact stable_stampOne env h j i k st2 hj hhp
                  · intro vc hrf
                    unfold getattrDef getattrM readObs
                    simp only [hn, hv, hj]
                    rw [obsView_node h j st2 hj]
                    have hst2 : nodeOf (stampOne h j i k) j =
                        some ⟨st2.cls, st2.data, some i, some k⟩ := by
                      unfold stampOne
                      rw [hj]
                      exact nodeOf_setObj_self h j _ hjlt
                    rw [pyEqH_pure (stampOne h j i k) (.vref j) vc
                      (deepOkV_node _ j _ hst2)
                      (deepOkV_refFree _ vc hrf)]
              | none =>
                  have hwx : ∃ ws, wrapOf h j = some ws := by
                    unfold nodeOf at hj
                    unfold wrapOf
                    cases hg : h.get j with
                    | none =>
                        exfalso
                        have hle : h.length ≤ j := by
                          rw [Heap.get] at hg
                          exact List.get?_eq_none.mp hg
                        omega
                    | some o =>
                        cases o with
                        | node st2 =>
                            rw [hg] at hj
                            simp at hj
                        | wrap ws => exact ⟨ws, rfl⟩
                  obtain ⟨ws, hwj⟩ := hwx
                  have hitems : ∀ x ∈ ws.items, itemOkB h x = true :=
                    hhp.2 j ws hwj
                  constructor
                  · unfold getattrDef getattrM
                    simp only [hn, hv, hj]
                    exact heapStable_refl env h hhp
                  · intro vc hrf
                    unfold getattrDef getattrM readObs
                    simp only [hn, hv, hj]
                    rw [obsView_wrap h j ws hwj,
                      pyEqH_wrap h j ws vc hwj hitems hrf]
          | vnone =>
              constructor
              · unfold getattrDef getattrM
                simp only [hn, hv]
                exact heapStable_refl env h hhp
              · intro vc hrf
                unfold getattrDef getattrM readObs
                simp only [hn, hv, obsView]
                exact pyEqH_pure h _ vc hso (deepOkV_refFree h vc hrf)
          | vbool b0 =>
              constructor
              · unfold getattrDef getattrM
                simp only [hn, hv]
                exact heapStable_refl env h hhp
              · intro vc hrf
                unfold getattrDef getattrM readObs
                simp only [hn, hv, obsView]
                exact pyEqH_pure h _ vc hso (deepOkV_refFree h vc hrf)
          | vint n0 =>
              constructor
              · unfold getattrDef getattrM
                simp only [hn, hv]
                exact heapStable_refl env h hhp
              · intro vc hrf
                unfold getattrDef getattrM readObs
                simp only [hn, hv, obsView]
                exact pyEqH_pure h _ vc hso (deepOkV_refFree h vc hrf)
          | vstr s =>
              constructor
              · unfold getattrDef getattrM
                simp only [hn, hv]
                exact heapStable_refl env h hhp
              · intro vc hrf
                unfold getattrDef getattrM readObs
                simp only [hn, hv, obsView]
                exact pyEqH_pure h _ vc hso (deepOkV_refFree h vc hrf)
          | vfloat n0 =>
              constructor
              · unfold getattrDef getattrM
                simp only [hn, hv]
                exact heapStable_refl env h hhp
              · intro vc hrf
                unfold getattrDef getattrM readObs
                simp only [hn, hv, obsView]
                exact pyEqH_pure h _ vc hso (deepOkV_refFree h vc hrf)
          | vdate d0 =>
              constructor
              · unfold getattrDef getattrM
                simp only [hn, hv]
                exact heapStable_refl env h hhp
              · intro vc hrf
                unfold getattrDef getattrM readObs
                simp only [hn, hv, obsView]
                exact pyEqH_pure h _ vc hso (deepOkV_refFree h vc hrf)
          | vobjid t0 =>
              constructor
              · unfold getattrDef getattrM
                simp only [hn, hv]
                exact heapStable_refl env h hhp
              · intro vc hrf
                unfold getattrDef getattrM readObs
                simp only [hn, hv, obsView]
                exact pyEqH_pure h _ vc hso (deepOkV_refFree h vc hrf)
          | vbytes x0 =>
              constructor
              · unfold getattrDef getattrM
                simp only [hn, hv]
                exact heapStable_refl env h hhp
              · intro vc hrf
                unfold getattrDef getattrM readObs
                simp only [hn, hv, obsView]
                exact pyEqH_pure h _ vc hso (deepOkV_refFree h vc hrf)
          | vdec n0 =>
              constructor
              · unfold getattrDef getattrM
                simp only [hn, hv]
                exact heapStable_refl env h hhp
              · intro vc hrf
                unfold getattrDef getattrM readObs
                simp only [hn, hv, obsView]
                exact pyEqH_pure h _ vc hso (deepOkV_refFree h vc hrf)
          | vlist xs =>
              constructor
              · unfold getattrDef getattrM
                simp only [hn, hv]
                exact heapStable_refl env h hhp
              · intro vc hrf
                unfold getattrDef getattrM readObs
                simp only [hn, hv, obsView]
                exact pyEqH_pure h _ vc hso (deepOkV_refFree h vc hrf)
          | vdict kvs =>
              constructor
              · unfold getattrDef getattrM
                simp only [hn, hv]
                exact heapStable_refl env h hhp
              · intro vc hrf
                unfold getattrDef getattrM readObs
                simp only [hn, hv, obsView]
                exact pyEqH_pure h _ vc hso (deepOkV_refFree h vc hrf)
      | none =>
          have hi : i < h.length :=
            heap_get_lt h i _ (nodeOf_get h i st hn)
          cases hna : envNestedAttr env st.cls k with
          | some c =>
              have hro : readObs env h i k = none := by
                unfold readObs
                simp only [hn, hv, hna]
              have hok1 : heapOk
                  (h ++ [HObj.node ⟨c, [], some i, some k⟩]) :=
                heapOk_append h _ hhp
                  (fun kv hkv => absurd hkv (List.not_mem_nil kv))
              have hok2 : heapOk (writeField
                  (h ++ [HObj.node ⟨c, [], some i, some k⟩]) i k
                  (.vref h.length)) := by
                refine heapOk_writeField _ i k _ hok1 ?_
                show decide (h.length <
                  (h ++ [HObj.node ⟨c, [], some i, some k⟩]).length) =
                  true
                simp
              have hn1 : nodeOf
                  (h ++ [HObj.node ⟨c, [], some i, some k⟩]) i =
                  some st := by
                rw [nodeOf_append h _ i hi]
                exact hn
              have hnew : nodeOf (writeField
                  (h ++ [HObj.node ⟨c, [], some i, some k⟩]) i k
                  (.vref h.length)) h.length =
                  some ⟨c, [], some i, some k⟩ :=
                nodeOf_writeField_append_new h _ i k _ st hn
              have hrw : readObs env (writeField
                  (h ++ [HObj.node ⟨c, [], some i, some k⟩]) i k
                  (.vref h.length)) i k = some (.vref h.length) := by
                simp only [readObs,
                  nodeOf_writeField_self _ i k _ st hn1,
                  alGet_alSet_self st.data k _,
                  obsView_node _ h.length _ hnew]
              constructor
              · unfold getattrDef getattrM
                simp only [hn, hv, hna]
                refine stable_writeField_append env h _ i k
                  (.vref h.length) st hn hhp hok2 ?_
                intro vc hrf2
                rw [hro, hrw]
                exact pyEq_vref_refFree h.length vc hrf2
              · intro vc hrf
                unfold getattrDef getattrM
                simp only [hn, hv, hna]
                rw [hro, pyEqH_pure _ _ vc
                  (deepOkV_node _ h.length _ hnew)
                  (deepOkV_refFree _ vc hrf)]
                exact pyEq_vref_refFree h.length vc hrf
          | none =>
              cases hp : alGet (envProps env st.cls) k with
              | some fs =>
                  by_cases harr : fs.effType = some (.single "array")
                  · cases hic : envItemCls env st.cls k with
                    | some ic =>
                        have hro : readObs env h i k =
                            some (.vlist []) := by
                          unfold readObs
                          simp only [hn, hv, hna, hp, if_pos harr, hic]
                        have hok1 : heapOk
                            (h ++ [HObj.wrap ⟨i, k, ic, []⟩]) :=
                          heapOk_append h _ hhp
                            (fun x hx => absurd hx (List.not_mem_nil x))
                        have hok2 : heapOk (writeField
                            (h ++ [HObj.wrap ⟨i, k, ic, []⟩]) i k
                            (.vref h.length)) := by
                          refine heapOk_writeField _ i k _ hok1 ?_
                          show decide (h.length <
                            (h ++ [HObj.wrap ⟨i, k, ic, []⟩]).length) =
                            true
                          simp
                        have hn1 : nodeOf
                            (h ++ [HObj.wrap ⟨i, k, ic, []⟩]) i =
                            some st := by
                          rw [nodeOf_append h _ i hi]
                          exact hn
                        have hwn : wrapOf (writeField
                            (h ++ [HObj.wrap ⟨i, k, ic, []⟩]) i k
                            (.vref h.length)) h.length =
                            some ⟨i, k, ic, []⟩ :=
                          wrapOf_writeField_append_new h _ i k _ st hn
                        have hrw : readObs env (writeField
                            (h ++ [HObj.wrap ⟨i, k, ic, []⟩]) i k
                            (.vref h.length)) i k =
                            some (.vlist []) := by
                          simp only [readObs,
                            nodeOf_writeField_self _ i k _ st hn1,
                            alGet_alSet_self st.data k _,
                            obsView_wrap _ h.length _ hwn]
                        constructor
                        · unfold getattrDef getattrM
                          simp only [hn, hv, hna, hp, if_pos harr, hic]
                          refine stable_writeField_append env h _ i k
                            (.vref h.length) st hn hhp hok2 ?_
                          intro vc hrf2
                          rw [hro, hrw]
                        · intro vc hrf
                          unfold getattrDef getattrM
                          simp only [hn, hv, hna, hp, if_pos harr, hic]
                          have hq := pyEqH_wrap (writeField
                            (h ++ [HObj.wrap ⟨i, k, ic, []⟩]) i k
                            (.vref h.length)) h.length ⟨i, k, ic, []⟩
                            vc hwn
                            (fun x hx => absurd hx (List.not_mem_nil x))
                            hrf
                          rw [hro]
                          exact hq
                    | none =>
                        have hro : readObs env h i k =
                            some (.vlist []) := by
                          unfold readObs
                          simp only [hn, hv, hna, hp, if_pos harr, hic]
                        constructor
                        · unfold getattrDef getattrM
                          simp only [hn, hv, hna, hp, if_pos harr, hic]
                          exact stable_writeField_same env h i k
                            (.vlist []) st hn hro hhp rfl
                        · intro vc hrf
                          unfold getattrDef getattrM
                          simp only [hn, hv, hna, hp, if_pos harr, hic]
                          have hq := pyEqH_pure
                            (writeField h i k (.vlist []))
                            (.vlist []) vc rfl
                            (deepOkV_refFree _ vc hrf)
                          rw [hro]
                          exact hq
                  · have hro : readObs env h i k = some .vnone := by
                      unfold readObs
                      simp only [hn, hv, hna, hp, if_neg harr]
                    constructor
                    · unfold getattrDef getattrM
                      simp only [hn, hv, hna, hp, if_neg harr]
                      exact stable_writeField_same env h i k
                        .vnone st hn hro hhp rfl
                    · intro vc hrf
                      unfold getattrDef getattrM
                      simp only [hn, hv, hna, hp, if_neg harr]
                      have hq := pyEqH_pure (writeField h i k .vnone)
                        .vnone vc rfl (deepOkV_refFree _ vc hrf)
                      rw [hro]
                      exact hq
              | none =>
                  constructor
                  · unfold getattrDef getattrM
                    simp only [hn, hv, hna, hp]
                    exact heapStable_refl env h hhp
                  · intro vc hrf
                    unfold getattrDef getattrM readObs
                    simp only [hn, hv, hna, hp]
                    exact pyEqH_pure h .vnone vc rfl
                      (deepOkV_refFree h vc hrf)

theorem getattrDef_nonode (env : Env) (h : Heap) (i : Nat) (k : String)
    (hn : nodeOf h i = none) : getattrDef env h i k = (h, .vnone) := by
  unfold getattrDef getattrM
  simp only [hn]

theorem checkCriteria_spec (env : Env) (i : Nat) :
    ∀ (criteria : List (String × HVal)) (h : Heap), heapOk h →
    refFreeEntries criteria = true →
    heapStable env h (checkCriteriaNode env i h criteria).1 ∧
    (checkCriteriaNode env i h criteria).2 =
      criteria.all (fun kv =>
        match readObs env h i kv.1 with
        | some v => pyEq v kv.2
        | none => false) := by
  intro criteria
  induction criteria with
  | nil => intro h hhp _; exact ⟨heapStable_refl env h hhp, rfl⟩
  | cons kv rest ih =>
      intro h hhp hrf
      obtain ⟨k, vc⟩ := kv
      rw [refFreeEntries, Bool.and_eq_true] at hrf
      obtain ⟨hrf1, hrf2⟩ := hrf
      have hstep := getattrDef_step env h i k hhp
      have hbeq := hstep.2 vc hrf1
      rw [checkCriteriaNode]
      simp only [List.all_cons]
      cases hb : pyEqH (getattrDef env h i k).1
          (getattrDef env h i k).2 vc with
      | false =>
          rw [if_neg (by simp)]
          rw [hb] at hbeq
          rw [← hbeq]
          simp only [Bool.false_and]
          exact ⟨hstep.1, trivial⟩
      | true =>
          rw [if_pos rfl]
          rw [hb] at hbeq
          rw [← hbeq]
          simp only [Bool.true_and]
          have ihp := ih (getattrDef env h i k).1 hstep.1.2.2.2 hrf2
          refine ⟨heapStable_trans env h _ _ hstep.1 ihp.1, ?_⟩
          rw [ihp.2]
          cases hn : nodeOf h i with
          | none =>
              rw [getattrDef_nonode env h i k hn]
          | some st =>
              refine list_all_congr rest _ _ ?_
              intro kv2 hkv2
              exact hstep.1.2.2.1 i st hn kv2.1 kv2.2
                (refFreeEntries_mem rest kv2 hrf2 hkv2)

theorem itemOk_ref (h : Heap) (i : Nat)
    (hok : itemOkB h (.vref i) = true) : ∃ st, nodeOf h i = some st := by
  have hok2 : (match h.get i with
      | some (HObj.node _) => true
      | _ => false) = true := hok
  unfold nodeOf
  cases hg : h.get i with
  | none => rw [hg] at hok2; simp at hok2
  | some o =>
      cases o with
      | node st => exact ⟨st, rfl⟩
      | wrap ws => rw [hg] at hok2; simp at hok2

theorem specMatches_ref (env : Env) (h : Heap)
    (criteria : List (String × HVal)) (i : Nat) (st : NodeState)
    (hn : nodeOf h i = some st) :
    specMatches env h criteria (.vref i) =
      criteria.all (fun kv =>
        match readObs env h i kv.1 with
        | some v => pyEq v kv.2
        | none => false) := by
  have he : specMatches env h criteria (.vref i) =
      (match h.get i with
       | some (HObj.node _) => criteria.all (fun kv =>
           match readObs env h i kv.1 with
           | some v => pyEq v kv.2
           | none => false)
       | _ => false) := rfl
  rw [he, nodeOf_get h i st hn]

theorem probe_transfer (env : Env) (h0 h : Heap) (i : Nat)
    (st : NodeState) (criteria : List (String × HVal))
    (hst : heapStable env h0 h) (hn0 : nodeOf h0 i = some st)
    (hcr : refFreeEntries criteria = true) :
    (criteria.all (fun kv =>
      match readObs env h i kv.1 with
      | some v => pyEq v kv.2
      | none => false)) =
    specMatches env h0 criteria (.vref i) := by
  rw [specMatches_ref env h0 criteria i st hn0]
  refine list_all_congr criteria _ _ ?_
  intro kv hkv
  exact hst.2.2.1 i st hn0 kv.1 kv.2
    (refFreeEntries_mem criteria kv hcr hkv)

theorem remove_by_go_nomatch (env : Env) (w : Nat) (ws : WrapState)
    (criteria : List (String × HVal)) (h0 : Heap)
    (hcr : refFreeEntries criteria = true)
    (hw0 : wrapOf h0 w = some ws) :
    ∀ (s : List HVal) (h : Heap), heapStable env h0 h →
    wrapOf h w = some ws →
    (∀ x ∈ s, itemOkB h0 x = true) →
    (∀ x ∈ s, specMatches env h0 criteria x = false) →
    (remove_by_go env w criteria h s).2 = .ok false ∧
    wrapOf (remove_by_go env w criteria h s).1 w = some ws := by
  intro s
  induction s with
  | nil =>
      intro h hst hw _ _
      exact ⟨rfl, hw⟩
  | cons item rest ih =>
      intro h hst hw hok hnm
      cases item with
      | vref i =>
          obtain ⟨st, hn0⟩ := itemOk_ref h0 i
            (hok _ (List.mem_cons_self _ _))
          obtain ⟨st2, hn⟩ := hst.2.1 i st hn0
          have hge : h.get i = some (.node st2) := nodeOf_get h i st2 hn
          have hcs := checkCriteria_spec env i criteria h hst.2.2.2 hcr
          have hfalse : (checkCriteriaNode env i h criteria).2 = false := by
            rw [hcs.2,
              probe_transfer env h0 h i st criteria hst hn0 hcr]
            exact hnm _ (List.mem_cons_self _ _)
          simp only [remove_by_go, hge]
          rw [hfalse]
          simp only [Bool.false_eq_true, if_false]
          exact ih (checkCriteriaNode env i h criteria).1
            (heapStable_trans env h0 h _ hst hcs.1)
            (hcs.1.1 w ws hw)
            (fun a ha => hok a (List.mem_cons_of_mem _ ha))
            (fun a ha => hnm a (List.mem_cons_of_mem _ ha))
      | vdict d =>
          have hd0 : itemOkB h0 (.vdict d) = true :=
            hok _ (List.mem_cons_self _ _)
          have hdrf : refFree (HVal.vdict d) = true := by
            have h2 : (refFree (HVal.vdict d) && wfp (HVal.vdict d)) =
                true := hd0
            rw [Bool.and_eq_true] at h2
            exact h2.1
          have hmf : matchDictH h d criteria = false := by
            rw [matchDictH_pure h d criteria hdrf hcr]
            exact hnm _ (List.mem_cons_self _ _)
          simp only [remove_by_go]
          rw [hmf]
          simp only [Bool.false_eq_true, if_false]
          exact ih h hst hw
            (fun a ha => hok a (List.mem_cons_of_mem _ ha))
            (fun a ha => hnm a (List.mem_cons_of_mem _ ha))
      | vnone =>
          simp only [remove_by_go]
          exact ih h hst hw
            (fun a ha => hok a (List.mem_cons_of_mem _ ha))
            (fun a ha => hnm a (List.mem_cons_of_mem _ ha))
      | vbool b0 =>
          simp only [remove_by_go]
          exact ih h hst hw
            (fun a ha => hok a (List.mem_cons_of_mem _ ha))
            (fun a ha => hnm a (List.mem_cons_of_mem _ ha))
      | vint n0 =>
          simp only [remove_by_go]
          exact ih h hst hw
            (fun a ha => hok a (List.mem_cons_of_mem _ ha))
            (fun a ha => hnm a (List.mem_cons_of_mem _ ha))
      | vstr s0 =>
          simp only [remove_by_go]
          exact ih h hst hw
            (fun a ha => hok a (List.mem_cons_of_mem _ ha))
            (fun a ha => hnm a (List.mem_cons_of_mem _ ha))
      | vfloat n0 =>
          simp only [remove_by_go]
          exact ih h hst hw
            (fun a ha => hok a (List.mem_cons_of_mem _ ha))
            (fun a ha => hnm a (List.mem_cons_of_mem _ ha))
      | vdate d0 =>
          simp only [remove_by_go]
          exact ih h hst hw
            (fun a ha => hok a (List.mem_cons_of_mem _ ha))
            (fun a ha => hnm a (List.mem_cons_of_mem _ ha))
      | vobjid t0 =>
          simp only [remove_by_go]
          exact ih h hst hw
            (fun a ha => hok a (List.mem_cons_of_mem _ ha))
            (fun a ha => hnm a (List.mem_cons_of_mem _ ha))
      | vbytes x0 =>
          simp only [remove_by_go]
          exact ih h hst hw
            (fun a ha => hok a (List.mem_cons_of_mem _ ha))
            (fun a ha => hnm a (List.mem_cons_of_mem _ ha))
      | vdec n0 =>
          simp only [remove_by_go]
          exact ih h hst hw
            (fun a ha => hok a (List.mem_cons_of_mem _ ha))
            (fun a ha => hnm a (List.mem_cons_of_mem _ ha))
      | vlist xs =>
          simp only [remove_by_go]
          exact ih h hst hw
            (fun a ha => hok a (List.mem_cons_of_mem _ ha))
            (fun a ha => hnm a (List.mem_cons_of_mem _ ha))

theorem remove_by_go_found (env : Env) (w : Nat) (ws : WrapState)
    (criteria : List (String × HVal)) (h0 : Heap)
    (hcr : refFreeEntries criteria = true)
    (hw0 : wrapOf h0 w = some ws)
    (y : HVal) (post live2 : List HVal)
    (hy : specMatches env h0 criteria y = true)
    (hrm : removeFirstEq y ws.items = some live2)
    (hyok : itemOkB h0 y = true)
    (hitems : ∀ x ∈ ws.items, itemOkB h0 x = true) :
    ∀ (pre : List HVal) (h : Heap), heapStable env h0 h →
    wrapOf h w = some ws →
    (∀ x ∈ pre, itemOkB h0 x = true) →
    (∀ x ∈ pre, specMatches env h0 criteria x = false) →
    (remove_by_go env w criteria h (pre ++ y :: post)).2 = .ok true ∧
    itemsOfW (remove_by_go env w criteria h (pre ++ y :: post)).1 w =
      live2 := by
  intro pre
  induction pre with
  | nil =>
      intro h hst hw _ _
      rw [List.nil_append]
      cases y with
      | vref i =>
          have hy2 : (match h0.get i with
              | some (HObj.node _) => criteria.all (fun kv =>
                  match readObs env h0 i kv.1 with
                  | some v => pyEq v kv.2
                  | none => false)
              | _ => false) = true := hy
          have hok : itemOkB h0 (.vref i) = true := by
            show (match h0.get i with
                | some (HObj.node _) => true
                | _ => false) = true
            cases hg : h0.get i with
            | none => rw [hg] at hy2; simp at hy2
            | some o =>
                cases o with
                | node st => rfl
                | wrap ws2 => rw [hg] at hy2; simp at hy2
          obtain ⟨st, hn0⟩ := itemOk_ref h0 i hok
          obtain ⟨st2, hn⟩ := hst.2.1 i st hn0
          have hge : h.get i = some (.node st2) := nodeOf_get h i st2 hn
          have hcs := checkCriteria_spec env i criteria h hst.2.2.2 hcr
          have htrue : (checkCriteriaNode env i h criteria).2 = true := by
            rw [hcs.2,
              probe_transfer env h0 h i st criteria hst hn0 hcr]
            exact hy
          have hwp : wrapOf (checkCriteriaNode env i h criteria).1 w =
              some ws := hcs.1.1 w ws hw
          have hstp := heapStable_trans env h0 h _ hst hcs.1
          have hbr : removeFirstEqH
              (checkCriteriaNode env i h criteria).1 (.vref i)
              ws.items = removeFirstEq (.vref i) ws.items :=
            removeFirstEqH_itemOk _ _ _
              (itemOkB_stable h0 _ _ hstp.2.1 hyok)
              (fun y2 hy2b => itemOkB_stable h0 _ y2 hstp.2.1
                (hitems y2 hy2b))
          simp only [remove_by_go, hge]
          rw [htrue]
          simp only [if_true]
          rw [itemsOfW_eq _ w ws hwp, hbr, hrm]
          refine ⟨rfl, ?_⟩
          rw [itemsOfW_eq _ w {ws with items := live2}
            (wrapOf_setWrapItems_self _ w ws live2 hwp)]
      | vdict d =>
          have hdrf : refFree (HVal.vdict d) = true := by
            have h2 : (refFree (HVal.vdict d) && wfp (HVal.vdict d)) =
                true := hyok
            rw [Bool.and_eq_true] at h2
            exact h2.1
          have hmd : matchDictH h d criteria = true := by
            rw [matchDictH_pure h d criteria hdrf hcr]
            exact hy
          have hbr : removeFirstEqH h (.vdict d) ws.items =
              removeFirstEq (.vdict d) ws.items :=
            removeFirstEqH_itemOk h _ ws.items
              (itemOkB_stable h0 h _ hst.2.1 hyok)
              (fun y2 hy2b => itemOkB_stable h0 h y2 hst.2.1
                (hitems y2 hy2b))
          simp only [remove_by_go]
          rw [hmd]
          simp only [if_true]
          rw [itemsOfW_eq h w ws hw, hbr, hrm]
          refine ⟨rfl, ?_⟩
          rw [itemsOfW_eq _ w {ws with items := live2}
            (wrapOf_setWrapItems_self h w ws live2 hw)]
      | vnone => simp [specMatches] at hy
      | vbool b0 => simp [specMatches] at hy
      | vint n0 => simp [specMatches] at hy
      | vstr s0 => simp [specMatches] at hy
      | vfloat n0 => simp [specMatches] at hy
      | vdate d0 => simp [specMatches] at hy
      | vobjid t0 => simp [specMatches] at hy
      | vbytes x0 => simp [specMatches] at hy
      | vdec n0 => simp [specMatches] at hy
      | vlist xs => simp [specMatches] at hy
  | cons x pre2 ih =>
      intro h hst hw hok hnm
      rw [List.cons_append]
      cases x with
      | vref i =>
          obtain ⟨st, hn0⟩ := itemOk_ref h0 i
            (hok _ (List.mem_cons_self _ _))
          obtain ⟨st2, hn⟩ := hst.2.1 i st hn0
          have hge : h.get i = some (.node st2) := nodeOf_get h i st2 hn
          have hcs := checkCriteria_spec env i criteria h hst.2.2.2 hcr
          have hfalse : (checkCriteriaNode env i h criteria).2 = false := by
            rw [hcs.2,
              probe_transfer env h0 h i st criteria hst hn0 hcr]
            exact hnm _ (List.mem_cons_self _ _)
          simp only [remove_by_go, hge]
          rw [hfalse]
          simp only [Bool.false_eq_true, if_false]
          exact ih (checkCriteriaNode env i h criteria).1
            (heapStable_trans env h0 h _ hst hcs.1)
            (hcs.1.1 w ws hw)
            (fun a ha => hok a (List.mem_cons_of_mem _ ha))
            (fun a ha => hnm a (List.mem_cons_of_mem _ ha))
      | vdict d =>
          have hd0 : itemOkB h0 (.vdict d) = true :=
            hok _ (List.mem_cons_self _ _)
          have hdrf : refFree (HVal.vdict d) = true := by
            have h2 : (refFree (HVal.vdict d) && wfp (HVal.vdict d)) =
                true := hd0
            rw [Bool.and_eq_true] at h2
            exact h2.1
          have hmf : matchDictH h d criteria = false := by
            rw [matchDictH_pure h d criteria hdrf hcr]
            exact hnm _ (List.mem_cons_self _ _)
          simp only [remove_by_go]
          rw [hmf]
          simp only [Bool.false_eq_true, if_false]
          exact ih h hst hw
            (fun a ha => hok a (List.mem_cons_of_mem _ ha))
            (fun a ha => hnm a (List.mem_cons_of_mem _ ha))
      | vnone =>
          simp only [remove_by_go]
          exact ih h hst hw
            (fun a ha => hok a (List.mem_cons_of_mem _ ha))
            (fun a ha => hnm a (List.mem_cons_of_mem _ ha))
      | vbool b0 =>
          simp only [remove_by_go]
          exact ih h hst hw
            (fun a ha => hok a (List.mem_cons_of_mem _ ha))
            (fun a ha => hnm a (List.mem_cons_of_mem _ ha))
      | vint n0 =>
          simp only [remove_by_go]
          exact ih h hst hw
            (fun a ha => hok a (List.mem_cons_of_mem _ ha))
            (fun a ha => hnm a (List.mem_cons_of_mem _ ha))
      | vstr s0 =>
          simp only [remove_by_go]
          exact ih h hst hw
            (fun a ha => hok a (List.mem_cons_of_mem _ ha))
            (fun a ha => hnm a (List.mem_cons_of_mem _ ha))
      | vfloat n0 =>
          simp only [remove_by_go]
          exact ih h hst hw
            (fun a ha => hok a (List.mem_cons_of_mem _ ha))
            (fun a ha => hnm a (List.mem_cons_of_mem _ ha))
      | vdate d0 =>
          simp only [remove_by_go]
          exact ih h hst hw
            (fun a ha => hok a (List.mem_cons_of_mem _ ha))
            (fun a ha => hnm a (List.mem_cons_of_mem _ ha))
      | vobjid t0 =>
          simp only [remove_by_go]
          exact ih h hst hw
            (fun a ha => hok a (List.mem_cons_of_mem _ ha))
            (fun a ha => hnm a (List.mem_cons_of_mem _ ha))
      | vbytes x0 =>
          simp only [remove_by_go]
          exact ih h hst hw
            (fun a ha => hok a (List.mem_cons_of_mem _ ha))
            (fun a ha => hnm a (List.mem_cons_of_mem _ ha))
      | vdec n0 =>
          simp only [remove_by_go]
          exact ih h hst hw
            (fun a ha => hok a (List.mem_cons_of_mem _ ha))
            (fun a ha => hnm a (List.mem_cons_of_mem _ ha))
      | vlist xs =>
          simp only [remove_by_go]
          exact ih h hst hw
            (fun a ha => hok a (List.mem_cons_of_mem _ ha))
            (fun a ha => hnm a (List.mem_cons_of_mem _ ha))

theorem collectMatches_spec (env : Env)
    (criteria : List (String × HVal)) (h0 : Heap)
    (hcr : refFreeEntries criteria = true) :
    ∀ (s : List HVal) (h : Heap), heapStable env h0 h →
    (∀ x ∈ s, itemOkB h0 x = true) →
    heapStable env h0 (collectMatches env criteria h s).1 ∧
    (collectMatches env criteria h s).2 =
      s.filter (specMatches env h0 criteria) := by
  intro s
  induction s with
  | nil => intro h hst _; exact ⟨hst, rfl⟩
  | cons item rest ih =>
      intro h hst hok
      cases item with
      | vref i =>
          obtain ⟨st, hn0⟩ := itemOk_ref h0 i
            (hok _ (List.mem_cons_self _ _))
          obtain ⟨st2, hn⟩ := hst.2.1 i st hn0
          have hge : h.get i = some (.node st2) := nodeOf_get h i st2 hn
          have hcs := checkCriteria_spec env i criteria h hst.2.2.2 hcr
          have hcp : (checkCriteriaNode env i h criteria).2 =
              specMatches env h0 criteria (.vref i) := by
            rw [hcs.2]
            exact probe_transfer env h0 h i st criteria hst hn0 hcr
          have hrec := ih (checkCriteriaNode env i h criteria).1
            (heapStable_trans env h0 h _ hst hcs.1)
            (fun a ha => hok a (List.mem_cons_of_mem _ ha))
          simp only [collectMatches, hge]
          refine ⟨hrec.1, ?_⟩
          rw [hrec.2, hcp, List.filter_cons]
      | vdict d =>
          have hd0 : itemOkB h0 (.vdict d) = true :=
            hok _ (List.mem_cons_self _ _)
          have hdrf : refFree (HVal.vdict d) = true := by
            have h2 : (refFree (HVal.vdict d) && wfp (HVal.vdict d)) =
                true := hd0
            rw [Bool.and_eq_true] at h2
            exact h2.1
          have hmdb : matchDictH h d criteria = matchDict d criteria :=
            matchDictH_pure h d criteria hdrf hcr
          have hrec := ih h hst
            (fun a ha => hok a (List.mem_cons_of_mem _ ha))
          simp only [collectMatches]
          refine ⟨hrec.1, ?_⟩
          rw [hrec.2, List.filter_cons, hmdb]
          have hsd : specMatches env h0 criteria (.vdict d) =
              matchDict d criteria := rfl
          rw [hsd]
      | vnone =>
          simp only [collectMatches]
          have hrec := ih h hst
            (fun a ha => hok a (List.mem_cons_of_mem _ ha))
          exact ⟨hrec.1, by rw [hrec.2, List.filter_cons]; simp [specMatches]⟩
      | vbool b0 =>
          simp only [collectMatches]
          have hrec := ih h hst
            (fun a ha => hok a (List.mem_cons_of_mem _ ha))
          exact ⟨hrec.1, by rw [hrec.2, List.filter_cons]; simp [specMatches]⟩
      | vint n0 =>
          simp only [collectMatches]
          have hrec := ih h hst
            (fun a ha => hok a (List.mem_cons_of_mem _ ha))
          exact ⟨hrec.1, by rw [hrec.2, List.filter_cons]; simp [specMatches]⟩
      | vstr s0 =>
          simp only [collectMatches]
          have hrec := ih h hst
            (fun a ha => hok a (List.mem_cons_of_mem _ ha))
          exact ⟨hrec.1, by rw [hrec.2, List.filter_cons]; simp [specMatches]⟩
      | vfloat n0 =>
          simp only [collectMatches]
          have hrec := ih h hst
            (fun a ha => hok a (List.mem_cons_of_mem _ ha))
          exact ⟨hrec.1, by rw [hrec.2, List.filter_cons]; simp [specMatches]⟩
      | vdate d0 =>
          simp only [collectMatches]
          have hrec := ih h hst
            (fun a ha => hok a (List.mem_cons_of_mem _ ha))
          exact ⟨hrec.1, by rw [hrec.2, List.filter_cons]; simp [specMatches]⟩
      | vobjid t0 =>
          simp only [collectMatches]
          have hrec := ih h hst
            (fun a ha => hok a (List.mem_cons_of_mem _ ha))
          exact ⟨hrec.1, by rw [hrec.2, List.filter_cons]; simp [specMatches]⟩
      | vbytes x0 =>
          simp only [collectMatches]
          have hrec := ih h hst
            (fun a ha => hok a (List.mem_cons_of_mem _ ha))
          exact ⟨hrec.1, by rw [hrec.2, List.filter_cons]; simp [specMatches]⟩
      | vdec n0 =>
          simp only [collectMatches]
          have hrec := ih h hst
            (fun a ha => hok a (List.mem_cons_of_mem _ ha))
          exact ⟨hrec.1, by rw [hrec.2, List.filter_cons]; simp [specMatches]⟩
      | vlist xs =>
          simp only [collectMatches]
          have hrec := ih h hst
            (fun a ha => hok a (List.mem_cons_of_mem _ ha))
          exact ⟨hrec.1, by rw [hrec.2, List.filter_cons]; simp [specMatches]⟩

/-- Claim C8: `remove_by` scans the container in insertion order and
removes exactly the first element (typed object or plain dict) matching
every criterion, returning `True`; with no match it returns `False` and
the element list is unchanged; `remove_all_by` removes every matching
element, returns the exact count, and the remaining elements keep their
relative order.  Elements are admissible container items and criteria
values are plain (reference-free) document values. -/
theorem mso_c8_removal_semantics (env : Env) (h : Heap) (w : Nat)
    (ws : WrapState) (criteria : List (String × HVal))
    (hw : wrapOf h w = some ws)
    (hhp : heapOk h)
    (hok : ∀ x ∈ ws.items, itemOkB h x = true)
    (hcr : refFreeEntries criteria = true) :
    ((∀ x ∈ ws.items, specMatches env h criteria x = false) →
      (remove_by env h w criteria).2 = .ok false ∧
      itemsOfW (remove_by env h w criteria).1 w = ws.items) ∧
    (∀ pre y post, ws.items = pre ++ y :: post →
      (∀ x ∈ pre, specMatches env h criteria x = false) →
      specMatches env h criteria y = true →
      (remove_by env h w criteria).2 = .ok true ∧
      itemsOfW (remove_by env h w criteria).1 w = pre ++ post) ∧
    ((remove_all_by env h w criteria).2 =
      .ok (ws.items.countP (specMatches env h criteria)) ∧
     itemsOfW (remove_all_by env h w criteria).1 w =
       ws.items.filter (fun x => !(specMatches env h criteria x))) := by
  have hcong : ∀ a b, pyEq a b = true →
      specMatches env h criteria b = true →
      specMatches env h criteria a = true :=
    fun a b hab hb => specMatches_congr env h criteria a b hab hb
  refine ⟨?_, ?_, ?_⟩
  · intro hnone
    have hgo := remove_by_go_nomatch env w ws criteria h hcr hw
      ws.items h (heapStable_refl env h hhp) hw hok hnone
    unfold remove_by
    rw [itemsOfW_eq h w ws hw]
    exact ⟨hgo.1, itemsOfW_eq _ w ws hgo.2⟩
  · intro pre y post hdec hpre hy
    have hymem : y ∈ ws.items := by
      rw [hdec]
      exact List.mem_append_right _ (List.mem_cons_self _ _)
    have hrm : removeFirstEq y ws.items = some (pre ++ post) := by
      rw [hdec]
      exact removeFirstEq_prefix (specMatches env h criteria) hcong
        pre y post hpre hy
        (specMatches_pyEq_self env h criteria y (hok y hymem) hy)
    have hpreok : ∀ x ∈ pre, itemOkB h x = true := fun x hx =>
      hok x (by rw [hdec]; exact List.mem_append_left _ hx)
    have hgo := remove_by_go_found env w ws criteria h hcr hw y post
      (pre ++ post) hy hrm (hok y hymem) hok pre h
      (heapStable_refl env h hhp) hw hpreok hpre
    unfold remove_by
    rw [itemsOfW_eq h w ws hw, hdec]
    exact hgo
  · have hcol := collectMatches_spec env criteria h hcr ws.items h
      (heapStable_refl env h hhp) hok
    have hwc : wrapOf (collectMatches env criteria h ws.items).1 w =
        some ws := hcol.1.1 w ws hw
    have hrl : removeListEach
        (ws.items.filter (specMatches env h criteria)) ws.items =
        some (ws.items.filter
          (fun x => !(specMatches env h criteria x))) :=
      removeList_filter _ hcong ws.items (fun x hx hpx =>
        specMatches_pyEq_self env h criteria x (hok x hx) hpx)
    have hfilok : ∀ c ∈ ws.items.filter (specMatches env h criteria),
        itemOkB (collectMatches env criteria h ws.items).1 c = true :=
      fun c hc => itemOkB_stable h _ c hcol.1.2.1
        (hok c (List.mem_of_mem_filter hc))
    have hitok : ∀ y ∈ ws.items,
        itemOkB (collectMatches env criteria h ws.items).1 y = true :=
      fun y hy => itemOkB_stable h _ y hcol.1.2.1 (hok y hy)
    have hre := removeEach_spec w
      (ws.items.filter (specMatches env h criteria))
      (collectMatches env criteria h ws.items).1 ws
      (ws.items.filter (fun x => !(specMatches env h criteria x)))
      hwc hfilok hitok hrl
    unfold remove_all_by
    rw [itemsOfW_eq h w ws hw]
    show (match removeEach w (collectMatches env criteria h ws.items).1
        (collectMatches env criteria h ws.items).2 with
      | (h2, Except.ok _) => (h2, Except.ok
          (collectMatches env criteria h ws.items).2.length)
      | (h2, Except.error e) => (h2, Except.error e)).2 =
        Except.ok (List.countP (specMatches env h criteria) ws.items) ∧
      itemsOfW (match removeEach w
          (collectMatches env criteria h ws.items).1
          (collectMatches env criteria h ws.items).2 with
        | (h2, Except.ok _) => (h2, Except.ok
            (collectMatches env criteria h ws.items).2.length)
        | (h2, Except.error e) => (h2, Except.error e)).1 w =
        List.filter (fun x => !(specMatches env h criteria x)) ws.items
    rw [hcol.2]
    cases hrem : removeEach w (collectMatches env criteria h ws.items).1
        (ws.items.filter (specMatches env h criteria)) with
    | mk h2 r2 =>
        rw [hrem] at hre
        cases r2 with
        | error e => simp at hre
        | ok u =>
            simp only
            constructor
            · rw [List.countP_eq_length_filter]
            · exact itemsOfW_eq h2 w _ hre.2

/-- Claim C8 witness: on the concrete `Person.addresses` container with a
"home" and a "work" address, removal by `kind = "home"` removes exactly
the first element and returns `True`, and remove-all removes the single
match with the exact count. -/
theorem mso_c8_witness :
    wrapOf hW 1 = some ⟨0, "addresses", "Address",
      [.vref 2, .vref 3]⟩ ∧
    specMatches envA hW [("kind", HVal.vstr "home")] (.vref 2) = true ∧
    (remove_by envA hW 1 [("kind", HVal.vstr "home")]).2 = .ok true ∧
    itemsOfW (remove_by envA hW 1 [("kind", HVal.vstr "home")]).1 1 =
      [] ++ [HVal.vref 3] ∧
    (remove_all_by envA hW 1 [("kind", HVal.vstr "home")]).2 =
      .ok (([HVal.vref 2, HVal.vref 3]).countP
        (specMatches envA hW [("kind", HVal.vstr "home")])) ∧
    itemsOfW (remove_all_by envA hW 1 [("kind", HVal.vstr "home")]).1 1 =
      ([HVal.vref 2, HVal.vref 3]).filter
        (fun x => !(specMatches envA hW [("kind", HVal.vstr "home")] x)) := by
  have H := mso_c8_removal_semantics envA hW 1
    ⟨0, "addresses", "Address", [.vref 2, .vref 3]⟩
    [("kind", HVal.vstr "home")] rfl
    (heapOk_of_B hW (by decide))
    (by
      intro x hx
      rcases List.mem_cons.mp hx with he | hx2
      · rw [he]; rfl
      · rcases List.mem_cons.mp hx2 with he2 | hx3
        · rw [he2]; rfl
        · simp at hx3)
    rfl
  have Hb := H.2.1 [] (.vref 2) [HVal.vref 3] rfl
    (by intro x hx; simp at hx) rfl
  exact ⟨rfl, rfl, Hb.1, Hb.2, H.2.2.1, H.2.2.2⟩

theorem refFree_refsIn_n : ∀ n v (L N : Nat), sizeOf v ≤ n →
    refFree v = true → refsIn L N v = true := by
  intro n
  induction n with
  | zero => intro v L N hs; exfalso; cases v <;> simp at hs
  | succ n ih =>
      intro v L N hs hrf
      cases v with
      | vref j => simp [refFree] at hrf
      | vlist xs =>
          have hxs : refFreeList xs = true := by simpa [refFree] using hrf
          show refsInList L N xs = true
          clear hrf
          induction xs with
          | nil => rfl
          | cons x rest ihl =>
              rw [refFreeList, Bool.and_eq_true] at hxs
              rw [refsInList, Bool.and_eq_true]
              have h1 := List.sizeOf_lt_of_mem
                (List.mem_cons_self x rest)
              have h2 : sizeOf (HVal.vlist (x :: rest)) =
                  1 + sizeOf (x :: rest) := by simp
              refine ⟨ih x L N (by omega) hxs.1, ?_⟩
              have h3 : sizeOf (HVal.vlist rest) <
                  sizeOf (HVal.vlist (x :: rest)) := by
                simp
              exact ihl (by omega) hxs.2
      | vdict kvs =>
          have hks : refFreeEntries kvs = true := by
            simpa [refFree] using hrf
          show refsInEntries L N kvs = true
          clear hrf
          induction kvs with
          | nil => rfl
          | cons kv rest ihl =>
              obtain ⟨k, v2⟩ := kv
              rw [refFreeEntries, Bool.and_eq_true] at hks
              rw [refsInEntries, Bool.and_eq_true]
              have h1 := List.sizeOf_lt_of_mem
                (List.mem_cons_self (k, v2) rest)
              have h2 : sizeOf (HVal.vdict ((k, v2) :: rest)) =
                  1 + sizeOf ((k, v2) :: rest) := by simp
              have h3 : sizeOf ((k, v2) : String × HVal) =
                  1 + sizeOf k + sizeOf v2 := by simp
              refine ⟨ih v2 L N (by omega) hks.1, ?_⟩
              have h4 : sizeOf (HVal.vdict rest) <
                  sizeOf (HVal.vdict ((k, v2) :: rest)) := by
                simp
              exact ihl (by omega) hks.2
      | vnone => rfl
      | vbool b => rfl
      | vint n0 => rfl
      | vstr s0 => rfl
      | vfloat n0 => rfl
      | vdate d0 => rfl
      | vobjid t0 => rfl
      | vbytes x0 => rfl
      | vdec n0 => rfl

theorem refFree_refsIn (v : HVal) (L N : Nat) (hrf : refFree v = true) :
    refsIn L N v = true :=
  refFree_refsIn_n (sizeOf v) v L N (Nat.le_refl _) hrf

theorem isinst_empty (v : HVal) (hrf : refFree v = true) :
    ∀ (pc : PyClass) (h : Heap), isinst h v pc = isinst [] v pc := by
  intro pc h
  cases v <;> cases pc <;> simp [isinst, refFree] at hrf ⊢

theorem isModelInst_empty (v : HVal) (hrf : refFree v = true)
    (h : Heap) : isModelInst h v = isModelInst [] v := by
  cases v <;> simp [isModelInst, refFree] at hrf ⊢

theorem isInstOfCls_empty (v : HVal) (hrf : refFree v = true)
    (h : Heap) (c : String) : isInstOfCls h v c = isInstOfCls [] v c := by
  cases v <;> simp [isInstOfCls, refFree] at hrf ⊢

theorem iterItems_empty (v : HVal) (hrf : refFree v = true) (h : Heap) :
    iterItems h v = iterItems [] v := by
  cases v <;> simp [iterItems, refFree] at hrf ⊢

theorem refFreeList_iterItems (v : HVal) (hrf : refFree v = true)
    (h : Heap) : refFreeList (iterItems h v) = true := by
  cases v <;> simp [iterItems, refFree, refFreeList] at hrf ⊢
  exact hrf

theorem validateOneItem_empty (h : Heap) (name : String)
    (itemEnum : Option (List HVal)) (itemType : Option BsonTypeDecl)
    (itemClassO : Option String) (item : HVal)
    (hrf : refFree item = true) :
    validateOneItem h name itemEnum itemType itemClassO item =
      validateOneItem [] name itemEnum itemType itemClassO item := by
  unfold validateOneItem
  simp only [isinst_empty item hrf, isModelInst_empty item hrf]
  cases itemClassO with
  | none => rfl
  | some c => simp only [isInstOfCls_empty item hrf]

theorem validateItemsLoop_empty (env : Env) (h : Heap) (name : String)
    (itemEnum : Option (List HVal)) (itemType : Option BsonTypeDecl)
    (itemClassO : Option String) :
    ∀ l : List HVal, refFreeList l = true →
    validateItemsLoop env h name itemEnum itemType itemClassO l =
      validateItemsLoop env [] name itemEnum itemType itemClassO l := by
  intro l
  induction l with
  | nil => intro _; rfl
  | cons item rest ih =>
      intro hrf
      rw [refFreeList, Bool.and_eq_true] at hrf
      unfold validateItemsLoop
      rw [validateOneItem_empty h name itemEnum itemType itemClassO item
        hrf.1]
      cases validateOneItem [] name itemEnum itemType itemClassO item with
      | error e => rfl
      | ok u =>
          simp only
          exact ih hrf.2

theorem validate_empty (env : Env) (h : Heap) (cls name : String)
    (value : HVal) (hrf : refFree value = true) :
    validate_field_type env h cls name value =
      validate_field_type env [] cls name value := by
  unfold validate_field_type
  simp only [isinst_empty value hrf, isInstOfCls_empty value hrf,
    iterItems_empty value hrf, validateItemsLoop_empty,
    refFreeList_iterItems value hrf]

theorem serializeItems_refFree : ∀ (f : Nat) (xs : List HVal) (h : Heap),
    refFreeList xs = true → xs.length < f →
    serializeItems f h xs = some xs := by
  intro f
  induction f with
  | zero => intro xs h _ hlen; omega
  | succ f ih =>
      intro xs h hrf hlen
      cases xs with
      | nil => rfl
      | cons v rest =>
          rw [refFreeList, Bool.and_eq_true] at hrf
          have hrest : serializeItems f h rest = some rest :=
            ih rest h hrf.2 (by simp at hlen; omega)
          cases v with
          | vref j => simp [refFree] at hrf
          | vnone => simp only [serializeItems, hrest]
          | vbool b => simp only [serializeItems, hrest]
          | vint n => simp only [serializeItems, hrest]
          | vstr s => simp only [serializeItems, hrest]
          | vfloat n => simp only [serializeItems, hrest]
          | vdate d => simp only [serializeItems, hrest]
          | vobjid t => simp only [serializeItems, hrest]
          | vbytes x => simp only [serializeItems, hrest]
          | vdec n => simp only [serializeItems, hrest]
          | vlist ys => simp only [serializeItems, hrest]
          | vdict kvs => simp only [serializeItems, hrest]

theorem serializeVal_keep (f : Nat) (h : Heap) (v : HVal)
    (hnr : ∀ j, v ≠ .vref j) (hnl : ∀ xs, v ≠ .vlist xs) :
    serializeVal (f+1) h v = some v := by
  cases v with
  | vref j => exact absurd rfl (hnr j)
  | vlist xs => exact absurd rfl (hnl xs)
  | vnone => rfl
  | vbool b => rfl
  | vint n => rfl
  | vstr s => rfl
  | vfloat n => rfl
  | vdate d => rfl
  | vobjid t => rfl
  | vbytes x => rfl
  | vdec n => rfl
  | vdict kvs => rfl

theorem heap_get_some (h : Heap) (j : Nat) (hj : j < h.length) :
    ∃ o, h.get j = some o := by
  cases hg : h.get j with
  | some o => exact ⟨o, rfl⟩
  | none =>
      exfalso
      unfold Heap.get at hg
      have := List.get?_eq_none.mp hg
      omega

theorem serEqObj_node (a b : Option HObj) (st : NodeState)
    (he : serEqObj a b) (ha : a = some (.node st)) :
    ∃ st2, b = some (.node st2) ∧ st2.cls = st.cls ∧
      st2.data = st.data := by
  rcases he with he | ⟨st1, st2, ha2, hb, h1, h2⟩
  · exact ⟨st, by rw [← he, ha], rfl, rfl⟩
  · rw [ha] at ha2
    injection ha2 with hx
    injection hx with hy
    subst hy
    exact ⟨st2, hb, h1, h2⟩

theorem serialize_frame (L : Nat) (h h2 : Heap)
    (hab : heapAbove L h)
    (agree : ∀ m, L ≤ m → m < h.length →
      serEqObj (h.get m) (h2.get m)) :
    ∀ g : Nat,
    (∀ j d, L ≤ j → to_dict g h j = some d → to_dict g h2 j = some d) ∧
    (∀ l out, refsInEntries L h.length l = true →
      serializeEntries g h l = some out →
      serializeEntries g h2 l = some out) ∧
    (∀ v sv, refsIn L h.length v = true →
      serializeVal g h v = some sv → serializeVal g h2 v = some sv) ∧
    (∀ xs out, refsInList L h.length xs = true →
      serializeItems g h xs = some out →
      serializeItems g h2 xs = some out) := by
  intro g
  induction g with
  | zero =>
      refine ⟨?_, ?_, ?_, ?_⟩
      · intro j d _ hd; simp [to_dict] at hd
      · intro l out _ hd; simp [serializeEntries] at hd
      · intro v sv _ hd; simp [serializeVal] at hd
      · intro xs out _ hd; simp [serializeItems] at hd
  | succ g ih =>
      obtain ⟨ih1, ih2, ih3, ih4⟩ := ih
      have hnode : ∀ j d, L ≤ j → to_dict (g+1) h j = some d →
          to_dict (g+1) h2 j = some d := by
        intro j d hLj hd
        simp only [to_dict] at hd ⊢
        cases hn : nodeOf h j with
        | none => rw [hn] at hd; simp at hd
        | some st =>
            rw [hn] at hd
            have hd2 : serializeEntries g h st.data = some d := hd
            have hg0 : h.get j = some (.node st) := nodeOf_get h j st hn
            have hjlt : j < h.length := heap_get_lt h j _ hg0
            obtain ⟨st2, hb, hcls, hdata⟩ :=
              serEqObj_node (h.get j) (h2.get j) st (agree j hLj hjlt) hg0
            have hn2 : nodeOf h2 j = some st2 := by
              unfold nodeOf
              rw [hb]
            rw [hn2]
            show serializeEntries g h2 st2.data = some d
            rw [hdata]
            have hra : refsInEntries L h.length st.data = true := by
              have := hab j hLj
              rw [hg0] at this
              exact this
            exact ih2 st.data d hra hd2
      refine ⟨hnode, ?_, ?_, ?_⟩
      · intro l out hra hd
        cases l with
        | nil =>
            cases hd
            rfl
        | cons kv rest =>
            obtain ⟨k, v⟩ := kv
            rw [refsInEntries, Bool.and_eq_true] at hra
            simp only [serializeEntries] at hd ⊢
            cases hsv : serializeVal g h v with
            | none => rw [hsv] at hd; simp at hd
            | some sv =>
                rw [hsv] at hd
                rw [ih3 v sv hra.1 hsv]
                cases hre : serializeEntries g h rest with
                | none => rw [hre] at hd; simp at hd
                | some out2 =>
                    rw [hre] at hd
                    rw [ih2 rest out2 hra.2 hre]
                    exact hd
      · intro v sv hra hd
        cases v with
        | vref j =>
            have hjb : L ≤ j ∧ j < h.length := by
              simpa [refsIn] using hra
            have hLj : L ≤ j := hjb.1
            simp only [serializeVal] at hd ⊢
            cases hg0 : h.get j with
            | none =>
                exfalso
                obtain ⟨o, ho⟩ := heap_get_some h j hjb.2
                rw [ho] at hg0
                exact Option.noConfusion hg0
            | some o =>
                rw [hg0] at hd
                cases o with
                | node st =>
                    have hjlt : j < h.length := heap_get_lt h j _ hg0
                    obtain ⟨st2, hb, hcls, hdata⟩ :=
                      serEqObj_node (h.get j) (h2.get j) st
                        (agree j hLj hjlt) hg0
                    rw [hb]
                    cases htd : to_dict g h j with
                    | none => rw [htd] at hd; simp at hd
                    | some d =>
                        rw [htd] at hd
                        rw [ih1 j d hLj htd]
                        exact hd
                | wrap ws =>
                    exfalso
                    have := hab j hLj
                    rw [hg0] at this
                    exact this
        | vlist xs =>
            have hxs : refsInList L h.length xs = true := by
              simpa [refsIn] using hra
            simp only [serializeVal] at hd ⊢
            cases hit : serializeItems g h xs with
            | none => rw [hit] at hd; simp at hd
            | some ys =>
                rw [hit] at hd
                rw [ih4 xs ys hxs hit]
                exact hd
        | vnone => exact hd
        | vbool b => exact hd
        | vint n => exact hd
        | vstr s => exact hd
        | vfloat n => exact hd
        | vdate d => exact hd
        | vobjid t => exact hd
        | vbytes x => exact hd
        | vdec n => exact hd
        | vdict kvs => exact hd
      · intro xs out hra hd
        cases xs with
        | nil =>
            cases hd
            rfl
        | cons v rest =>
            rw [refsInList, Bool.and_eq_true] at hra
            cases v with
            | vref j =>
                have hjb : L ≤ j ∧ j < h.length := by
                  simpa [refsIn] using hra.1
                have hLj : L ≤ j := hjb.1
                simp only [serializeItems] at hd ⊢
                cases hg0 : h.get j with
                | none =>
                    exfalso
                    obtain ⟨o, ho⟩ := heap_get_some h j hjb.2
                    rw [ho] at hg0
                    exact Option.noConfusion hg0
                | some o =>
                    rw [hg0] at hd
                    cases o with
                    | node st =>
                        have hjlt : j < h.length :=
                          heap_get_lt h j _ hg0
                        obtain ⟨st2, hb, hcls, hdata⟩ :=
                          serEqObj_node (h.get j) (h2.get j) st
                            (agree j hLj hjlt) hg0
                        rw [hb]
                        cases htd : to_dict g h j with
                        | none => rw [htd] at hd; simp at hd
                        | some d =>
                            rw [htd] at hd
                            rw [ih1 j d hLj htd]
                            cases hre : serializeItems g h rest with
                            | none => rw [hre] at hd; simp at hd
                            | some out2 =>
                                rw [hre] at hd
                                rw [ih4 rest out2 hra.2 hre]
                                exact hd
                    | wrap ws =>
                        exfalso
                        have := hab j hLj
                        rw [hg0] at this
                        exact this
            | vnone =>
                simp only [serializeItems] at hd ⊢
                cases hre : serializeItems g h rest with
                | none => rw [hre] at hd; simp at hd
                | some out2 =>
                    rw [hre] at hd
                    rw [ih4 rest out2 hra.2 hre]
                    exact hd
            | vbool b =>
                simp only [serializeItems] at hd ⊢
                cases hre : serializeItems g h rest with
                | none => rw [hre] at hd; simp at hd
                | some out2 =>
                    rw [hre] at hd
                    rw [ih4 rest out2 hra.2 hre]
                    exact hd
            | vint n =>
                simp only [serializeItems] at hd ⊢
                cases hre : serializeItems g h rest with
                | none => rw [hre] at hd; simp at hd
                | some out2 =>
                    rw [hre] at hd
                    rw [ih4 rest out2 hra.2 hre]
                    exact hd
            | vstr s =>
                simp only [serializeItems] at hd ⊢
                cases hre : serializeItems g h rest with
                | none => rw [hre] at hd; simp at hd
                | some out2 =>
                    rw [hre] at hd
                    rw [ih4 rest out2 hra.2 hre]
                    exact hd
            | vfloat n =>
                simp only [serializeItems] at hd ⊢
                cases hre : serializeItems g h rest with
                | none => rw [hre] at hd; simp at hd
                | some out2 =>
                    rw [hre] at hd
                    rw [ih4 rest out2 hra.2 hre]
                    exact hd
            | vdate d =>
                simp only [serializeItems] at hd ⊢
                cases hre : serializeItems g h rest with
                | none => rw [hre] at hd; simp at hd
                | some out2 =>
                    rw [hre] at hd
                    rw [ih4 rest out2 hra.2 hre]
                    exact hd
            | vobjid t =>
                simp only [serializeItems] at hd ⊢
                cases hre : serializeItems g h rest with
                | none => rw [hre] at hd; simp at hd
                | some out2 =>
                    rw [hre] at hd
                    rw [ih4 rest out2 hra.2 hre]
                    exact hd
            | vbytes x =>
                simp only [serializeItems] at hd ⊢
                cases hre : serializeItems g h rest with
                | none => rw [hre] at hd; simp at hd
                | some out2 =>
                    rw [hre] at hd
                    rw [ih4 rest out2 hra.2 hre]
                    exact hd
            | vdec n =>
                simp only [serializeItems] at hd ⊢
                cases hre : serializeItems g h rest with
                | none => rw [hre] at hd; simp at hd
                | some out2 =>
                    rw [hre] at hd
                    rw [ih4 rest out2 hra.2 hre]
                    exact hd
            | vlist ys =>
                simp only [serializeItems] at hd ⊢
                cases hre : serializeItems g h rest with
                | none => rw [hre] at hd; simp at hd
                | some out2 =>
                    rw [hre] at hd
                    rw [ih4 rest out2 hra.2 hre]
                    exact hd
            | vdict kvs =>
                simp only [serializeItems] at hd ⊢
                cases hre : serializeItems g h rest with
                | none => rw [hre] at hd; simp at hd
                | some out2 =>
                    rw [hre] at hd
                    rw [ih4 rest out2 hra.2 hre]
                    exact hd

theorem mark_dirty_mono : ∀ (f : Nat) (h : Heap) (id : Nat) (h2 : Heap),
    mark_dirty f h id = some h2 → mark_dirty (f+1) h id = some h2 := by
  intro f
  induction f with
  | zero => intro h id h2 hd; simp [mark_dirty] at hd
  | succ f ih =>
      intro h id h2 hd
      rw [mark_dirty] at hd
      rw [mark_dirty]
      cases hn : nodeOf h id with
      | none => rw [hn] at hd; exact hd
      | some st =>
          rw [hn] at hd
          have hd3 : (match st.parent, st.parentKey with
              | some p, some k =>
                  (match nodeOf h p with
                   | some pst =>
                       (match alGet pst.data k with
                        | some sv =>
                            if isinst h sv .pcList then some h
                            else mark_dirty f
                              (writeField h p k (.vref id)) p
                        | none => mark_dirty f
                            (writeField h p k (.vref id)) p)
                   | none => some h)
              | _, _ => some h) = some h2 := hd
          show (match st.parent, st.parentKey with
              | some p, some k =>
                  (match nodeOf h p with
                   | some pst =>
                       (match alGet pst.data k with
                        | some sv =>
                            if isinst h sv .pcList then some h
                            else mark_dirty (f+1)
                              (writeField h p k (.vref id)) p
                        | none => mark_dirty (f+1)
                            (writeField h p k (.vref id)) p)
                   | none => some h)
              | _, _ => some h) = some h2
          cases hp : st.parent with
          | none => rw [hp] at hd3; exact hd3
          | some p =>
              rw [hp] at hd3
              cases hk : st.parentKey with
              | none => rw [hk] at hd3; exact hd3
              | some k =>
                  rw [hk] at hd3
                  have hdN : (match nodeOf h p with
                      | some pst =>
                          (match alGet pst.data k with
                           | some sv =>
                               if isinst h sv .pcList then some h
                               else mark_dirty f
                                 (writeField h p k (.vref id)) p
                           | none => mark_dirty f
                               (writeField h p k (.vref id)) p)
                      | none => some h) = some h2 := hd3
                  show (match nodeOf h p with
                      | some pst =>
                          (match alGet pst.data k with
                           | some sv =>
                               if isinst h sv .pcList then some h
                               else mark_dirty (f+1)
                                 (writeField h p k (.vref id)) p
                           | none => mark_dirty (f+1)
                               (writeField h p k (.vref id)) p)
                      | none => some h) = some h2
                  cases hpp : nodeOf h p with
                  | none => rw [hpp] at hdN; exact hdN
                  | some pst =>
                      rw [hpp] at hdN
                      have hd4 : (match alGet pst.data k with
                          | some sv =>
                              if isinst h sv .pcList then some h
                              else mark_dirty f
                                (writeField h p k (.vref id)) p
                          | none => mark_dirty f
                              (writeField h p k (.vref id)) p) =
                          some h2 := hdN
                      show (match alGet pst.data k with
                          | some sv =>
                              if isinst h sv .pcList then some h
                              else mark_dirty (f+1)
                                (writeField h p k (.vref id)) p
                          | none => mark_dirty (f+1)
                              (writeField h p k (.vref id)) p) = some h2
                      cases hg : alGet pst.data k with
                      | none => rw [hg] at hd4; exact ih _ _ _ hd4
                      | some sv =>
                          rw [hg] at hd4
                          have hd5 : (if isinst h sv .pcList then some h
                              else mark_dirty f
                                (writeField h p k (.vref id)) p) =
                              some h2 := hd4
                          show (if isinst h sv .pcList then some h
                              else mark_dirty (f+1)
                                (writeField h p k (.vref id)) p) =
                              some h2
                          by_cases hl : isinst h sv .pcList = true
                          · rw [if_pos hl] at hd5
                            rw [if_pos hl]
                            exact hd5
                          · rw [if_neg hl] at hd5
                            rw [if_neg hl]
                            exact ih _ _ _ hd5

theorem cluster_mono_items_plain (env : Env) (f : Nat)
    (ih2 : ∀ h ic items r, deserialize_items env f h ic items = some r →
      deserialize_items env (f+1) h ic items = some r)
    (v : HVal) (h : Heap) (ic : String) (rest : List HVal)
    (r : Heap × Except PyErr (List HVal))
    (hd : steBind (deserialize_items env f h ic rest)
      (fun hB vs => some (hB, Except.ok (v :: vs))) = some r) :
    steBind (deserialize_items env (f+1) h ic rest)
      (fun hB vs => some (hB, Except.ok (v :: vs))) = some r := by
  cases hre : deserialize_items env f h ic rest with
  | none => rw [hre] at hd; simp [steBind] at hd
  | some q =>
      rw [hre] at hd
      rw [ih2 h ic rest q hre]
      exact hd

theorem cluster_mono (env : Env) : ∀ f : Nat,
    (∀ h cls name v r, deserialize_field env f h cls name v = some r →
      deserialize_field env (f+1) h cls name v = some r) ∧
    (∀ h ic items r, deserialize_items env f h ic items = some r →
      deserialize_items env (f+1) h ic items = some r) ∧
    (∀ h cls kwargs r, model_init env f h cls kwargs = some r →
      model_init env (f+1) h cls kwargs = some r) ∧
    (∀ h id kwargs r, setattr_kwargs env f h id kwargs = some r →
      setattr_kwargs env (f+1) h id kwargs = some r) ∧
    (∀ h id name v r, setattrM env f h id name v = some r →
      setattrM env (f+1) h id name v = some r) := by
  intro f
  induction f with
  | zero =>
      refine ⟨?_, ?_, ?_, ?_, ?_⟩
      · intro h cls name v r hd; simp [deserialize_field] at hd
      · intro h ic items r hd; simp [deserialize_items] at hd
      · intro h cls kwargs r hd; simp [model_init] at hd
      · intro h id kwargs r hd; simp [setattr_kwargs] at hd
      · intro h id name v r hd; simp [setattrM] at hd
  | succ f ih =>
      obtain ⟨ih1, ih2, ih3, ih4, ih5⟩ := ih
      refine ⟨?_, ?_, ?_, ?_, ?_⟩
      · intro h cls name v r hd
        simp only [deserialize_field] at hd ⊢
        cases hact : deseAction env h cls name v with
        | keep => rw [hact] at hd; exact hd
        | convObj c kvs =>
            rw [hact] at hd
            have hd2 : steBind (model_init env f h c kvs)
                (fun h1 nid => some (h1, Except.ok (HVal.vref nid))) =
                some r := hd
            show steBind (model_init env (f+1) h c kvs)
                (fun h1 nid => some (h1, Except.ok (HVal.vref nid))) =
                some r
            cases hmi : model_init env f h c kvs with
            | none => rw [hmi] at hd2; simp [steBind] at hd2
            | some p =>
                rw [hmi] at hd2
                rw [ih3 h c kvs p hmi]
                exact hd2
        | convArr ic items =>
            rw [hact] at hd
            have hd2 : steBind (deserialize_items env f h ic items)
                (fun h1 vs => some (h1, Except.ok (HVal.vlist vs))) =
                some r := hd
            show steBind (deserialize_items env (f+1) h ic items)
                (fun h1 vs => some (h1, Except.ok (HVal.vlist vs))) =
                some r
            cases hdi : deserialize_items env f h ic items with
            | none => rw [hdi] at hd2; simp [steBind] at hd2
            | some p =>
                rw [hdi] at hd2
                rw [ih2 h ic items p hdi]
                exact hd2
      · intro h ic items r hd
        cases items with
        | nil => exact hd
        | cons v rest =>
            simp only [deserialize_items] at hd ⊢
            cases v with
            | vdict kvs =>
                have hd2 : steBind (steBind (model_init env f h ic kvs)
                    (fun h0 nid => some (h0, Except.ok (HVal.vref nid))))
                    (fun hA v2 =>
                      steBind (deserialize_items env f hA ic rest)
                        (fun hB vs => some (hB, Except.ok (v2 :: vs)))) =
                    some r := hd
                show steBind (steBind (model_init env (f+1) h ic kvs)
                    (fun h0 nid => some (h0, Except.ok (HVal.vref nid))))
                    (fun hA v2 =>
                      steBind (deserialize_items env (f+1) hA ic rest)
                        (fun hB vs => some (hB, Except.ok (v2 :: vs)))) =
                    some r
                cases hmi : model_init env f h ic kvs with
                | none => rw [hmi] at hd2; simp [steBind] at hd2
                | some p =>
                    rw [hmi] at hd2
                    rw [ih3 h ic kvs p hmi]
                    obtain ⟨h2, r2⟩ := p
                    cases r2 with
                    | error e => exact hd2
                    | ok nid =>
                        have hd3 : steBind
                            (deserialize_items env f h2 ic rest)
                            (fun hB vs => some (hB,
                              Except.ok (HVal.vref nid :: vs))) =
                            some r := hd2
                        show steBind
                            (deserialize_items env (f+1) h2 ic rest)
                            (fun hB vs => some (hB,
                              Except.ok (HVal.vref nid :: vs))) = some r
                        cases hre : deserialize_items env f h2 ic rest
                          with
                        | none => rw [hre] at hd3; simp [steBind] at hd3
                        | some q =>
                            rw [hre] at hd3
                            rw [ih2 h2 ic rest q hre]
                            exact hd3
            | vref j =>
                exact cluster_mono_items_plain env f ih2 (.vref j) h ic
                  rest r hd
            | vnone =>
                exact cluster_mono_items_plain env f ih2 .vnone h ic
                  rest r hd
            | vbool b =>
                exact cluster_mono_items_plain env f ih2 (.vbool b) h ic
                  rest r hd
            | vint n =>
                exact cluster_mono_items_plain env f ih2 (.vint n) h ic
                  rest r hd
            | vstr s =>
                exact cluster_mono_items_plain env f ih2 (.vstr s) h ic
                  rest r hd
            | vfloat n =>
                exact cluster_mono_items_plain env f ih2 (.vfloat n) h ic
                  rest r hd
            | vdate d =>
                exact cluster_mono_items_plain env f ih2 (.vdate d) h ic
                  rest r hd
            | vobjid t =>
                exact cluster_mono_items_plain env f ih2 (.vobjid t) h ic
                  rest r hd
            | vbytes x =>
                exact cluster_mono_items_plain env f ih2 (.vbytes x) h ic
                  rest r hd
            | vdec n =>
                exact cluster_mono_items_plain env f ih2 (.vdec n) h ic
                  rest r hd
            | vlist ys =>
                exact cluster_mono_items_plain env f ih2 (.vlist ys) h ic
                  rest r hd
      · intro h cls kwargs r hd
        simp only [model_init] at hd ⊢
        have hd2 : steBind (setattr_kwargs env f
            (h ++ [HObj.node ⟨cls, [], none, none⟩]) h.length kwargs)
            (fun h2 _ => some (h2, Except.ok h.length)) = some r := hd
        show steBind (setattr_kwargs env (f+1)
            (h ++ [HObj.node ⟨cls, [], none, none⟩]) h.length kwargs)
            (fun h2 _ => some (h2, Except.ok h.length)) = some r
        cases hsk : setattr_kwargs env f
            (h ++ [HObj.node ⟨cls, [], none, none⟩]) h.length kwargs with
        | none => rw [hsk] at hd2; simp [steBind] at hd2
        | some p =>
            rw [hsk] at hd2
            rw [ih4 _ _ _ p hsk]
            exact hd2
      · intro h id kwargs r hd
        cases kwargs with
        | nil => exact hd
        | cons kv rest =>
            obtain ⟨k, v⟩ := kv
            simp only [setattr_kwargs] at hd ⊢
            have hd2 : steBind (setattrM env f h id k v)
                (fun h1 _ => setattr_kwargs env f h1 id rest) =
                some r := hd
            show steBind (setattrM env (f+1) h id k v)
                (fun h1 _ => setattr_kwargs env (f+1) h1 id rest) = some r
            cases hsa : setattrM env f h id k v with
            | none => rw [hsa] at hd2; simp [steBind] at hd2
            | some p =>
                rw [hsa] at hd2
                rw [ih5 h id k v p hsa]
                obtain ⟨h1, r1⟩ := p
                cases r1 with
                | error e => exact hd2
                | ok u =>
                    have hd3 : setattr_kwargs env f h1 id rest = some r :=
                      hd2
                    show setattr_kwargs env (f+1) h1 id rest = some r
                    exact ih4 h1 id rest r hd3
      · intro h id name v r hd
        simp only [setattrM] at hd ⊢
        cases hres : reservedName name with
        | true => rw [hres] at hd; exact hd
        | false =>
            rw [hres] at hd
            simp only [Bool.false_eq_true, if_false] at hd ⊢
            cases hn : nodeOf h id with
            | none =>
                rw [hn] at hd
                have hd2 : steBind (deserialize_field env f h "" name v)
                    (fun h1 dv =>
                      match validate_field_type env h1 "" name dv with
                      | .error e => some (h1, .error e)
                      | .ok _ =>
                          match mark_dirty f (writeField
                              (stampParent h1 dv id name) id name dv)
                              id with
                          | some h4 => some (h4, .ok ())
                          | none => none) = some r := hd
                show steBind (deserialize_field env (f+1) h "" name v)
                    (fun h1 dv =>
                      match validate_field_type env h1 "" name dv with
                      | .error e => some (h1, .error e)
                      | .ok _ =>
                          match mark_dirty (f+1) (writeField
                              (stampParent h1 dv id name) id name dv)
                              id with
                          | some h4 => some (h4, .ok ())
                          | none => none) = some r
                cases hde : deserialize_field env f h "" name v with
                | none => rw [hde] at hd2; simp [steBind] at hd2
                | some p =>
                    rw [hde] at hd2
                    rw [ih1 h "" name v p hde]
                    obtain ⟨h1, r1⟩ := p
                    cases r1 with
                    | error e => exact hd2
                    | ok dv =>
                        have hd3 : (match validate_field_type env h1 ""
                            name dv with
                          | .error e => some (h1, .error e)
                          | .ok _ =>
                              match mark_dirty f (writeField
                                  (stampParent h1 dv id name) id name dv)
                                  id with
                              | some h4 => some (h4, .ok ())
                              | none => none) = some r := hd2
                        show (match validate_field_type env h1 "" name
                            dv with
                          | .error e => some (h1, .error e)
                          | .ok _ =>
                              match mark_dirty (f+1) (writeField
                                  (stampParent h1 dv id name) id name dv)
                                  id with
                              | some h4 => some (h4, .ok ())
                              | none => none) = some r
                        cases hval : validate_field_type env h1 "" name
                            dv with
                        | error e => rw [hval] at hd3; exact hd3
                        | ok u =>
                            rw [hval] at hd3
                            cases hmd : mark_dirty f (writeField
                                (stampParent h1 dv id name) id name dv)
                                id with
                            | none => rw [hmd] at hd3; simp at hd3
                            | some h4 =>
                                rw [hmd] at hd3
                                rw [mark_dirty_mono f _ id h4 hmd]
                                exact hd3
            | some st =>
                rw [hn] at hd
                have hd2 : steBind (deserialize_field env f h st.cls name
                    v) (fun h1 dv =>
                      match validate_field_type env h1 st.cls name dv with
                      | .error e => some (h1, .error e)
                      | .ok _ =>
                          match mark_dirty f (writeField
                              (stampParent h1 dv id name) id name dv)
                              id with
                          | some h4 => some (h4, .ok ())
                          | none => none) = some r := hd
                show steBind (deserialize_field env (f+1) h st.cls name v)
                    (fun h1 dv =>
                      match validate_field_type env h1 st.cls name dv with
                      | .error e => some (h1, .error e)
                      | .ok _ =>
                          match mark_dirty (f+1) (writeField
                              (stampParent h1 dv id name) id name dv)
                              id with
                          | some h4 => some (h4, .ok ())
                          | none => none) = some r
                cases hde : deserialize_field env f h st.cls name v with
                | none => rw [hde] at hd2; simp [steBind] at hd2
                | some p =>
                    rw [hde] at hd2
                    rw [ih1 h st.cls name v p hde]
                    obtain ⟨h1, r1⟩ := p
                    cases r1 with
                    | error e => exact hd2
                    | ok dv =>
                        have hd3 : (match validate_field_type env h1
                            st.cls name dv with
                          | .error e => some (h1, .error e)
                          | .ok _ =>
                              match mark_dirty f (writeField
                                  (stampParent h1 dv id name) id name dv)
                                  id with
                              | some h4 => some (h4, .ok ())
                              | none => none) = some r := hd2
                        show (match validate_field_type env h1 st.cls
                            name dv with
                          | .error e => some (h1, .error e)
                          | .ok _ =>
                              match mark_dirty (f+1) (writeField
                                  (stampParent h1 dv id name) id name dv)
                                  id with
                              | some h4 => some (h4, .ok ())
                              | none => none) = some r
                        cases hval : validate_field_type env h1 st.cls
                            name dv with
                        | error e => rw [hval] at hd3; exact hd3
                        | ok u =>
                            rw [hval] at hd3
                            cases hmd : mark_dirty f (writeField
                                (stampParent h1 dv id name) id name dv)
                                id with
                            | none => rw [hmd] at hd3; simp at hd3
                            | some h4 =>
                                rw [hmd] at hd3
                                rw [mark_dirty_mono f _ id h4 hmd]
                                exact hd3

theorem to_dict_mono_le (f g : Nat) (h : Heap) (i : Nat)
    (d : List (String × HVal)) (hle : f ≤ g)
    (hd : to_dict f h i = some d) : to_dict g h i = some d := by
  induction g with
  | zero => obtain rfl := Nat.le_zero.mp hle; exact hd
  | succ g ihg =>
      rcases Nat.lt_or_ge f (g+1) with hlt | hge
      · exact (serialize_mono g).1 h i d (ihg (by omega))
      · have : f = g + 1 := by omega
        subst this
        exact hd

theorem serializeEntries_mono_le (f g : Nat) (h : Heap)
    (l out : List (String × HVal)) (hle : f ≤ g)
    (hd : serializeEntries f h l = some out) :
    serializeEntries g h l = some out := by
  induction g with
  | zero => obtain rfl := Nat.le_zero.mp hle; exact hd
  | succ g ihg =>
      rcases Nat.lt_or_ge f (g+1) with hlt | hge
      · exact (serialize_mono g).2.1 h l out (ihg (by omega))
      · have : f = g + 1 := by omega
        subst this
        exact hd

theorem serializeItems_mono_le (f g : Nat) (h : Heap)
    (xs out : List HVal) (hle : f ≤ g)
    (hd : serializeItems f h xs = some out) :
    serializeItems g h xs = some out := by
  induction g with
  | zero => obtain rfl := Nat.le_zero.mp hle; exact hd
  | succ g ihg =>
      rcases Nat.lt_or_ge f (g+1) with hlt | hge
      · exact (serialize_mono g).2.2.2 h xs out (ihg (by omega))
      · have : f = g + 1 := by omega
        subst this
        exact hd

theorem model_init_mono_le (env : Env) (f g : Nat) (h : Heap)
    (cls : String) (kwargs : List (String × HVal))
    (r : Heap × Except PyErr Nat) (hle : f ≤ g)
    (hd : model_init env f h cls kwargs = some r) :
    model_init env g h cls kwargs = some r := by
  induction g with
  | zero => obtain rfl := Nat.le_zero.mp hle; exact hd
  | succ g ihg =>
      rcases Nat.lt_or_ge f (g+1) with hlt | hge
      · exact (cluster_mono env g).2.2.1 h cls kwargs r (ihg (by omega))
      · have : f = g + 1 := by omega
        subst this
        exact hd

theorem setattr_kwargs_mono_le (env : Env) (f g : Nat) (h : Heap)
    (id : Nat) (kwargs : List (String × HVal))
    (r : Heap × Except PyErr Unit) (hle : f ≤ g)
    (hd : setattr_kwargs env f h id kwargs = some r) :
    setattr_kwargs env g h id kwargs = some r := by
  induction g with
  | zero => obtain rfl := Nat.le_zero.mp hle; exact hd
  | succ g ihg =>
      rcases Nat.lt_or_ge f (g+1) with hlt | hge
      · exact (cluster_mono env g).2.2.2.1 h id kwargs r (ihg (by omega))
      · have : f = g + 1 := by omega
        subst this
        exact hd

theorem setattrM_mono_le (env : Env) (f g : Nat) (h : Heap) (id : Nat)
    (name : String) (v : HVal) (r : Heap × Except PyErr Unit)
    (hle : f ≤ g) (hd : setattrM env f h id name v = some r) :
    setattrM env g h id name v = some r := by
  induction g with
  | zero => obtain rfl := Nat.le_zero.mp hle; exact hd
  | succ g ihg =>
      rcases Nat.lt_or_ge f (g+1) with hlt | hge
      · exact (cluster_mono env g).2.2.2.2 h id name v r (ihg (by omega))
      · have : f = g + 1 := by omega
        subst this
        exact hd

theorem deserialize_items_mono_le (env : Env) (f g : Nat) (h : Heap)
    (ic : String) (items : List HVal)
    (r : Heap × Except PyErr (List HVal)) (hle : f ≤ g)
    (hd : deserialize_items env f h ic items = some r) :
    deserialize_items env g h ic items = some r := by
  induction g with
  | zero => obtain rfl := Nat.le_zero.mp hle; exact hd
  | succ g ihg =>
      rcases Nat.lt_or_ge f (g+1) with hlt | hge
      · exact (cluster_mono env g).2.1 h ic items r (ihg (by omega))
      · have : f = g + 1 := by omega
        subst this
        exact hd

theorem refsIn_mono_N_n : ∀ n v (L N N2 : Nat), sizeOf v ≤ n → N ≤ N2 →
    refsIn L N v = true → refsIn L N2 v = true := by
  intro n
  induction n with
  | zero => intro v L N N2 hs; exfalso; cases v <;> simp at hs
  | succ n ih =>
      intro v L N N2 hs hNN hri
      cases v with
      | vref j =>
          simp [refsIn] at hri ⊢
          omega
      | vlist xs =>
          have hxs : refsInList L N xs = true := hri
          show refsInList L N2 xs = true
          clear hri
          induction xs with
          | nil => rfl
          | cons x rest ihl =>
              rw [refsInList, Bool.and_eq_true] at hxs
              rw [refsInList, Bool.and_eq_true]
              have h1 := List.sizeOf_lt_of_mem
                (List.mem_cons_self x rest)
              have h2 : sizeOf (HVal.vlist (x :: rest)) =
                  1 + sizeOf (x :: rest) := by simp
              refine ⟨ih x L N N2 (by omega) hNN hxs.1, ?_⟩
              have h3 : sizeOf (HVal.vlist rest) <
                  sizeOf (HVal.vlist (x :: rest)) := by simp
              exact ihl (by omega) hxs.2
      | vdict kvs =>
          have hks : refsInEntries L N kvs = true := hri
          show refsInEntries L N2 kvs = true
          clear hri
          induction kvs with
          | nil => rfl
          | cons kv rest ihl =>
              obtain ⟨k, v2⟩ := kv
              rw [refsInEntries, Bool.and_eq_true] at hks
              rw [refsInEntries, Bool.and_eq_true]
              have h1 := List.sizeOf_lt_of_mem
                (List.mem_cons_self (k, v2) rest)
              have h2 : sizeOf (HVal.vdict ((k, v2) :: rest)) =
                  1 + sizeOf ((k, v2) :: rest) := by simp
              have h3 : sizeOf ((k, v2) : String × HVal) =
                  1 + sizeOf k + sizeOf v2 := by simp
              refine ⟨ih v2 L N N2 (by omega) hNN hks.1, ?_⟩
              have h4 : sizeOf (HVal.vdict rest) <
                  sizeOf (HVal.vdict ((k, v2) :: rest)) := by simp
              exact ihl (by omega) hks.2
      | vnone => rfl
      | vbool b => rfl
      | vint n0 => rfl
      | vstr s0 => rfl
      | vfloat n0 => rfl
      | vdate d0 => rfl
      | vobjid t0 => rfl
      | vbytes x0 => rfl
      | vdec n0 => rfl

theorem refsIn_mono_N (v : HVal) (L N N2 : Nat) (hNN : N ≤ N2)
    (hri : refsIn L N v = true) : refsIn L N2 v = true :=
  refsIn_mono_N_n (sizeOf v) v L N N2 (Nat.le_refl _) hNN hri

theorem refsInEntries_mono_N (l : List (String × HVal)) (L N N2 : Nat)
    (hNN : N ≤ N2) (hl : refsInEntries L N l = true) :
    refsInEntries L N2 l = true := by
  induction l with
  | nil => rfl
  | cons kv rest ih =>
      obtain ⟨k, v⟩ := kv
      rw [refsInEntries, Bool.and_eq_true] at hl ⊢
      exact ⟨refsIn_mono_N v L N N2 hNN hl.1, ih hl.2⟩

theorem serEntriesE_nil (h : Heap) : serEntriesE h [] [] := ⟨1, rfl⟩

theorem serEntriesE_cons (h : Heap) (k : String) (v sv : HVal)
    (l out : List (String × HVal)) (hv : serValE h v sv)
    (hl : serEntriesE h l out) :
    serEntriesE h ((k, v) :: l) ((k, sv) :: out) := by
  obtain ⟨g1, hv1⟩ := hv
  obtain ⟨g2, hl2⟩ := hl
  refine ⟨max g1 g2 + 1, ?_⟩
  rw [serializeEntries,
    serializeVal_mono_le g1 (max g1 g2) h v sv (Nat.le_max_left _ _) hv1,
    serializeEntries_mono_le g2 (max g1 g2) h l out
      (Nat.le_max_right _ _) hl2]

theorem serEntriesE_append (h : Heap) :
    ∀ (l1 out1 l2 out2 : List (String × HVal)),
    serEntriesE h l1 out1 → serEntriesE h l2 out2 →
    serEntriesE h (l1 ++ l2) (out1 ++ out2) := by
  intro l1
  induction l1 with
  | nil =>
      intro out1 l2 out2 h1 h2
      obtain ⟨g1, hg1⟩ := h1
      cases g1 with
      | zero => simp [serializeEntries] at hg1
      | succ g1 =>
          cases hg1
          simpa using h2
  | cons kv rest ih =>
      intro out1 l2 out2 h1 h2
      obtain ⟨k, v⟩ := kv
      obtain ⟨g1, hg1⟩ := h1
      cases g1 with
      | zero => simp [serializeEntries] at hg1
      | succ g1 =>
          rw [serializeEntries] at hg1
          cases hsv : serializeVal g1 h v with
          | none => rw [hsv] at hg1; simp at hg1
          | some sv =>
              rw [hsv] at hg1
              cases hre : serializeEntries g1 h rest with
              | none => rw [hre] at hg1; simp at hg1
              | some o2 =>
                  rw [hre] at hg1
                  simp at hg1
                  obtain rfl := hg1.symm
                  have := ih o2 l2 out2 ⟨g1, hre⟩ h2
                  have hc := serEntriesE_cons h k v sv (rest ++ l2)
                    (o2 ++ out2) ⟨g1, hsv⟩ this
                  simpa using hc

theorem toDictE_intro (h : Heap) (i : Nat) (st : NodeState)
    (d : List (String × HVal)) (hn : nodeOf h i = some st)
    (hs : serEntriesE h st.data d) : toDictE h i d := by
  obtain ⟨g, hg⟩ := hs
  refine ⟨g + 1, ?_⟩
  rw [to_dict, hn]
  exact hg

theorem serValE_ref_node (h : Heap) (j : Nat) (st : NodeState)
    (d : List (String × HVal)) (hg : h.get j = some (.node st))
    (hd : toDictE h j d) : serValE h (.vref j) (.vdict d) := by
  obtain ⟨g, hgd⟩ := hd
  refine ⟨g + 1, ?_⟩
  rw [serializeVal, hg, hgd]

theorem serValE_list (h : Heap) (xs ys : List HVal)
    (hi : serItemsE h xs ys) : serValE h (.vlist xs) (.vlist ys) := by
  obtain ⟨g, hg⟩ := hi
  refine ⟨g + 1, ?_⟩
  rw [serializeVal, hg]

theorem serItemsE_nil (h : Heap) : serItemsE h [] [] := ⟨1, rfl⟩

theorem serItemsE_cons_ref (h : Heap) (j : Nat) (st : NodeState)
    (d : List (String × HVal)) (rest out : List HVal)
    (hg : h.get j = some (.node st)) (hd : toDictE h j d)
    (hr : serItemsE h rest out) :
    serItemsE h (.vref j :: rest) (.vdict d :: out) := by
  obtain ⟨g1, h1⟩ := hd
  obtain ⟨g2, h2⟩ := hr
  refine ⟨max g1 g2 + 1, ?_⟩
  rw [serializeItems, hg,
    to_dict_mono_le g1 (max g1 g2) h j d (Nat.le_max_left _ _) h1,
    serializeItems_mono_le g2 (max g1 g2) h rest out
      (Nat.le_max_right _ _) h2]

theorem heapAbove_vacuous (L : Nat) (h : Heap) (hLen : h.length ≤ L) :
    heapAbove L h := by
  intro m hm
  have : h.get m = none := by
    unfold Heap.get
    exact List.get?_eq_none.mpr (by omega)
  rw [this]
  trivial

theorem heapAbove_append_node (L : Nat) (h : Heap) (st0 : NodeState)
    (hab : heapAbove L h)
    (hda : refsInEntries L (h.length + 1) st0.data = true) :
    heapAbove L (h ++ [HObj.node st0]) := by
  intro m hm
  have hlen : (h ++ [HObj.node st0]).length = h.length + 1 := by simp
  rcases Nat.lt_trichotomy m h.length with hlt | heq | hgt
  · rw [heap_get_append_old h _ m hlt]
    have := hab m hm
    cases hg : h.get m with
    | none => trivial
    | some o =>
        rw [hg] at this
        cases o with
        | node st =>
            show refsInEntries L (h ++ [HObj.node st0]).length st.data =
              true
            rw [hlen]
            exact refsInEntries_mono_N st.data L h.length _
              (by omega) this
        | wrap ws => exact this
  · subst heq
    rw [heap_get_append_new h _]
    show refsInEntries L (h ++ [HObj.node st0]).length st0.data = true
    rw [hlen]
    exact hda
  · have : (h ++ [HObj.node st0]).get m = none := by
      unfold Heap.get
      exact List.get?_eq_none.mpr (by simp; omega)
    rw [this]
    trivial

theorem heapAbove_setObj_node (L : Nat) (h : Heap) (m : Nat)
    (st2 : NodeState) (hab : heapAbove L h)
    (hda : L ≤ m → refsInEntries L h.length st2.data = true) :
    heapAbove L (h.setObj m (.node st2)) := by
  intro k hk
  have hlen := heap_length_set h m (.node st2)
  by_cases hkm : m = k
  · subst hkm
    by_cases hlt : m < h.length
    · rw [heap_get_set_self h m _ hlt]
      show refsInEntries L (h.setObj m (.node st2)).length st2.data = true
      rw [hlen]
      exact hda hk
    · have : (h.setObj m (.node st2)).get m = none := by
        unfold Heap.get Heap.setObj
        exact List.get?_eq_none.mpr (by simp; omega)
      rw [this]
      trivial
  · rw [heap_get_set_ne h m k _ hkm]
    have := hab k hk
    cases hg : h.get k with
    | none => trivial
    | some o =>
        rw [hg] at this
        cases o with
        | node st =>
            show refsInEntries L (h.setObj m (.node st2)).length st.data =
              true
            rw [hlen]
            exact this
        | wrap ws => exact this

theorem refsInEntries_alSet (L N : Nat) (k : String) (v : HVal) :
    ∀ l, refsInEntries L N l = true → refsIn L N v = true →
    refsInEntries L N (alSet l k v) = true := by
  intro l
  induction l with
  | nil =>
      intro _ hvv
      rw [alSet, refsInEntries, Bool.and_eq_true]
      exact ⟨hvv, rfl⟩
  | cons kv rest ih =>
      intro hl hvv
      obtain ⟨k2, v2⟩ := kv
      rw [refsInEntries, Bool.and_eq_true] at hl
      rw [alSet]
      by_cases hk2 : k2 = k
      · rw [if_pos hk2]
        rw [refsInEntries, Bool.and_eq_true]
        exact ⟨hvv, hl.2⟩
      · rw [if_neg hk2]
        rw [show ((k2, v2) :: alSet rest k v : List (String × HVal)) =
          (k2, v2) :: alSet rest k v from rfl, refsInEntries,
          Bool.and_eq_true]
        exact ⟨hl.1, ih hl.2 hvv⟩

theorem heapAbove_writeField (L : Nat) (h : Heap) (id : Nat)
    (k : String) (v : HVal) (hab : heapAbove L h)
    (hv : L ≤ id → refsIn L h.length v = true) :
    heapAbove L (writeField h id k v) := by
  unfold writeField
  cases hn : nodeOf h id with
  | none => exact hab
  | some st =>
      refine heapAbove_setObj_node L h id _ hab ?_
      intro hLid
      have hst : refsInEntries L h.length st.data = true := by
        have := hab id hLid
        rw [nodeOf_get h id st hn] at this
        exact this
      exact refsInEntries_alSet L h.length k v st.data hst (hv hLid)

theorem heapAbove_stampOne (L : Nat) (h : Heap) (j id : Nat)
    (name : String) (hab : heapAbove L h) :
    heapAbove L (stampOne h j id name) := by
  unfold stampOne
  cases hn : nodeOf h j with
  | none => exact hab
  | some st =>
      refine heapAbove_setObj_node L h j _ hab ?_
      intro hLj
      have := hab j hLj
      rw [nodeOf_get h j st hn] at this
      exact this

theorem length_stampOne2 (h : Heap) (j id : Nat) (name : String) :
    (stampOne h j id name).length = h.length := by
  unfold stampOne
  cases hn : nodeOf h j with
  | none => rfl
  | some st => exact heap_length_set h j _

theorem heapAbove_stampList (L : Nat) :
    ∀ (items : List HVal) (h : Heap) (id : Nat) (name : String),
    heapAbove L h → heapAbove L (stampList h items id name) := by
  intro items
  induction items with
  | nil => intro h id name hab; exact hab
  | cons v rest ih =>
      intro h id name hab
      cases v with
      | vref j =>
          show heapAbove L (stampList
            (if (nodeOf h j).isSome = true then stampOne h j id name
             else h) rest id name)
          by_cases hj : (nodeOf h j).isSome = true
          · rw [if_pos hj]
            exact ih _ id name (heapAbove_stampOne L h j id name hab)
          · rw [if_neg hj]
            exact ih h id name hab
      | vnone => exact ih h id name hab
      | vbool b => exact ih h id name hab
      | vint n => exact ih h id name hab
      | vstr s => exact ih h id name hab
      | vfloat n => exact ih h id name hab
      | vdate d => exact ih h id name hab
      | vobjid t => exact ih h id name hab
      | vbytes x => exact ih h id name hab
      | vdec n => exact ih h id name hab
      | vlist ys => exact ih h id name hab
      | vdict kvs => exact ih h id name hab

theorem heapAbove_stampParent (L : Nat) (h : Heap) (v : HVal)
    (id : Nat) (name : String) (hab : heapAbove L h) :
    heapAbove L (stampParent h v id name) := by
  cases v with
  | vref j =>
      show heapAbove L (match h.get j with
        | some (HObj.node _) => stampOne h j id name
        | some (HObj.wrap w) => stampList h w.items id name
        | none => h)
      cases hg : h.get j with
      | none => exact hab
      | some o =>
          cases o with
          | node st => exact heapAbove_stampOne L h j id name hab
          | wrap ws => exact heapAbove_stampList L ws.items h id name hab
  | vlist xs => exact heapAbove_stampList L xs h id name hab
  | vnone => exact hab
  | vbool b => exact hab
  | vint n => exact hab
  | vstr s => exact hab
  | vfloat n => exact hab
  | vdate d => exact hab
  | vobjid t => exact hab
  | vbytes x => exact hab
  | vdec n => exact hab
  | vdict kvs => exact hab

theorem serEqObj_refl (a : Option HObj) : serEqObj a a := Or.inl rfl

theorem serEqObj_trans (a b c : Option HObj) (h1 : serEqObj a b)
    (h2 : serEqObj b c) : serEqObj a c := by
  rcases h1 with h1 | ⟨s1, s2, ha, hb, hc1, hd1⟩
  · rw [h1]; exact h2
  · rcases h2 with h2 | ⟨s3, s4, hb2, hc, hc2, hd2⟩
    · rw [← h2]
      exact Or.inr ⟨s1, s2, ha, hb, hc1, hd1⟩
    · rw [hb] at hb2
      injection hb2 with hx
      injection hx with hy
      subst hy
      exact Or.inr ⟨s1, s4, ha, hc, by rw [hc2, hc1], by rw [hd2, hd1]⟩

theorem agree_of_pres (h h2 : Heap) (L id : Nat) (hid : id < L)
    (hpres : ∀ m, m < h.length → m ≠ id → h2.get m = h.get m) :
    ∀ m, L ≤ m → m < h.length → serEqObj (h.get m) (h2.get m) :=
  fun m hL hlt => Or.inl (hpres m hlt (by omega)).symm

theorem agree_of_pres_all (h h2 : Heap)
    (hpres : ∀ m, m < h.length → h2.get m = h.get m) :
    ∀ m (L : Nat), L ≤ m → m < h.length →
      serEqObj (h.get m) (h2.get m) :=
  fun m _ _ hlt => Or.inl (hpres m hlt).symm

theorem agree_stampOne (h : Heap) (j id : Nat) (name : String) :
    ∀ m, serEqObj (h.get m) ((stampOne h j id name).get m) := by
  intro m
  unfold stampOne
  cases hn : nodeOf h j with
  | none => exact serEqObj_refl _
  | some st =>
      by_cases hm : j = m
      · subst hm
        by_cases hlt : j < h.length
        · rw [heap_get_set_self h j _ hlt]
          exact Or.inr ⟨st, _, nodeOf_get h j st hn, rfl, rfl, rfl⟩
        · exfalso
          exact hlt (heap_get_lt h j _ (nodeOf_get h j st hn))
      · rw [heap_get_set_ne h j m _ hm]
        exact serEqObj_refl _

theorem agree_stampList :
    ∀ (items : List HVal) (h : Heap) (id : Nat) (name : String) m,
    serEqObj (h.get m) ((stampList h items id name).get m) := by
  intro items
  induction items with
  | nil => intro h id name m; exact serEqObj_refl _
  | cons v rest ih =>
      intro h id name m
      have hstep : ∀ h1 : Heap, serEqObj (h.get m) (h1.get m) →
          serEqObj (h.get m) ((stampList h1 rest id name).get m) :=
        fun h1 he => serEqObj_trans _ _ _ he (ih h1 id name m)
      cases v with
      | vref j =>
          show serEqObj (h.get m) ((stampList
            (if (nodeOf h j).isSome = true then stampOne h j id name
             else h) rest id name).get m)
          by_cases hj : (nodeOf h j).isSome = true
          · rw [if_pos hj]
            exact hstep _ (agree_stampOne h j id name m)
          · rw [if_neg hj]
            exact hstep h (serEqObj_refl _)
      | vnone => exact hstep h (serEqObj_refl _)
      | vbool b => exact hstep h (serEqObj_refl _)
      | vint n => exact hstep h (serEqObj_refl _)
      | vstr s => exact hstep h (serEqObj_refl _)
      | vfloat n => exact hstep h (serEqObj_refl _)
      | vdate d => exact hstep h (serEqObj_refl _)
      | vobjid t => exact hstep h (serEqObj_refl _)
      | vbytes x => exact hstep h (serEqObj_refl _)
      | vdec n => exact hstep h (serEqObj_refl _)
      | vlist ys => exact hstep h (serEqObj_refl _)
      | vdict kvs => exact hstep h (serEqObj_refl _)

theorem agree_stampParent (h : Heap) (v : HVal) (id : Nat)
    (name : String) :
    ∀ m, serEqObj (h.get m) ((stampParent h v id name).get m) := by
  intro m
  cases v with
  | vref j =>
      show serEqObj (h.get m) ((match h.get j with
        | some (HObj.node _) => stampOne h j id name
        | some (HObj.wrap w) => stampList h w.items id name
        | none => h).get m)
      cases hg : h.get j with
      | none => exact serEqObj_refl _
      | some o =>
          cases o with
          | node st => exact agree_stampOne h j id name m
          | wrap ws => exact agree_stampList ws.items h id name m
  | vlist xs => exact agree_stampList xs h id name m
  | vnone => exact serEqObj_refl _
  | vbool b => exact serEqObj_refl _
  | vint n => exact serEqObj_refl _
  | vstr s => exact serEqObj_refl _
  | vfloat n => exact serEqObj_refl _
  | vdate d => exact serEqObj_refl _
  | vobjid t => exact serEqObj_refl _
  | vbytes x => exact serEqObj_refl _
  | vdec n => exact serEqObj_refl _
  | vdict kvs => exact serEqObj_refl _

theorem frame_toDictE (L : Nat) (h h2 : Heap) (hab : heapAbove L h)
    (agree : ∀ m, L ≤ m → m < h.length →
      serEqObj (h.get m) (h2.get m))
    (j : Nat) (d : List (String × HVal)) (hLj : L ≤ j)
    (hd : toDictE h j d) : toDictE h2 j d := by
  obtain ⟨g, hg⟩ := hd
  exact ⟨g, (serialize_frame L h h2 hab agree g).1 j d hLj hg⟩

theorem frame_serEntriesE (L : Nat) (h h2 : Heap) (hab : heapAbove L h)
    (agree : ∀ m, L ≤ m → m < h.length →
      serEqObj (h.get m) (h2.get m))
    (l out : List (String × HVal))
    (hra : refsInEntries L h.length l = true)
    (hd : serEntriesE h l out) : serEntriesE h2 l out := by
  obtain ⟨g, hg⟩ := hd
  exact ⟨g, (serialize_frame L h h2 hab agree g).2.1 l out hra hg⟩

theorem frame_serValE (L : Nat) (h h2 : Heap) (hab : heapAbove L h)
    (agree : ∀ m, L ≤ m → m < h.length →
      serEqObj (h.get m) (h2.get m))
    (v sv : HVal) (hra : refsIn L h.length v = true)
    (hd : serValE h v sv) : serValE h2 v sv := by
  obtain ⟨g, hg⟩ := hd
  exact ⟨g, (serialize_frame L h h2 hab agree g).2.2.1 v sv hra hg⟩

theorem frame_serItemsE (L : Nat) (h h2 : Heap) (hab : heapAbove L h)
    (agree : ∀ m, L ≤ m → m < h.length →
      serEqObj (h.get m) (h2.get m))
    (xs out : List HVal) (hra : refsInList L h.length xs = true)
    (hd : serItemsE h xs out) : serItemsE h2 xs out := by
  obtain ⟨g, hg⟩ := hd
  exact ⟨g, (serialize_frame L h h2 hab agree g).2.2.2 xs out hra hg⟩

theorem refsIn_anti_L_n : ∀ n v (L L2 N : Nat), sizeOf v ≤ n → L2 ≤ L →
    refsIn L N v = true → refsIn L2 N v = true := by
  intro n
  induction n with
  | zero => intro v L L2 N hs; exfalso; cases v <;> simp at hs
  | succ n ih =>
      intro v L L2 N hs hLL hri
      cases v with
      | vref j =>
          simp [refsIn] at hri ⊢
          omega
      | vlist xs =>
          have hxs : refsInList L N xs = true := hri
          show refsInList L2 N xs = true
          clear hri
          induction xs with
          | nil => rfl
          | cons x rest ihl =>
              rw [refsInList, Bool.and_eq_true] at hxs
              rw [refsInList, Bool.and_eq_true]
              have h1 := List.sizeOf_lt_of_mem
                (List.mem_cons_self x rest)
              have h2 : sizeOf (HVal.vlist (x :: rest)) =
                  1 + sizeOf (x :: rest) := by simp
              refine ⟨ih x L L2 N (by omega) hLL hxs.1, ?_⟩
              have h3 : sizeOf (HVal.vlist rest) <
                  sizeOf (HVal.vlist (x :: rest)) := by simp
              exact ihl (by omega) hxs.2
      | vdict kvs =>
          have hks : refsInEntries L N kvs = true := hri
          show refsInEntries L2 N kvs = true
          clear hri
          induction kvs with
          | nil => rfl
          | cons kv rest ihl =>
              obtain ⟨k, v2⟩ := kv
              rw [refsInEntries, Bool.and_eq_true] at hks
              rw [refsInEntries, Bool.and_eq_true]
              have h1 := List.sizeOf_lt_of_mem
                (List.mem_cons_self (k, v2) rest)
              have h2 : sizeOf (HVal.vdict ((k, v2) :: rest)) =
                  1 + sizeOf ((k, v2) :: rest) := by simp
              have h3 : sizeOf ((k, v2) : String × HVal) =
                  1 + sizeOf k + sizeOf v2 := by simp
              refine ⟨ih v2 L L2 N (by omega) hLL hks.1, ?_⟩
              have h4 : sizeOf (HVal.vdict rest) <
                  sizeOf (HVal.vdict ((k, v2) :: rest)) := by simp
              exact ihl (by omega) hks.2
      | vnone => rfl
      | vbool b => rfl
      | vint n0 => rfl
      | vstr s0 => rfl
      | vfloat n0 => rfl
      | vdate d0 => rfl
      | vobjid t0 => rfl
      | vbytes x0 => rfl
      | vdec n0 => rfl

theorem refsIn_anti_L (v : HVal) (L L2 N : Nat) (hLL : L2 ≤ L)
    (hri : refsIn L N v = true) : refsIn L2 N v = true :=
  refsIn_anti_L_n (sizeOf v) v L L2 N (Nat.le_refl _) hLL hri

theorem refsInEntries_anti_L (l : List (String × HVal)) (L L2 N : Nat)
    (hLL : L2 ≤ L) (hl : refsInEntries L N l = true) :
    refsInEntries L2 N l = true := by
  induction l with
  | nil => rfl
  | cons kv rest ih =>
      obtain ⟨k, v⟩ := kv
      rw [refsInEntries, Bool.and_eq_true] at hl ⊢
      exact ⟨refsIn_anti_L v L L2 N hLL hl.1, ih hl.2⟩

theorem refsInList_anti_L (l : List HVal) (L L2 N : Nat)
    (hLL : L2 ≤ L) (hl : refsInList L N l = true) :
    refsInList L2 N l = true := by
  induction l with
  | nil => rfl
  | cons v rest ih =>
      rw [refsInList, Bool.and_eq_true] at hl ⊢
      exact ⟨refsIn_anti_L v L L2 N hLL hl.1, ih hl.2⟩

theorem refsInList_mono_N (l : List HVal) (L N N2 : Nat)
    (hNN : N ≤ N2) (hl : refsInList L N l = true) :
    refsInList L N2 l = true := by
  induction l with
  | nil => rfl
  | cons v rest ih =>
      rw [refsInList, Bool.and_eq_true] at hl ⊢
      exact ⟨refsIn_mono_N v L N N2 hNN hl.1, ih hl.2⟩

theorem heapAsc_above (L L2 : Nat) (h : Heap) (hasc : heapAsc L h)
    (hLL : L ≤ L2) : heapAbove L2 h := by
  intro m hm
  have := hasc m (by omega)
  cases hg : h.get m with
  | none => trivial
  | some o =>
      rw [hg] at this
      cases o with
      | node st =>
          show refsInEntries L2 h.length st.data = true
          exact refsInEntries_anti_L st.data (m+1) L2 h.length
            (by omega) this
      | wrap ws => exact this

theorem heapAsc_vacuous (L : Nat) (h : Heap) (hLen : h.length ≤ L) :
    heapAsc L h := by
  intro m hm
  have : h.get m = none := by
    unfold Heap.get
    exact List.get?_eq_none.mpr (by omega)
  rw [this]
  trivial

theorem heapAsc_append_node (L : Nat) (h : Heap) (st0 : NodeState)
    (hasc : heapAsc L h)
    (hda : refsInEntries (h.length + 1) (h.length + 1) st0.data = true) :
    heapAsc L (h ++ [HObj.node st0]) := by
  intro m hm
  have hlen : (h ++ [HObj.node st0]).length = h.length + 1 := by simp
  rcases Nat.lt_trichotomy m h.length with hlt | heq | hgt
  · rw [heap_get_append_old h _ m hlt]
    have := hasc m hm
    cases hg : h.get m with
    | none => trivial
    | some o =>
        rw [hg] at this
        cases o with
        | node st =>
            show refsInEntries (m+1) (h ++ [HObj.node st0]).length
              st.data = true
            rw [hlen]
            exact refsInEntries_mono_N st.data (m+1) h.length _
              (by omega) this
        | wrap ws => exact this
  · subst heq
    rw [heap_get_append_new h _]
    show refsInEntries (h.length + 1) (h ++ [HObj.node st0]).length
      st0.data = true
    rw [hlen]
    exact hda
  · have : (h ++ [HObj.node st0]).get m = none := by
      unfold Heap.get
      exact List.get?_eq_none.mpr (by simp; omega)
    rw [this]
    trivial

theorem heapAsc_setObj_node (L : Nat) (h : Heap) (m : Nat)
    (st2 : NodeState) (hasc : heapAsc L h)
    (hda : L ≤ m → refsInEntries (m+1) h.length st2.data = true) :
    heapAsc L (h.setObj m (.node st2)) := by
  intro k hk
  have hlen := heap_length_set h m (.node st2)
  by_cases hkm : m = k
  · subst hkm
    by_cases hlt : m < h.length
    · rw [heap_get_set_self h m _ hlt]
      show refsInEntries (m+1) (h.setObj m (.node st2)).length st2.data =
        true
      rw [hlen]
      exact hda hk
    · have : (h.setObj m (.node st2)).get m = none := by
        unfold Heap.get Heap.setObj
        exact List.get?_eq_none.mpr (by simp; omega)
      rw [this]
      trivial
  · rw [heap_get_set_ne h m k _ hkm]
    have := hasc k hk
    cases hg : h.get k with
    | none => trivial
    | some o =>
        rw [hg] at this
        cases o with
        | node st =>
            show refsInEntries (k+1) (h.setObj m (.node st2)).length
              st.data = true
            rw [hlen]
            exact this
        | wrap ws => exact this

theorem heapAsc_writeField (L : Nat) (h : Heap) (id : Nat)
    (k : String) (v : HVal) (hasc : heapAsc L h)
    (hv : L ≤ id → refsIn (id+1) h.length v = true) :
    heapAsc L (writeField h id k v) := by
  unfold writeField
  cases hn : nodeOf h id with
  | none => exact hasc
  | some st =>
      refine heapAsc_setObj_node L h id _ hasc ?_
      intro hLid
      have hst : refsInEntries (id+1) h.length st.data = true := by
        have := hasc id hLid
        rw [nodeOf_get h id st hn] at this
        exact this
      exact refsInEntries_alSet (id+1) h.length k v st.data hst (hv hLid)

theorem heapAsc_stampOne (L : Nat) (h : Heap) (j id : Nat)
    (name : String) (hasc : heapAsc L h) :
    heapAsc L (stampOne h j id name) := by
  unfold stampOne
  cases hn : nodeOf h j with
  | none => exact hasc
  | some st =>
      refine heapAsc_setObj_node L h j _ hasc ?_
      intro hLj
      have := hasc j hLj
      rw [nodeOf_get h j st hn] at this
      exact this

theorem heapAsc_stampList (L : Nat) :
    ∀ (items : List HVal) (h : Heap) (id : Nat) (name : String),
    heapAsc L h → heapAsc L (stampList h items id name) := by
  intro items
  induction items with
  | nil => intro h id name hasc; exact hasc
  | cons v rest ih =>
      intro h id name hasc
      cases v with
      | vref j =>
          show heapAsc L (stampList
            (if (nodeOf h j).isSome = true then stampOne h j id name
             else h) rest id name)
          by_cases hj : (nodeOf h j).isSome = true
          · rw [if_pos hj]
            exact ih _ id name (heapAsc_stampOne L h j id name hasc)
          · rw [if_neg hj]
            exact ih h id name hasc
      | vnone => exact ih h id name hasc
      | vbool b => exact ih h id name hasc
      | vint n => exact ih h id name hasc
      | vstr s => exact ih h id name hasc
      | vfloat n => exact ih h id name hasc
      | vdate d => exact ih h id name hasc
      | vobjid t => exact ih h id name hasc
      | vbytes x => exact ih h id name hasc
      | vdec n => exact ih h id name hasc
      | vlist ys => exact ih h id name hasc
      | vdict kvs => exact ih h id name hasc

theorem heapAsc_stampParent (L : Nat) (h : Heap) (v : HVal)
    (id : Nat) (name : String) (hasc : heapAsc L h) :
    heapAsc L (stampParent h v id name) := by
  cases v with
  | vref j =>
      show heapAsc L (match h.get j with
        | some (HObj.node _) => stampOne h j id name
        | some (HObj.wrap w) => stampList h w.items id name
        | none => h)
      cases hg : h.get j with
      | none => exact hasc
      | some o =>
          cases o with
          | node st => exact heapAsc_stampOne L h j id name hasc
          | wrap ws => exact heapAsc_stampList L ws.items h id name hasc
  | vlist xs => exact heapAsc_stampList L xs h id name hasc
  | vnone => exact hasc
  | vbool b => exact hasc
  | vint n => exact hasc
  | vstr s => exact hasc
  | vfloat n => exact hasc
  | vdate d => exact hasc
  | vobjid t => exact hasc
  | vbytes x => exact hasc
  | vdec n => exact hasc
  | vdict kvs => exact hasc

theorem alSet_append {α : Type} (l : List (String × α)) (k : String)
    (v : α) (hk : alGet l k = none) : alSet l k v = l ++ [(k, v)] := by
  induction l with
  | nil => rfl
  | cons kv rest ih =>
      obtain ⟨k', v'⟩ := kv
      rw [alGet] at hk
      by_cases hkk : k' = k
      · rw [if_pos hkk] at hk
        exact absurd hk (by simp)
      · rw [if_neg hkk] at hk
        rw [alSet, if_neg hkk, ih hk]
        rfl

theorem strNodup_mid_ne (k : String) :
    ∀ (A R : List String), strNodup (A ++ k :: R) = true →
    ∀ a ∈ A, a ≠ k := by
  intro A
  induction A with
  | nil => intro R _ a ha; exact absurd ha (List.not_mem_nil a)
  | cons a0 A' ih =>
      intro R hnd a ha
      rw [List.cons_append, strNodup, Bool.and_eq_true] at hnd
      rcases List.mem_cons.mp ha with rfl | ha'
      · intro hak
        subst hak
        have : (A' ++ a :: R).contains a = true := by
          rw [List.contains_eq_any_beq]
          simp
        simp [this] at hnd
      · exact ih R hnd.2 a ha'

theorem alGet_none_of_nodup_mid (l : List (String × HVal)) (k : String)
    (R : List String) (hnd : strNodup (alKeys l ++ k :: R) = true) :
    alGet l k = none := by
  cases hg : alGet l k with
  | none => rfl
  | some v =>
      exfalso
      exact strNodup_mid_ne k (alKeys l) R hnd k
        (mem_keys_of_alGet l k v hg) rfl

theorem refsInEntries_append (L N : Nat) :
    ∀ (l1 l2 : List (String × HVal)),
    refsInEntries L N (l1 ++ l2) =
      (refsInEntries L N l1 && refsInEntries L N l2) := by
  intro l1 l2
  induction l1 with
  | nil => simp [refsInEntries]
  | cons kv rest ih =>
      obtain ⟨k, v⟩ := kv
      rw [List.cons_append, refsInEntries, refsInEntries, ih,
        Bool.and_assoc]

theorem refFreeList_of_mem (xs : List HVal)
    (hm : ∀ v ∈ xs, refFree v = true) : refFreeList xs = true := by
  induction xs with
  | nil => rfl
  | cons v rest ih =>
      rw [refFreeList, Bool.and_eq_true]
      exact ⟨hm v (List.mem_cons_self v rest),
        ih (fun w hw => hm w (List.mem_cons_of_mem v hw))⟩

theorem refsInList_mem_ref :
    ∀ (items : List HVal) (L N j : Nat), refsInList L N items = true →
    HVal.vref j ∈ items → L ≤ j ∧ j < N := by
  intro items
  induction items with
  | nil => intro L N j _ hm; exact absurd hm (List.not_mem_nil _)
  | cons v rest ih =>
      intro L N j hri hm
      rw [refsInList, Bool.and_eq_true] at hri
      rcases List.mem_cons.mp hm with rfl | hm'
      · have := hri.1
        rw [refsIn, Bool.and_eq_true, decide_eq_true_eq,
          decide_eq_true_eq] at this
        exact this
      · exact ih L N j hri.2 hm'

theorem deseAction_obj (env : Env) (h : Heap) (cls name : String)
    (c : String) (kvs : List (String × HVal)) (fs : FieldSchema)
    (hfs : alGet (envProps env cls) name = some fs)
    (heff : fs.effType = some (.single "object"))
    (hcf : envClassFor env cls name = some c) :
    deseAction env h cls name (.vdict kvs) = .convObj c kvs := by
  simp [deseAction, hfs, hcf, heff, collapseBT]

theorem deseAction_dict_keep (env : Env) (h : Heap) (cls name : String)
    (kvs : List (String × HVal))
    (hin : deseInert env cls name (.vdict kvs) = true) :
    deseAction env h cls name (.vdict kvs) = .keep := by
  unfold deseAction
  unfold deseInert at hin
  cases hcf : envClassFor env cls name with
  | none =>
      simp only [hcf]
      cases hi : ((alGet (envProps env cls) name).getD emptyFS).items
        with
      | none => rfl
      | some isch =>
          cases hic : envItemCls env cls name with
          | none => rfl
          | some ic => simp [isinst]
  | some c =>
      rw [hcf] at hin
      simp only [Bool.and_eq_true, Bool.not_eq_true',
        beq_eq_false_iff_ne, ne_eq] at hin
      simp only [hcf]
      rw [if_neg hin.1]
      cases hi : ((alGet (envProps env cls) name).getD emptyFS).items
        with
      | none => rfl
      | some isch =>
          cases hic : envItemCls env cls name with
          | none => rfl
          | some ic => simp [isinst]

theorem deseAction_scalar_keep (env : Env) (h : Heap)
    (cls name : String) (v : HVal)
    (hd : ∀ kvs, v ≠ .vdict kvs) (hl : ∀ xs, v ≠ .vlist xs)
    (hr : ∀ j, v ≠ .vref j) :
    deseAction env h cls name v = .keep := by
  unfold deseAction
  cases hcf : envClassFor env cls name <;>
    cases v <;>
      first
      | exact absurd rfl (hd _)
      | exact absurd rfl (hl _)
      | exact absurd rfl (hr _)
      | (cases hi : ((alGet (envProps env cls) name).getD emptyFS).items
          with
         | none => simp [hi]
         | some isch =>
             cases hic : envItemCls env cls name with
             | none => simp [hi, hic]
             | some ic => simp [hi, hic, isinst])

theorem deseAction_arr (env : Env) (h : Heap) (cls name : String)
    (xs : List HVal) (fs isch : FieldSchema) (ic : String)
    (hfs : alGet (envProps env cls) name = some fs)
    (heff : fs.effType = some (.single "array"))
    (hitems : fs.items = some isch)
    (hieff : isch.effType = some (.single "object"))
    (hic : envItemCls env cls name = some ic) :
    deseAction env h cls name (.vlist xs) = .convArr ic xs := by
  unfold deseAction
  cases hcf : envClassFor env cls name <;>
    simp [hfs, hitems, hic, heff, hieff, collapseBT, isinst, iterItems]

theorem deseAction_plainlist_keep (env : Env) (h : Heap)
    (cls name : String) (xs : List HVal) (fs : FieldSchema)
    (hfs : alGet (envProps env cls) name = some fs)
    (hcond : ∀ isch, fs.items = some isch →
      (envItemCls env cls name).isSome = true →
      collapseBT isch.effType ≠ some "object") :
    deseAction env h cls name (.vlist xs) = .keep := by
  unfold deseAction
  cases hcf : envClassFor env cls name <;>
    simp only [hfs, Option.getD_some] <;>
    (cases hi : fs.items with
     | none => rfl
     | some isch =>
         cases hic : envItemCls env cls name with
         | none => rfl
         | some ic =>
             have := hcond isch hi (by rw [hic]; rfl)
             simp [this])

theorem validate_vnone (env : Env) (h : Heap) (cls name : String) :
    validate_field_type env h cls name .vnone = .ok () := by
  by_cases hs : underscoreFirst name
  · simp [validate_field_type, hs, pure, Except.pure]
  · unfold validate_field_type
    simp only [hs, Bool.false_eq_true, if_false, HVal.isNone,
      Bool.not_true, Bool.and_false, Bool.or_true, Bind.bind,
      Except.bind, pure, Except.pure]
    cases he : ((alGet (envProps env cls) name).getD emptyFS).enum <;>
      simp [Bind.bind, Except.bind, pure, Except.pure]

theorem enumCheckList_ok (name : String) (es : List HVal) :
    ∀ xs : List HVal, (∀ it ∈ xs, pyIn it es = true) →
    enumCheckList name es xs = .ok () := by
  intro xs
  induction xs with
  | nil => intro _; rfl
  | cons it rest ih =>
      intro hm
      rw [enumCheckList]
      rw [hm it (List.mem_cons_self it rest)]
      simp only [Bool.not_true, Bool.false_eq_true, if_false]
      exact ih (fun w hw => hm w (List.mem_cons_of_mem it hw))

theorem validateItemsLoop_ok (env : Env) (h : Heap) (name : String)
    (ie : Option (List HVal)) (it0 : Option BsonTypeDecl)
    (ic0 : Option String) :
    ∀ xs : List HVal,
    (∀ it ∈ xs, validateOneItem h name ie it0 ic0 it = .ok ()) →
    validateItemsLoop env h name ie it0 ic0 xs = .ok () := by
  intro xs
  induction xs with
  | nil => intro _; rfl
  | cons it rest ih =>
      intro hm
      rw [validateItemsLoop]
      rw [hm it (List.mem_cons_self it rest)]
      simp only [Bind.bind, Except.bind, pure, Except.pure]
      exact ih (fun w hw => hm w (List.mem_cons_of_mem it hw))

theorem validateOneItem_skip (h : Heap) (name : String)
    (ie : Option (List HVal)) (it0 : Option BsonTypeDecl) (ic : String)
    (j : Nat) (st : NodeState) (hn : nodeOf h j = some st)
    (hcls : st.cls = ic) :
    validateOneItem h name ie it0 (some ic) (.vref j) = .ok () := by
  have hg := nodeOf_get h j st hn
  simp [validateOneItem, isModelInst, isInstOfCls, hg, hn, hcls,
    Bind.bind, Except.bind, pure, Except.pure]

theorem wfPlainItems_heap_indep (env : Env) (h : Heap)
    (cls name : String) (fs : FieldSchema) (xs : List HVal) :
    wfPlainItems env h cls name fs xs =
      wfPlainItems env [] cls name fs xs := by
  have hone : ∀ it : HVal,
      (refFree it && wfp it &&
        (match validateOneItem h name (fs.items.getD emptyFS).enum
            (fs.items.getD emptyFS).effType (envItemCls env cls name) it
            with
         | Except.ok _ => true
         | Except.error _ => false)) =
      (refFree it && wfp it &&
        (match validateOneItem [] name (fs.items.getD emptyFS).enum
            (fs.items.getD emptyFS).effType (envItemCls env cls name) it
            with
         | Except.ok _ => true
         | Except.error _ => false)) := by
    intro it
    cases hrf : refFree it with
    | false => simp
    | true => rw [validateOneItem_empty h name _ _ _ it hrf]
  have hall : ∀ ys : List HVal,
      (ys.all fun it => refFree it && wfp it &&
        (match validateOneItem h name (fs.items.getD emptyFS).enum
            (fs.items.getD emptyFS).effType (envItemCls env cls name) it
            with
         | Except.ok _ => true
         | Except.error _ => false)) =
      (ys.all fun it => refFree it && wfp it &&
        (match validateOneItem [] name (fs.items.getD emptyFS).enum
            (fs.items.getD emptyFS).effType (envItemCls env cls name) it
            with
         | Except.ok _ => true
         | Except.error _ => false)) := by
    intro ys
    induction ys with
    | nil => rfl
    | cons it rest ih => rw [List.all_cons, List.all_cons, ih, hone]
  show ((match fs.enum with
         | none => true
         | some es => xs.all fun it => pyIn it es) &&
        xs.all fun it => refFree it && wfp it &&
          (match validateOneItem h name (fs.items.getD emptyFS).enum
              (fs.items.getD emptyFS).effType (envItemCls env cls name)
              it with
           | Except.ok _ => true
           | Except.error _ => false)) =
      ((match fs.enum with
        | none => true
        | some es => xs.all fun it => pyIn it es) &&
       xs.all fun it => refFree it && wfp it &&
         (match validateOneItem [] name (fs.items.getD emptyFS).enum
             (fs.items.getD emptyFS).effType (envItemCls env cls name)
             it with
          | Except.ok _ => true
          | Except.error _ => false))
  rw [hall]

theorem wfPlainItems_parts (env : Env) (h : Heap) (cls name : String)
    (fs : FieldSchema) (xs : List HVal)
    (hwf : wfPlainItems env h cls name fs xs = true) :
    (∀ es, fs.enum = some es → ∀ it ∈ xs, pyIn it es = true) ∧
    (∀ it ∈ xs, refFree it = true ∧ wfp it = true ∧
      validateOneItem h name (fs.items.getD emptyFS).enum
        (fs.items.getD emptyFS).effType (envItemCls env cls name) it =
          .ok ()) := by
  unfold wfPlainItems at hwf
  rw [Bool.and_eq_true, List.all_eq_true] at hwf
  constructor
  · intro es hes it hit
    have h1 := hwf.1
    rw [hes, List.all_eq_true] at h1
    exact h1 it hit
  · intro it hit
    have h2 := hwf.2 it hit
    rw [Bool.and_eq_true, Bool.and_eq_true] at h2
    obtain ⟨⟨hrf, hwp⟩, hv⟩ := h2
    refine ⟨hrf, hwp, ?_⟩
    cases hres : validateOneItem h name (fs.items.getD emptyFS).enum
        (fs.items.getD emptyFS).effType (envItemCls env cls name) it with
    | ok u => cases u; rfl
    | error e => rw [hres] at hv; simp at hv

theorem validate_list_ok (env : Env) (h : Heap) (cls name : String)
    (fs : FieldSchema) (vs : List HVal)
    (hfs : alGet (envProps env cls) name = some fs)
    (heff : fs.effType = some (.single "array"))
    (henum : ∀ es, fs.enum = some es →
      enumCheckList name es vs = .ok ())
    (hloop : validateItemsLoop env h name (fs.items.getD emptyFS).enum
        (fs.items.getD emptyFS).effType (envItemCls env cls name) vs =
          .ok ()) :
    validate_field_type env h cls name (.vlist vs) = .ok () := by
  by_cases hs : underscoreFirst name
  · simp [validate_field_type, hs, pure, Except.pure]
  · unfold validate_field_type
    simp only [hs, Bool.false_eq_true, if_false, hfs, Option.getD_some,
      heff]
    cases he : fs.enum with
    | none =>
        simp [tdTruthy, isinst, iterItems, HVal.isNone, hloop,
          Bind.bind, Except.bind, pure, Except.pure]
    | some es =>
        have := henum es he
        simp [tdTruthy, isinst, iterItems, HVal.isNone, hloop, this,
          Bind.bind, Except.bind, pure, Except.pure]

theorem validate_object_ok (env : Env) (h : Heap) (cls name : String)
    (fs : FieldSchema) (c : String) (nid : Nat) (st : NodeState)
    (hfs : alGet (envProps env cls) name = some fs)
    (heff : fs.effType = some (.single "object"))
    (henum : fs.enum = none)
    (hcf : envClassFor env cls name = some c)
    (hn : nodeOf h nid = some st) (hcls : st.cls = c) :
    validate_field_type env h cls name (.vref nid) = .ok () := by
  by_cases hs : underscoreFirst name
  · simp [validate_field_type, hs, pure, Except.pure]
  · unfold validate_field_type
    simp [hs, hfs, heff, henum, hcf, tdTruthy, HVal.isNone,
      isInstOfCls, hn, hcls, Bind.bind, Except.bind, pure, Except.pure]

theorem serValE_wrap (h : Heap) (j : Nat) (w : WrapState)
    (out : List HVal) (hg : h.get j = some (.wrap w))
    (hi : serItemsE h w.items out) : serValE h (.vref j) (.vlist out) := by
  obtain ⟨g, hgd⟩ := hi
  refine ⟨g + 1, ?_⟩
  rw [serializeVal, hg]
  show (match serializeItems g h w.items with
        | some xs => some (HVal.vlist xs)
        | none => none) = some (HVal.vlist out)
  rw [hgd]

theorem serValE_refFree (h : Heap) (v : HVal) (hrf : refFree v = true) :
    serValE h v v := by
  cases v with
  | vref j => simp [refFree] at hrf
  | vlist xs =>
      have hxs : refFreeList xs = true := hrf
      refine ⟨xs.length + 2, ?_⟩
      rw [serializeVal,
        serializeItems_refFree (xs.length + 1) xs h hxs (by omega)]
  | vnone => exact ⟨1, rfl⟩
  | vbool b => exact ⟨1, rfl⟩
  | vint n => exact ⟨1, rfl⟩
  | vstr s => exact ⟨1, rfl⟩
  | vfloat n => exact ⟨1, rfl⟩
  | vdate d => exact ⟨1, rfl⟩
  | vobjid t => exact ⟨1, rfl⟩
  | vbytes x => exact ⟨1, rfl⟩
  | vdec n => exact ⟨1, rfl⟩
  | vdict kvs => exact ⟨1, rfl⟩

theorem setattrM_keep_rebuild (env : Env) (H : Heap) (id L : Nat)
    (k : String) (v : HVal) (st : NodeState)
    (hn : nodeOf H id = some st) (hp : st.parent = none)
    (hkres : reservedName k = false)
    (hact : deseAction env H st.cls k v = .keep)
    (hval : validate_field_type env H st.cls k v = .ok ())
    (hrf : refFree v = true)
    (hasc : heapAsc L H) (hLid : L ≤ id) :
    ∃ g h2 dv, setattrM env g H id k v = some (h2, .ok ()) ∧
      H.length ≤ h2.length ∧
      (∀ m, m < H.length → m ≠ id → h2.get m = H.get m) ∧
      heapAsc L h2 ∧ refsIn (id+1) h2.length dv = true ∧
      nodeOf h2 id = some {st with data := alSet st.data k dv} ∧
      serValE h2 dv v := by
  have hw : nodeOf (writeField H id k v) id =
      some {st with data := alSet st.data k v} :=
    nodeOf_writeField_self H id k v st hn
  have hplen : (writeField H id k v).length = H.length :=
    length_writeField H id k v
  refine ⟨2, writeField H id k v, v, ?_, ?_, ?_, ?_, ?_, hw, ?_⟩
  · rw [setattrM_keep env 0 H id k v st hkres hn hact hval,
      stampParent_refFree H v id k hrf,
      mark_dirty_root 0 (writeField H id k v) id _ hw hp]
    rfl
  · omega
  · intro m hm hmid
    exact get_writeField_ne H id k v m (Ne.symm hmid)
  · exact heapAsc_writeField L H id k v hasc
      (fun _ => refFree_refsIn v (id+1) _ hrf)
  · exact refFree_refsIn v (id+1) _ hrf
  · exact serValE_refFree _ v hrf

theorem alKeys_cons {α : Type} (k : String) (v : α)
    (l : List (String × α)) : alKeys ((k, v) :: l) = k :: alKeys l := rfl

theorem alKeys_append {α : Type} (l1 l2 : List (String × α)) :
    alKeys (l1 ++ l2) = alKeys l1 ++ alKeys l2 := by
  simp [alKeys]

theorem setattrM_convert (env : Env) (gd : Nat) (H h1 : Heap)
    (id : Nat) (k : String) (v dv : HVal) (st : NodeState)
    (hkres : reservedName k = false)
    (hn : nodeOf H id = some st)
    (hdese : deserialize_field env (gd+1) H st.cls k v =
      some (h1, .ok dv))
    (hval : validate_field_type env h1 st.cls k dv = .ok ())
    (hn1 : nodeOf (stampParent h1 dv id k) id = some st)
    (hp : st.parent = none) :
    setattrM env (gd+2) H id k v =
      some (writeField (stampParent h1 dv id k) id k dv, .ok ()) := by
  show setattrM env (gd+1+1) H id k v = _
  unfold setattrM
  simp only [hkres, Bool.false_eq_true, if_false, hn]
  rw [hdese]
  simp only [steBind, hval]
  rw [mark_dirty_root gd _ id _
    (nodeOf_writeField_self _ id k dv st hn1) hp]

theorem serVal_effType_fs (env : Env) (cls k : String) (t : String)
    (hb : (((alGet (envProps env cls) k).getD emptyFS).effType ==
        some (.single t)) = true) :
    ∃ fs, alGet (envProps env cls) k = some fs ∧
      fs.effType = some (.single t) := by
  cases halg : alGet (envProps env cls) k with
  | some fs =>
      rw [halg] at hb
      exact ⟨fs, rfl, by simpa using hb⟩
  | none =>
      rw [halg] at hb
      exfalso
      simp [emptyFS, FieldSchema.effType, FieldSchema.bsonType,
        FieldSchema.typeKey] at hb

theorem rebuild_stepPK (env : Env) (n : Nat)
    (ihPK : rebuildPK env n) (ihPV : rebuildPV env n) :
    rebuildPK env (n+1) := by
  intro rest H id L st hs hser hnd hn hp hLid hLH hasc
  cases rest with
  | nil =>
      refine ⟨1, H, st, rfl, Nat.le_refl _, fun m _ _ => rfl, hasc, hn,
        rfl, hp, ?_⟩
      intro done hdone
      simpa using hdone
  | cons kv rest2 =>
      obtain ⟨k, v⟩ := kv
      rw [serNode, Bool.and_eq_true, Bool.and_eq_true,
        Bool.not_eq_true'] at hser
      obtain ⟨⟨hkres, hsv⟩, hrest⟩ := hser
      have hsz1 : sizeOf ((k, v) : String × HVal) =
          1 + sizeOf k + sizeOf v := by simp
      have hsz2 : sizeOf ((k, v) :: rest2) =
          1 + sizeOf (k, v) + sizeOf rest2 := by simp
      obtain ⟨gV, h', dv, hset, hlen', hpres', hasc', href', hnode',
        hsvE⟩ :=
        ihPV v k H id L st (by omega) hsv hkres hn hp hLid hLH hasc
      rw [alKeys_cons] at hnd
      have hget_none : alGet st.data k = none :=
        alGet_none_of_nodup_mid st.data k (alKeys rest2) hnd
      rw [alSet_append st.data k dv hget_none] at hnode'
      have hdata_refs : refsInEntries (id+1) H.length st.data = true := by
        have := hasc id hLid
        rw [nodeOf_get H id st hn] at this
        exact this
      have hid_lt : id < H.length :=
        heap_get_lt H id _ (nodeOf_get H id st hn)
      have hnd1 : strNodup
          (alKeys (st.data ++ [(k, dv)]) ++ alKeys rest2) = true := by
        rw [alKeys_append, List.append_assoc]
        exact hnd
      obtain ⟨gK, h2, st2, hsetr, hlen2, hpres2, hasc2, hnode2, hcls2,
        hpar2, hinv2⟩ :=
        ihPK rest2 h' id L {st with data := st.data ++ [(k, dv)]}
          (by omega) hrest hnd1 hnode' hp hLid (by omega) hasc'
      refine ⟨max gV gK + 1, h2, st2, ?_, by omega, ?_, hasc2, hnode2,
        hcls2, hpar2, ?_⟩
      · rw [setattr_kwargs,
          setattrM_mono_le env gV (max gV gK) H id k v _
            (Nat.le_max_left _ _) hset]
        simp only [steBind]
        exact setattr_kwargs_mono_le env gK (max gV gK) h' id rest2 _
          (Nat.le_max_right _ _) hsetr
      · intro m hm hmid
        rw [hpres2 m (by omega) hmid]
        exact hpres' m hm hmid
      · intro done hdone
        have htrans : serEntriesE h' st.data done :=
          frame_serEntriesE (id+1) H h'
            (heapAsc_above L (id+1) H hasc (by omega))
            (fun m hm1 hm2 => Or.inl (hpres' m hm2 (by omega)).symm)
            st.data done hdata_refs hdone
        have hone : serEntriesE h' [(k, dv)] [(k, v)] :=
          serEntriesE_cons h' k dv v [] [] hsvE (serEntriesE_nil h')
        have hcomb := serEntriesE_append h' st.data done [(k, dv)]
          [(k, v)] htrans hone
        have hfin := hinv2 (done ++ [(k, v)]) hcomb
        rw [List.append_assoc] at hfin
        exact hfin

theorem rebuild_stepPI (env : Env) (n : Nat)
    (hPK : rebuildPK env (n+1)) : rebuildPI env (n+1) := by
  intro d H L cls hs hnd hser hLH hasc
  have hl1 : (H ++ [HObj.node ⟨cls, [], none, none⟩]).length =
      H.length + 1 := by simp
  have hn1 : nodeOf (H ++ [HObj.node ⟨cls, [], none, none⟩]) H.length =
      some ⟨cls, [], none, none⟩ := by
    unfold nodeOf
    rw [heap_get_append_new]
  have hasc1 : heapAsc L (H ++ [HObj.node ⟨cls, [], none, none⟩]) :=
    heapAsc_append_node L H _ hasc rfl
  obtain ⟨gK, h2, st2, hsetr, hlen2, hpres2, hasc2, hnode2, hcls2,
    hpar2, hinv2⟩ :=
    hPK d (H ++ [HObj.node ⟨cls, [], none, none⟩]) H.length L
      ⟨cls, [], none, none⟩ hs hser (by simpa using hnd) hn1 rfl hLH
      (by omega) hasc1
  refine ⟨gK + 1, h2, st2, ?_, by omega, ?_, hasc2, hnode2, hcls2,
    hpar2, ?_⟩
  · rw [model_init, hsetr]
    rfl
  · intro m hm
    rw [hpres2 m (by omega) (by omega)]
    exact heap_get_append_old H _ m hm
  · have := hinv2 [] (serEntriesE_nil _)
    simpa using this

theorem rebuild_stepPL (env : Env) (n : Nat)
    (ihPI : rebuildPI env n) (ihPL : rebuildPL env n) :
    rebuildPL env (n+1) := by
  intro xs H L ic hs hso hLH hasc
  cases xs with
  | nil =>
      refine ⟨1, H, [], rfl, Nat.le_refl _, fun m _ => rfl, hasc, rfl,
        ?_, serItemsE_nil H⟩
      intro x hx
      exact absurd hx (List.not_mem_nil x)
  | cons v rest =>
      cases v with
      | vdict d =>
          rw [serObjList, Bool.and_eq_true, Bool.and_eq_true] at hso
          obtain ⟨⟨hndd, hsnd⟩, hrest⟩ := hso
          have hsz1 : sizeOf (HVal.vdict d) = 1 + sizeOf d := by simp
          have hsz2 : sizeOf (HVal.vdict d :: rest) =
              1 + sizeOf (HVal.vdict d) + sizeOf rest := by simp
          obtain ⟨gI, h1, st2, hinit, hlen1, hpres1, hasc1, hnode1,
            hcls1, hpar1, hserE1⟩ :=
            ihPI d H L ic (by omega) hndd hsnd hLH hasc
          obtain ⟨gR, h2, vs', hrestD, hlen2, hpres2, hasc2, hrefs2,
            helems2, hser2⟩ :=
            ihPL rest h1 L ic (by omega) hrest (by omega) hasc1
          have hg2node : h2.get H.length = some (.node st2) := by
            rw [hpres2 H.length (by omega)]
            exact nodeOf_get h1 H.length st2 hnode1
          have hn2 : nodeOf h2 H.length = some st2 := by
            unfold nodeOf
            rw [hg2node]
          have hdE2 : toDictE h2 H.length d :=
            frame_toDictE H.length h1 h2
              (heapAsc_above L H.length h1 hasc1 hLH)
              (fun m _ hm => Or.inl (hpres2 m hm).symm)
              H.length d (Nat.le_refl _)
              (toDictE_intro h1 H.length st2 d hnode1 hserE1)
          refine ⟨max gI gR + 1, h2, .vref H.length :: vs', ?_, by omega,
            ?_, hasc2, ?_, ?_, ?_⟩
          · rw [deserialize_items,
              model_init_mono_le env gI (max gI gR) H ic d _
                (Nat.le_max_left _ _) hinit]
            simp only [steBind]
            rw [deserialize_items_mono_le env gR (max gI gR) h1 ic rest
              _ (Nat.le_max_right _ _) hrestD]
          · intro m hm
            rw [hpres2 m (by omega)]
            exact hpres1 m hm
          · rw [refsInList, Bool.and_eq_true]
            constructor
            · rw [refsIn, Bool.and_eq_true, decide_eq_true_eq,
                decide_eq_true_eq]
              omega
            · exact refsInList_anti_L vs' h1.length H.length h2.length
                (by omega) hrefs2
          · intro x hx
            rcases List.mem_cons.mp hx with rfl | hx'
            · exact ⟨H.length, st2, rfl, hn2, hcls1⟩
            · exact helems2 x hx'
          · exact serItemsE_cons_ref h2 H.length st2 d vs' rest hg2node
              hdE2 hser2
      | vref j => simp [serObjList] at hso
      | vnone => simp [serObjList] at hso
      | vbool b => simp [serObjList] at hso
      | vint n0 => simp [serObjList] at hso
      | vstr s => simp [serObjList] at hso
      | vfloat n0 => simp [serObjList] at hso
      | vdate d0 => simp [serObjList] at hso
      | vobjid t => simp [serObjList] at hso
      | vbytes x => simp [serObjList] at hso
      | vdec n0 => simp [serObjList] at hso
      | vlist ys => simp [serObjList] at hso

theorem rebuildPV_scalarlike (env : Env) (H : Heap) (id L : Nat)
    (k : String) (v : HVal) (st : NodeState)
    (hn : nodeOf H id = some st) (hp : st.parent = none)
    (hkres : reservedName k = false) (hasc : heapAsc L H)
    (hLid : L ≤ id) (hrf : refFree v = true)
    (hvok : (match validate_field_type env [] st.cls k v with
             | Except.ok _ => true
             | Except.error _ => false) = true)
    (hd : ∀ kvs, v ≠ .vdict kvs) (hl : ∀ xs, v ≠ .vlist xs)
    (hr : ∀ j, v ≠ .vref j) :
    ∃ g h2 dv, setattrM env g H id k v = some (h2, .ok ()) ∧
      H.length ≤ h2.length ∧
      (∀ m, m < H.length → m ≠ id → h2.get m = H.get m) ∧
      heapAsc L h2 ∧ refsIn (id+1) h2.length dv = true ∧
      nodeOf h2 id = some {st with data := alSet st.data k dv} ∧
      serValE h2 dv v := by
  have hres : validate_field_type env [] st.cls k v = .ok () := by
    cases h0 : validate_field_type env [] st.cls k v with
    | ok u => cases u; rfl
    | error e => rw [h0] at hvok; simp at hvok
  exact setattrM_keep_rebuild env H id L k v st hn hp hkres
    (deseAction_scalar_keep env H st.cls k v hd hl hr)
    (by rw [validate_empty env H st.cls k v hrf]; exact hres)
    hrf hasc hLid

theorem rebuildPV_dict_keep (env : Env) (H : Heap) (id L : Nat)
    (k : String) (kvs : List (String × HVal)) (st : NodeState)
    (hn : nodeOf H id = some st) (hp : st.parent = none)
    (hkres : reservedName k = false) (hasc : heapAsc L H)
    (hLid : L ≤ id) (hrf : refFree (.vdict kvs) = true)
    (hdi : deseInert env st.cls k (.vdict kvs) = true)
    (hvok : (match validate_field_type env [] st.cls k (.vdict kvs) with
             | Except.ok _ => true
             | Except.error _ => false) = true) :
    ∃ g h2 dv, setattrM env g H id k (.vdict kvs) = some (h2, .ok ()) ∧
      H.length ≤ h2.length ∧
      (∀ m, m < H.length → m ≠ id → h2.get m = H.get m) ∧
      heapAsc L h2 ∧ refsIn (id+1) h2.length dv = true ∧
      nodeOf h2 id = some {st with data := alSet st.data k dv} ∧
      serValE h2 dv (.vdict kvs) := by
  have hres : validate_field_type env [] st.cls k (.vdict kvs) =
      .ok () := by
    cases h0 : validate_field_type env [] st.cls k (.vdict kvs) with
    | ok u => cases u; rfl
    | error e => rw [h0] at hvok; simp at hvok
  exact setattrM_keep_rebuild env H id L k (.vdict kvs) st hn hp hkres
    (deseAction_dict_keep env H st.cls k kvs hdi)
    (by rw [validate_empty env H st.cls k _ hrf]; exact hres)
    hrf hasc hLid

theorem rebuildPV_plainlist (env : Env) (H : Heap) (id L : Nat)
    (k : String) (xs : List HVal) (st : NodeState) (fs : FieldSchema)
    (hn : nodeOf H id = some st) (hp : st.parent = none)
    (hkres : reservedName k = false) (hasc : heapAsc L H)
    (hLid : L ≤ id)
    (hfs' : alGet (envProps env st.cls) k = some fs)
    (heffeq : fs.effType = some (.single "array"))
    (hcond : ∀ isch, fs.items = some isch →
      (envItemCls env st.cls k).isSome = true →
      collapseBT isch.effType ≠ some "object")
    (hwpi0 : wfPlainItems env [] st.cls k fs xs = true) :
    ∃ g h2 dv, setattrM env g H id k (.vlist xs) = some (h2, .ok ()) ∧
      H.length ≤ h2.length ∧
      (∀ m, m < H.length → m ≠ id → h2.get m = H.get m) ∧
      heapAsc L h2 ∧ refsIn (id+1) h2.length dv = true ∧
      nodeOf h2 id = some {st with data := alSet st.data k dv} ∧
      serValE h2 dv (.vlist xs) := by
  have hwpi : wfPlainItems env H st.cls k fs xs = true := by
    rw [wfPlainItems_heap_indep]
    exact hwpi0
  obtain ⟨henum_part, hitems_part⟩ :=
    wfPlainItems_parts env H st.cls k fs xs hwpi
  have hrf : refFree (HVal.vlist xs) = true :=
    refFreeList_of_mem xs (fun it hit => (hitems_part it hit).1)
  have hval : validate_field_type env H st.cls k (.vlist xs) =
      .ok () :=
    validate_list_ok env H st.cls k fs xs hfs' heffeq
      (fun es hes => enumCheckList_ok k es xs (henum_part es hes))
      (validateItemsLoop_ok env H k _ _ _ xs
        (fun it hit => (hitems_part it hit).2.2))
  exact setattrM_keep_rebuild env H id L k (.vlist xs) st hn hp hkres
    (deseAction_plainlist_keep env H st.cls k xs fs hfs' hcond)
    hval hrf hasc hLid

theorem rebuildPV_convObj (env : Env) (n : Nat)
    (ihPI : rebuildPI env n) (H : Heap) (id L : Nat) (k : String)
    (kvs : List (String × HVal)) (st : NodeState) (fs : FieldSchema)
    (c : String)
    (hn : nodeOf H id = some st) (hp : st.parent = none)
    (hkres : reservedName k = false) (hasc : heapAsc L H)
    (hLid : L ≤ id) (hLH : L ≤ H.length)
    (hs : sizeOf kvs ≤ n)
    (hfs' : alGet (envProps env st.cls) k = some fs)
    (heffeq : fs.effType = some (.single "object"))
    (henum' : fs.enum = none)
    (hcf : envClassFor env st.cls k = some c)
    (hndk : strNodup (alKeys kvs) = true)
    (hsnk : serNode env c kvs = true) :
    ∃ g h2 dv, setattrM env g H id k (.vdict kvs) = some (h2, .ok ()) ∧
      H.length ≤ h2.length ∧
      (∀ m, m < H.length → m ≠ id → h2.get m = H.get m) ∧
      heapAsc L h2 ∧ refsIn (id+1) h2.length dv = true ∧
      nodeOf h2 id = some {st with data := alSet st.data k dv} ∧
      serValE h2 dv (.vdict kvs) := by
  have hid_lt : id < H.length :=
    heap_get_lt H id _ (nodeOf_get H id st hn)
  obtain ⟨gI, h1, st2, hinit, hlen1, hpres1, hasc1, hnode1, hcls1,
    hpar1, hserE1⟩ := ihPI kvs H L c hs hndk hsnk hLH hasc
  have hdese : deserialize_field env (gI+1) H st.cls k (.vdict kvs) =
      some (h1, .ok (.vref H.length)) := by
    rw [deserialize_field,
      deseAction_obj env H st.cls k c kvs fs hfs' heffeq hcf]
    show steBind (model_init env gI H c kvs)
      (fun h0 nid => some (h0, Except.ok (HVal.vref nid))) = _
    rw [hinit]
    rfl
  have hval : validate_field_type env h1 st.cls k (.vref H.length) =
      .ok () :=
    validate_object_ok env h1 st.cls k fs c H.length st2 hfs' heffeq
      henum' hcf hnode1 hcls1
  have hsp : stampParent h1 (.vref H.length) id k =
      stampOne h1 H.length id k := by
    show (match h1.get H.length with
          | some (HObj.node _) => stampOne h1 H.length id k
          | some (HObj.wrap w) => stampList h1 w.items id k
          | none => h1) = _
    rw [nodeOf_get h1 H.length st2 hnode1]
  have hnst : nodeOf (stampParent h1 (.vref H.length) id k) id =
      some st := by
    unfold nodeOf
    rw [hsp, get_stampOne_ne h1 H.length id k id (by omega),
      hpres1 id hid_lt]
    rw [nodeOf_get H id st hn]
  have hset := setattrM_convert env gI H h1 id k (.vdict kvs)
    (.vref H.length) st hkres hn hdese hval hnst hp
  have hlen3 : (writeField (stampParent h1 (.vref H.length) id k) id k
      (.vref H.length)).length = h1.length := by
    rw [length_writeField, length_stampParent]
  refine ⟨gI + 2, _, .vref H.length, hset, by omega, ?_, ?_, ?_, ?_, ?_⟩
  · intro m hm hmid
    rw [get_writeField_ne _ id k _ m (Ne.symm hmid), hsp,
      get_stampOne_ne h1 H.length id k m (by omega)]
    exact hpres1 m hm
  · refine heapAsc_writeField L _ id k _ ?_ ?_
    · exact heapAsc_stampParent L h1 (.vref H.length) id k hasc1
    · intro _
      rw [refsIn, Bool.and_eq_true, decide_eq_true_eq,
        decide_eq_true_eq, length_stampParent]
      omega
  · rw [refsIn, Bool.and_eq_true, decide_eq_true_eq,
      decide_eq_true_eq, hlen3]
    omega
  · exact nodeOf_writeField_self _ id k (.vref H.length) st hnst
  · have hdE : toDictE h1 H.length kvs :=
      toDictE_intro h1 H.length st2 kvs hnode1 hserE1
    have hagree : ∀ m, id+1 ≤ m → m < h1.length →
        serEqObj (h1.get m)
          ((writeField (stampParent h1 (.vref H.length) id k) id k
            (.vref H.length)).get m) := by
      intro m hm1 hm2
      rw [get_writeField_ne _ id k _ m (by omega)]
      exact agree_stampParent h1 _ id k m
    have hd3 := frame_toDictE (id+1) h1 _
      (heapAsc_above L (id+1) h1 hasc1 (by omega)) hagree H.length kvs
      (by omega) hdE
    have hg3 : (writeField (stampParent h1 (.vref H.length) id k) id k
        (.vref H.length)).get H.length =
        some (.node {st2 with
          parent := some id, parentKey := some k}) := by
      rw [get_writeField_ne _ id k _ H.length (by omega), hsp]
      unfold stampOne
      rw [hnode1]
      exact heap_get_set_self h1 H.length _ (by omega)
    exact serValE_ref_node _ H.length _ kvs hg3 hd3

theorem rebuildPV_convArr (env : Env) (n : Nat)
    (ihPL : rebuildPL env n) (H : Heap) (id L : Nat) (k : String)
    (xs : List HVal) (st : NodeState) (fs isch : FieldSchema)
    (ic : String)
    (hn : nodeOf H id = some st) (hp : st.parent = none)
    (hkres : reservedName k = false) (hasc : heapAsc L H)
    (hLid : L ≤ id) (hLH : L ≤ H.length)
    (hs : sizeOf xs ≤ n)
    (hfs' : alGet (envProps env st.cls) k = some fs)
    (heffeq : fs.effType = some (.single "array"))
    (henum' : fs.enum = none)
    (hi : fs.items = some isch)
    (hieffeq : isch.effType = some (.single "object"))
    (hic : envItemCls env st.cls k = some ic)
    (hsol : serObjList env ic xs = true) :
    ∃ g h2 dv, setattrM env g H id k (.vlist xs) = some (h2, .ok ()) ∧
      H.length ≤ h2.length ∧
      (∀ m, m < H.length → m ≠ id → h2.get m = H.get m) ∧
      heapAsc L h2 ∧ refsIn (id+1) h2.length dv = true ∧
      nodeOf h2 id = some {st with data := alSet st.data k dv} ∧
      serValE h2 dv (.vlist xs) := by
  have hid_lt : id < H.length :=
    heap_get_lt H id _ (nodeOf_get H id st hn)
  obtain ⟨gR, h1, vs, hconv, hlen1, hpres1, hasc1, hrefs1, helems1,
    hser1⟩ := ihPL xs H L ic hs hsol hLH hasc
  have hdese : deserialize_field env (gR+1) H st.cls k (.vlist xs) =
      some (h1, .ok (.vlist vs)) := by
    rw [deserialize_field,
      deseAction_arr env H st.cls k xs fs isch ic hfs' heffeq hi
        hieffeq hic]
    show steBind (deserialize_items env gR H ic xs)
      (fun h0 vs0 => some (h0, Except.ok (HVal.vlist vs0))) = _
    rw [hconv]
    rfl
  have hloop : validateItemsLoop env h1 k
      (fs.items.getD emptyFS).enum (fs.items.getD emptyFS).effType
      (envItemCls env st.cls k) vs = .ok () := by
    rw [hi, hic]
    exact validateItemsLoop_ok env h1 k _ _ _ vs (fun it hit => by
      obtain ⟨j, stj, rfl, hnj, hclsj⟩ := helems1 it hit
      exact validateOneItem_skip h1 k _ _ ic j stj hnj hclsj)
  have hval : validate_field_type env h1 st.cls k (.vlist vs) =
      .ok () :=
    validate_list_ok env h1 st.cls k fs vs hfs' heffeq
      (fun es hes => by rw [henum'] at hes; cases hes) hloop
  have hsafe : ∀ j, HVal.vref j ∈ vs → H.length ≤ j :=
    fun j hj => (refsInList_mem_ref vs H.length h1.length j hrefs1 hj).1
  have hspl : stampParent h1 (HVal.vlist vs) id k =
      stampList h1 vs id k := rfl
  have hnst : nodeOf (stampParent h1 (.vlist vs) id k) id =
      some st := by
    unfold nodeOf
    rw [hspl, get_stampList_lt h1 vs id k H.length id hid_lt hsafe,
      hpres1 id hid_lt]
    rw [nodeOf_get H id st hn]
  have hset := setattrM_convert env gR H h1 id k (.vlist xs)
    (.vlist vs) st hkres hn hdese hval hnst hp
  have hlen3 : (writeField (stampParent h1 (.vlist vs) id k) id k
      (.vlist vs)).length = h1.length := by
    rw [length_writeField, length_stampParent]
  have hrefs' : refsInList (id+1) h1.length vs = true :=
    refsInList_anti_L vs H.length (id+1) h1.length (by omega) hrefs1
  refine ⟨gR + 2, _, .vlist vs, hset, by omega, ?_, ?_, ?_, ?_, ?_⟩
  · intro m hm hmid
    rw [get_writeField_ne _ id k _ m (Ne.symm hmid), hspl,
      get_stampList_lt h1 vs id k H.length m hm hsafe]
    exact hpres1 m hm
  · refine heapAsc_writeField L _ id k _ ?_ ?_
    · exact heapAsc_stampParent L h1 (.vlist vs) id k hasc1
    · intro _
      show refsInList (id+1)
        (stampParent h1 (HVal.vlist vs) id k).length vs = true
      rw [length_stampParent]
      exact hrefs'
  · show refsInList (id+1) (writeField (stampParent h1 (.vlist vs) id k)
      id k (.vlist vs)).length vs = true
    rw [hlen3]
    exact hrefs'
  · exact nodeOf_writeField_self _ id k (.vlist vs) st hnst
  · have hagree : ∀ m, id+1 ≤ m → m < h1.length →
        serEqObj (h1.get m)
          ((writeField (stampParent h1 (.vlist vs) id k) id k
            (.vlist vs)).get m) := by
      intro m hm1 hm2
      rw [get_writeField_ne _ id k _ m (by omega)]
      exact agree_stampParent h1 _ id k m
    have hs3 := frame_serItemsE (id+1) h1 _
      (heapAsc_above L (id+1) h1 hasc1 (by omega)) hagree vs xs hrefs'
      hser1
    exact serValE_list _ vs xs hs3

theorem rebuild_stepPV (env : Env) (n : Nat)
    (ihPI : rebuildPI env n) (ihPL : rebuildPL env n) :
    rebuildPV env (n+1) := by
  intro v k H id L st hs hsv hkres hn hp hLid hLH hasc
  cases v with
  | vref j => simp [serVal] at hsv
  | vnone =>
      refine rebuildPV_scalarlike env H id L k .vnone st hn hp hkres
        hasc hLid rfl ?_ (fun kvs h => nomatch h) (fun xs h => nomatch h)
        (fun j h => nomatch h)
      rw [validate_vnone env [] st.cls k]
  | vbool b =>
      simp only [serVal, refFree, wfp, Bool.true_and,
        Bool.and_eq_true] at hsv
      exact rebuildPV_scalarlike env H id L k (.vbool b) st hn hp hkres
        hasc hLid rfl hsv (fun kvs h => nomatch h)
        (fun xs h => nomatch h) (fun j h => nomatch h)
  | vint n0 =>
      simp only [serVal, refFree, wfp, Bool.true_and,
        Bool.and_eq_true] at hsv
      exact rebuildPV_scalarlike env H id L k (.vint n0) st hn hp hkres
        hasc hLid rfl hsv (fun kvs h => nomatch h)
        (fun xs h => nomatch h) (fun j h => nomatch h)
  | vstr s =>
      simp only [serVal, refFree, wfp, Bool.true_and,
        Bool.and_eq_true] at hsv
      exact rebuildPV_scalarlike env H id L k (.vstr s) st hn hp hkres
        hasc hLid rfl hsv (fun kvs h => nomatch h)
        (fun xs h => nomatch h) (fun j h => nomatch h)
  | vfloat n0 =>
      simp only [serVal, refFree, wfp, Bool.true_and,
        Bool.and_eq_true] at hsv
      exact rebuildPV_scalarlike env H id L k (.vfloat n0) st hn hp
        hkres hasc hLid rfl hsv (fun kvs h => nomatch h)
        (fun xs h => nomatch h) (fun j h => nomatch h)
  | vdate d0 =>
      simp only [serVal, refFree, wfp, Bool.true_and,
        Bool.and_eq_true] at hsv
      exact rebuildPV_scalarlike env H id L k (.vdate d0) st hn hp
        hkres hasc hLid rfl hsv (fun kvs h => nomatch h)
        (fun xs h => nomatch h) (fun j h => nomatch h)
  | vobjid t0 =>
      simp only [serVal, refFree, wfp, Bool.true_and,
        Bool.and_eq_true] at hsv
      exact rebuildPV_scalarlike env H id L k (.vobjid t0) st hn hp
        hkres hasc hLid rfl hsv (fun kvs h => nomatch h)
        (fun xs h => nomatch h) (fun j h => nomatch h)
  | vbytes x0 =>
      simp only [serVal, refFree, wfp, Bool.true_and,
        Bool.and_eq_true] at hsv
      exact rebuildPV_scalarlike env H id L k (.vbytes x0) st hn hp
        hkres hasc hLid rfl hsv (fun kvs h => nomatch h)
        (fun xs h => nomatch h) (fun j h => nomatch h)
  | vdec n0 =>
      simp only [serVal, refFree, wfp, Bool.true_and,
        Bool.and_eq_true] at hsv
      exact rebuildPV_scalarlike env H id L k (.vdec n0) st hn hp
        hkres hasc hLid rfl hsv (fun kvs h => nomatch h)
        (fun xs h => nomatch h) (fun j h => nomatch h)
  | vdict kvs =>
      have hszd : sizeOf (HVal.vdict kvs) = 1 + sizeOf kvs := by simp
      cases hcf : envClassFor env st.cls k with
      | some c =>
          by_cases heffb :
              (((alGet (envProps env st.cls) k).getD emptyFS).effType ==
                some (BsonTypeDecl.single "object")) = true
          · obtain ⟨fs, hfs', heffeq⟩ :=
              serVal_effType_fs env st.cls k "object" heffb
            have heffb2 : (fs.effType ==
                some (BsonTypeDecl.single "object")) = true := by
              rw [heffeq]
              rfl
            simp only [serVal, hcf, hfs', Option.getD_some] at hsv
            rw [if_pos heffb2, Bool.and_eq_true, Bool.and_eq_true]
              at hsv
            obtain ⟨⟨henumI, hndk⟩, hsnk⟩ := hsv
            have henum' : fs.enum = none :=
              Option.isNone_iff_eq_none.mp henumI
            exact rebuildPV_convObj env n ihPI H id L k kvs st fs c hn
              hp hkres hasc hLid hLH (by omega) hfs' heffeq henum' hcf
              hndk hsnk
          · simp only [serVal, hcf] at hsv
            rw [if_neg heffb, Bool.and_eq_true, Bool.and_eq_true,
              Bool.and_eq_true] at hsv
            obtain ⟨⟨⟨hrf, hwpv⟩, hdi⟩, hvok⟩ := hsv
            exact rebuildPV_dict_keep env H id L k kvs st hn hp hkres
              hasc hLid hrf hdi hvok
      | none =>
          simp only [serVal, hcf, Bool.and_eq_true] at hsv
          obtain ⟨⟨⟨hrf, hwpv⟩, hdi⟩, hvok⟩ := hsv
          exact rebuildPV_dict_keep env H id L k kvs st hn hp hkres
            hasc hLid hrf hdi hvok
  | vlist xs =>
      have hszl : sizeOf (HVal.vlist xs) = 1 + sizeOf xs := by simp
      simp only [serVal, Bool.and_eq_true] at hsv
      obtain ⟨heffb, hmatch⟩ := hsv
      obtain ⟨fs, hfs', heffeq⟩ :=
        serVal_effType_fs env st.cls k "array" heffb
      rw [hfs', Option.getD_some] at hmatch
      cases hi : fs.items with
      | some isch =>
          cases hic : envItemCls env st.cls k with
          | some ic =>
              simp only [hi, hic] at hmatch
              by_cases hieffb :
                  (isch.effType == some (BsonTypeDecl.single "object")) =
                    true
              · rw [if_pos hieffb] at hmatch
                rw [Bool.and_eq_true] at hmatch
                obtain ⟨henumI, hsol⟩ := hmatch
                have hieffeq : isch.effType =
                    some (BsonTypeDecl.single "object") := by
                  simpa using hieffb
                have henum' : fs.enum = none :=
                  Option.isNone_iff_eq_none.mp henumI
                exact rebuildPV_convArr env n ihPL H id L k xs st fs
                  isch ic hn hp hkres hasc hLid hLH (by omega) hfs'
                  heffeq henum' hi hieffeq hic hsol
              · rw [if_neg hieffb] at hmatch
                rw [Bool.and_eq_true] at hmatch
                obtain ⟨hcoll, hwpi0⟩ := hmatch
                have hcond : ∀ isch2, fs.items = some isch2 →
                    (envItemCls env st.cls k).isSome = true →
                    collapseBT isch2.effType ≠ some "object" := by
                  intro isch2 hisch2 _
                  have he : isch2 = isch := by
                    rw [hi] at hisch2
                    exact (Option.some.inj hisch2).symm
                  subst he
                  simpa using hcoll
                exact rebuildPV_plainlist env H id L k xs st fs hn hp
                  hkres hasc hLid hfs' heffeq hcond hwpi0
          | none =>
              simp only [hi, hic] at hmatch
              have hcond : ∀ isch2, fs.items = some isch2 →
                  (envItemCls env st.cls k).isSome = true →
                  collapseBT isch2.effType ≠ some "object" := by
                intro isch2 _ hicS
                rw [hic] at hicS
                simp at hicS
              exact rebuildPV_plainlist env H id L k xs st fs hn hp
                hkres hasc hLid hfs' heffeq hcond hmatch
      | none =>
          cases hic : envItemCls env st.cls k with
          | some ic =>
              simp only [hi, hic] at hmatch
              have hcond : ∀ isch2, fs.items = some isch2 →
                  (envItemCls env st.cls k).isSome = true →
                  collapseBT isch2.effType ≠ some "object" := by
                intro isch2 hisch2 _
                rw [hi] at hisch2
                cases hisch2
              exact rebuildPV_plainlist env H id L k xs st fs hn hp
                hkres hasc hLid hfs' heffeq hcond hmatch
          | none =>
              simp only [hi, hic] at hmatch
              have hcond : ∀ isch2, fs.items = some isch2 →
                  (envItemCls env st.cls k).isSome = true →
                  collapseBT isch2.effType ≠ some "object" := by
                intro isch2 hisch2 _
                rw [hi] at hisch2
                cases hisch2
              exact rebuildPV_plainlist env H id L k xs st fs hn hp
                hkres hasc hLid hfs' heffeq hcond hmatch

theorem rebuild_cluster (env : Env) : ∀ n : Nat,
    rebuildPK env n ∧ rebuildPV env n ∧ rebuildPL env n ∧
      rebuildPI env n := by
  intro n
  induction n with
  | zero =>
      refine ⟨?_, ?_, ?_, ?_⟩
      · intro rest H id L st hs _ _ _ _ _ _ _
        exfalso
        cases rest <;> simp at hs
      · intro v k H id L st hs _ _ _ _ _ _ _
        exfalso
        cases v <;> simp at hs
      · intro xs H L ic hs _ _ _
        exfalso
        cases xs <;> simp at hs
      · intro d H L cls hs _ _ _ _
        exfalso
        cases d <;> simp at hs
  | succ n ih =>
      obtain ⟨ihPK, ihPV, ihPL, ihPI⟩ := ih
      have hPK := rebuild_stepPK env n ihPK ihPV
      have hPV := rebuild_stepPV env n ihPI ihPL
      have hPL := rebuild_stepPL env n ihPI ihPL
      have hPI := rebuild_stepPI env n hPK
      exact ⟨hPK, hPV, hPL, hPI⟩

theorem serVal_keep_of_inert (env : Env) (h : Heap) (cls name : String)
    (v : HVal) (hrf : refFree v = true) (hwp : wfp v = true)
    (hdi : deseInert env cls name v = true)
    (hvm : (match validate_field_type env h cls name v with
            | Except.ok _ => true
            | Except.error _ => false) = true) :
    ∀ (hr : ∀ j, v ≠ .vref j) (hl : ∀ xs, v ≠ .vlist xs),
    serVal env cls name v = true := by
  intro hr hl
  have hres : validate_field_type env [] cls name v = .ok () := by
    rw [← validate_empty env h cls name v hrf]
    cases h0 : validate_field_type env h cls name v with
    | ok u => cases u; rfl
    | error e => rw [h0] at hvm; simp at hvm
  cases v with
  | vref j => exact absurd rfl (hr j)
  | vlist xs => exact absurd rfl (hl xs)
  | vnone => rfl
  | vdict kvs =>
      cases hcf : envClassFor env cls name with
      | none =>
          simp only [serVal, hcf]
          rw [hrf, hwp, hdi, hres]
          rfl
      | some c =>
          by_cases heffb :
              (((alGet (envProps env cls) name).getD emptyFS).effType ==
                some (BsonTypeDecl.single "object")) = true
          · exfalso
            unfold deseInert at hdi
            rw [hcf] at hdi
            simp only [Bool.and_eq_true, Bool.not_eq_true',
              beq_eq_false_iff_ne, ne_eq] at hdi
            have heffeq :
                ((alGet (envProps env cls) name).getD emptyFS).effType =
                  some (BsonTypeDecl.single "object") := by
              simpa using heffb
            exact hdi.1 (by rw [heffeq]; rfl)
          · simp only [serVal, hcf]
            rw [if_neg heffb, hrf, hwp, hdi, hres]
            rfl
  | vbool b =>
      show (refFree (HVal.vbool b) && wfp (HVal.vbool b) &&
        (match validate_field_type env [] cls name (HVal.vbool b) with
         | Except.ok _ => true
         | Except.error _ => false)) = true
      rw [hrf, hwp, hres]
      rfl
  | vint n0 =>
      show (refFree (HVal.vint n0) && wfp (HVal.vint n0) &&
        (match validate_field_type env [] cls name (HVal.vint n0) with
         | Except.ok _ => true
         | Except.error _ => false)) = true
      rw [hrf, hwp, hres]
      rfl
  | vstr s =>
      show (refFree (HVal.vstr s) && wfp (HVal.vstr s) &&
        (match validate_field_type env [] cls name (HVal.vstr s) with
         | Except.ok _ => true
         | Except.error _ => false)) = true
      rw [hrf, hwp, hres]
      rfl
  | vfloat n0 =>
      show (refFree (HVal.vfloat n0) && wfp (HVal.vfloat n0) &&
        (match validate_field_type env [] cls name (HVal.vfloat n0) with
         | Except.ok _ => true
         | Except.error _ => false)) = true
      rw [hrf, hwp, hres]
      rfl
  | vdate d0 =>
      show (refFree (HVal.vdate d0) && wfp (HVal.vdate d0) &&
        (match validate_field_type env [] cls name (HVal.vdate d0) with
         | Except.ok _ => true
         | Except.error _ => false)) = true
      rw [hrf, hwp, hres]
      rfl
  | vobjid t0 =>
      show (refFree (HVal.vobjid t0) && wfp (HVal.vobjid t0) &&
        (match validate_field_type env [] cls name (HVal.vobjid t0) with
         | Except.ok _ => true
         | Except.error _ => false)) = true
      rw [hrf, hwp, hres]
      rfl
  | vbytes x0 =>
      show (refFree (HVal.vbytes x0) && wfp (HVal.vbytes x0) &&
        (match validate_field_type env [] cls name (HVal.vbytes x0) with
         | Except.ok _ => true
         | Except.error _ => false)) = true
      rw [hrf, hwp, hres]
      rfl
  | vdec n0 =>
      show (refFree (HVal.vdec n0) && wfp (HVal.vdec n0) &&
        (match validate_field_type env [] cls name (HVal.vdec n0) with
         | Except.ok _ => true
         | Except.error _ => false)) = true
      rw [hrf, hwp, hres]
      rfl

theorem wfArr_plain_parts (env : Env) (h : Heap) (cls name : String)
    (fs : FieldSchema) (items : List HVal)
    (hwpi : wfPlainItems env h cls name fs items = true) :
    serItemsE h items items ∧
      wfPlainItems env [] cls name fs items = true := by
  obtain ⟨_, hitems_part⟩ :=
    wfPlainItems_parts env h cls name fs items hwpi
  have hrfl : refFreeList items = true :=
    refFreeList_of_mem items (fun it hit => (hitems_part it hit).1)
  refine ⟨⟨items.length + 1,
    serializeItems_refFree (items.length + 1) items h hrfl
      (by omega)⟩, ?_⟩
  rw [← wfPlainItems_heap_indep env h]
  exact hwpi

theorem wf_serialize (env : Env) : ∀ f : Nat,
    (∀ h i st, wfNode env f h i = true → nodeOf h i = some st →
      ∃ d, toDictE h i d ∧ strNodup (alKeys d) = true ∧
        serNode env st.cls d = true) ∧
    (∀ h cls l, wfEntries env f h cls l = true →
      ∃ out, serEntriesE h l out ∧ alKeys out = alKeys l ∧
        serNode env cls out = true) ∧
    (∀ h cls name v, wfVal env f h cls name v = true →
      ∃ sv, serValE h v sv ∧ serVal env cls name sv = true) ∧
    (∀ h cls name fs items, wfArr env f h cls name fs items = true →
      fs = (alGet (envProps env cls) name).getD emptyFS →
      (fs.effType == some (BsonTypeDecl.single "array")) = true →
      ∃ out, serItemsE h items out ∧
        serVal env cls name (.vlist out) = true) ∧
    (∀ h ic items, wfObjItems env f h ic items = true →
      ∃ out, serItemsE h items out ∧ serObjList env ic out = true) := by
  intro f
  induction f with
  | zero =>
      refine ⟨?_, ?_, ?_, ?_, ?_⟩
      · intro h i st hwf _
        simp [wfNode] at hwf
      · intro h cls l hwf
        simp [wfEntries] at hwf
      · intro h cls name v hwf
        simp [wfVal] at hwf
      · intro h cls name fs items hwf _ _
        simp [wfArr] at hwf
      · intro h ic items hwf
        simp [wfObjItems] at hwf
  | succ f ih =>
      obtain ⟨ihN, ihE, ihV, ihA, ihO⟩ := ih
      refine ⟨?_, ?_, ?_, ?_, ?_⟩
      · intro h i st hwf hn
        rw [wfNode] at hwf
        rw [hn, Bool.and_eq_true] at hwf
        obtain ⟨hnd, hent⟩ := hwf
        obtain ⟨out, hsE, hkeys, hsn⟩ := ihE h st.cls st.data hent
        refine ⟨out, toDictE_intro h i st out hn hsE, ?_, hsn⟩
        rw [hkeys]
        exact hnd
      · intro h cls l hwf
        induction l with
        | nil => exact ⟨[], serEntriesE_nil h, rfl, rfl⟩
        | cons kv rest ihl =>
            obtain ⟨k, v⟩ := kv
            rw [wfEntries, Bool.and_eq_true, Bool.and_eq_true] at hwf
            obtain ⟨⟨hkres, hv⟩, hrest⟩ := hwf
            obtain ⟨sv, hsvE, hsv⟩ := ihV h cls k v hv
            obtain ⟨out2, hsE2, hkeys2, hsn2⟩ := ihE h cls rest hrest
            refine ⟨(k, sv) :: out2,
              serEntriesE_cons h k v sv rest out2 hsvE hsE2, ?_, ?_⟩
            · rw [alKeys_cons, alKeys_cons, hkeys2]
            · rw [serNode, hkres, hsv, hsn2]
              rfl
      · intro h cls name v hwf
        cases v with
        | vnone => exact ⟨.vnone, ⟨1, rfl⟩, rfl⟩
        | vref j =>
            rw [wfVal] at hwf
            cases hg : h.get j with
            | none => rw [hg] at hwf; simp at hwf
            | some o =>
                rw [hg] at hwf
                cases o with
                | node st2 =>
                    rw [Bool.and_eq_true, Bool.and_eq_true,
                      Bool.and_eq_true] at hwf
                    obtain ⟨⟨⟨heffb, hcfb⟩, henumI⟩, hwfn⟩ := hwf
                    have hnj : nodeOf h j = some st2 := by
                      unfold nodeOf
                      rw [hg]
                    obtain ⟨d, hdE, hndd, hsnd⟩ := ihN h j st2 hwfn hnj
                    refine ⟨.vdict d,
                      serValE_ref_node h j st2 d hg hdE, ?_⟩
                    have hcfeq : envClassFor env cls name =
                        some st2.cls := by simpa using hcfb
                    simp only [serVal, hcfeq]
                    rw [if_pos heffb, henumI, hndd, hsnd]
                    rfl
                | wrap w =>
                    rw [Bool.and_eq_true] at hwf
                    obtain ⟨heffb, hwa⟩ := hwf
                    obtain ⟨out, hsiE, hsvl⟩ :=
                      ihA h cls name _ w.items hwa rfl heffb
                    exact ⟨.vlist out,
                      serValE_wrap h j w out hg hsiE, hsvl⟩
        | vlist xs =>
            rw [wfVal, Bool.and_eq_true] at hwf
            obtain ⟨heffb, hwa⟩ := hwf
            obtain ⟨out, hsiE, hsvl⟩ := ihA h cls name _ xs hwa rfl heffb
            exact ⟨.vlist out, serValE_list h xs out hsiE, hsvl⟩
        | vdict kvs =>
            simp only [wfVal, Bool.and_eq_true] at hwf
            obtain ⟨⟨⟨hrf, hwp⟩, hdi⟩, hvm⟩ := hwf
            exact ⟨.vdict kvs, serValE_refFree h _ hrf,
              serVal_keep_of_inert env h cls name _ hrf hwp hdi hvm
                (fun j hx => nomatch hx) (fun xs hx => nomatch hx)⟩
        | vbool b =>
            simp only [wfVal, Bool.and_eq_true] at hwf
            obtain ⟨⟨⟨hrf, hwp⟩, hdi⟩, hvm⟩ := hwf
            exact ⟨.vbool b, serValE_refFree h _ hrf,
              serVal_keep_of_inert env h cls name _ hrf hwp hdi hvm
                (fun j hx => nomatch hx) (fun xs hx => nomatch hx)⟩
        | vint n0 =>
            simp only [wfVal, Bool.and_eq_true] at hwf
            obtain ⟨⟨⟨hrf, hwp⟩, hdi⟩, hvm⟩ := hwf
            exact ⟨.vint n0, serValE_refFree h _ hrf,
              serVal_keep_of_inert env h cls name _ hrf hwp hdi hvm
                (fun j hx => nomatch hx) (fun xs hx => nomatch hx)⟩
        | vstr s =>
            simp only [wfVal, Bool.and_eq_true] at hwf
            obtain ⟨⟨⟨hrf, hwp⟩, hdi⟩, hvm⟩ := hwf
            exact ⟨.vstr s, serValE_refFree h _ hrf,
              serVal_keep_of_inert env h cls name _ hrf hwp hdi hvm
                (fun j hx => nomatch hx) (fun xs hx => nomatch hx)⟩
        | vfloat n0 =>
            simp only [wfVal, Bool.and_eq_true] at hwf
            obtain ⟨⟨⟨hrf, hwp⟩, hdi⟩, hvm⟩ := hwf
            exact ⟨.vfloat n0, serValE_refFree h _ hrf,
              serVal_keep_of_inert env h cls name _ hrf hwp hdi hvm
                (fun j hx => nomatch hx) (fun xs hx => nomatch hx)⟩
        | vdate d0 =>
            simp only [wfVal, Bool.and_eq_true] at hwf
            obtain ⟨⟨⟨hrf, hwp⟩, hdi⟩, hvm⟩ := hwf
            exact ⟨.vdate d0, serValE_refFree h _ hrf,
              serVal_keep_of_inert env h cls name _ hrf hwp hdi hvm
                (fun j hx => nomatch hx) (fun xs hx => nomatch hx)⟩
        | vobjid t0 =>
            simp only [wfVal, Bool.and_eq_true] at hwf
            obtain ⟨⟨⟨hrf, hwp⟩, hdi⟩, hvm⟩ := hwf
            exact ⟨.vobjid t0, serValE_refFree h _ hrf,
              serVal_keep_of_inert env h cls name _ hrf hwp hdi hvm
                (fun j hx => nomatch hx) (fun xs hx => nomatch hx)⟩
        | vbytes x0 =>
            simp only [wfVal, Bool.and_eq_true] at hwf
            obtain ⟨⟨⟨hrf, hwp⟩, hdi⟩, hvm⟩ := hwf
            exact ⟨.vbytes x0, serValE_refFree h _ hrf,
              serVal_keep_of_inert env h cls name _ hrf hwp hdi hvm
                (fun j hx => nomatch hx) (fun xs hx => nomatch hx)⟩
        | vdec n0 =>
            simp only [wfVal, Bool.and_eq_true] at hwf
            obtain ⟨⟨⟨hrf, hwp⟩, hdi⟩, hvm⟩ := hwf
            exact ⟨.vdec n0, serValE_refFree h _ hrf,
              serVal_keep_of_inert env h cls name _ hrf hwp hdi hvm
                (fun j hx => nomatch hx) (fun xs hx => nomatch hx)⟩
      · intro h cls name fs items hwf hfseq heffb
        rw [wfArr] at hwf
        cases hi : fs.items with
        | some isch =>
            cases hic : envItemCls env cls name with
            | some ic =>
                simp only [hi, hic] at hwf
                by_cases hieffb : (isch.effType ==
                    some (BsonTypeDecl.single "object")) = true
                · rw [if_pos hieffb, Bool.and_eq_true] at hwf
                  obtain ⟨henumI, hwoi⟩ := hwf
                  obtain ⟨out, hsiE, hsol⟩ := ihO h ic items hwoi
                  refine ⟨out, hsiE, ?_⟩
                  simp only [serVal, ← hfseq, hi, hic]
                  rw [heffb, if_pos hieffb, henumI, hsol]
                  rfl
                · rw [if_neg hieffb, Bool.and_eq_true] at hwf
                  obtain ⟨hcoll, hwpi⟩ := hwf
                  obtain ⟨hitemsE, hwpi0⟩ :=
                    wfArr_plain_parts env h cls name fs items hwpi
                  refine ⟨items, hitemsE, ?_⟩
                  simp only [serVal, ← hfseq, hi, hic]
                  rw [heffb, if_neg hieffb, hcoll, hwpi0]
                  rfl
            | none =>
                simp only [hi, hic] at hwf
                obtain ⟨hitemsE, hwpi0⟩ :=
                  wfArr_plain_parts env h cls name fs items hwf
                refine ⟨items, hitemsE, ?_⟩
                simp only [serVal, ← hfseq, hi, hic]
                rw [heffb, hwpi0]
                rfl
        | none =>
            cases hic : envItemCls env cls name with
            | some ic =>
                simp only [hi, hic] at hwf
                obtain ⟨hitemsE, hwpi0⟩ :=
                  wfArr_plain_parts env h cls name fs items hwf
                refine ⟨items, hitemsE, ?_⟩
                simp only [serVal, ← hfseq, hi, hic]
                rw [heffb, hwpi0]
                rfl
            | none =>
                simp only [hi, hic] at hwf
                obtain ⟨hitemsE, hwpi0⟩ :=
                  wfArr_plain_parts env h cls name fs items hwf
                refine ⟨items, hitemsE, ?_⟩
                simp only [serVal, ← hfseq, hi, hic]
                rw [heffb, hwpi0]
                rfl
      · intro h ic items hwf
        cases items with
        | nil => exact ⟨[], serItemsE_nil h, rfl⟩
        | cons item rest =>
            cases item with
            | vref j =>
                rw [wfObjItems, Bool.and_eq_true] at hwf
                obtain ⟨hitem, hrest⟩ := hwf
                obtain ⟨out2, hsE2, hso2⟩ := ihO h ic rest hrest
                cases hnj : nodeOf h j with
                | none =>
                    rw [hnj] at hitem
                    simp at hitem
                | some stj =>
                    simp only [hnj, Bool.and_eq_true] at hitem
                    obtain ⟨hclsb, hwfn⟩ := hitem
                    obtain ⟨d, hdE, hndd, hsnd⟩ := ihN h j stj hwfn hnj
                    refine ⟨.vdict d :: out2,
                      serItemsE_cons_ref h j stj d rest out2
                        (nodeOf_get h j stj hnj) hdE hsE2, ?_⟩
                    have hceq : stj.cls = ic := by simpa using hclsb
                    have hsnd2 : serNode env ic d = true := by
                      rw [← hceq]
                      exact hsnd
                    rw [serObjList, hndd, hsnd2, hso2]
                    rfl
            | vnone => simp [wfObjItems] at hwf
            | vbool b => simp [wfObjItems] at hwf
            | vint n0 => simp [wfObjItems] at hwf
            | vstr s => simp [wfObjItems] at hwf
            | vfloat n0 => simp [wfObjItems] at hwf
            | vdate d0 => simp [wfObjItems] at hwf
            | vobjid t0 => simp [wfObjItems] at hwf
            | vbytes x0 => simp [wfObjItems] at hwf
            | vdec n0 => simp [wfObjItems] at hwf
            | vlist ys => simp [wfObjItems] at hwf
            | vdict kvs => simp [wfObjItems] at hwf

/-- Claim C1: serialization round-trip.  For every well-formed node tree
(the invariant of trees built from valid field assignments), `to_dict`
produces a plain map `d`, and rebuilding an instance of the same class
from `d` with `from_dict` on any heap succeeds and yields a node whose
`to_dict` is again exactly `d` — field presence, array element order and
values preserved, with unset fields absent. -/
theorem mso_c1_roundtrip (env : Env) (f : Nat) (h : Heap) (i : Nat)
    (st : NodeState) (H : Heap)
    (hn : nodeOf h i = some st) (hwf : wfNode env f h i = true) :
    ∃ d, toDictE h i d ∧
      ∃ g h2, from_dict env g H st.cls d = some (h2, .ok H.length) ∧
        toDictE h2 H.length d := by
  obtain ⟨d, hdE, hnd, hsn⟩ := (wf_serialize env f).1 h i st hwf hn
  obtain ⟨g, h2, st2, hinit, _, _, _, hnode2, _, _, hserE2⟩ :=
    (rebuild_cluster env (sizeOf d)).2.2.2 d H H.length st.cls
      (Nat.le_refl _) hnd hsn (Nat.le_refl _)
      (heapAsc_vacuous H.length H (Nat.le_refl _))
  exact ⟨d, hdE, g, h2, hinit,
    toDictE_intro h2 H.length st2 d hnode2 hserE2⟩

/-- Claim C1 witness: a concrete well-formed `Person` tree (scalar,
nested object, object array, plain array) whose serialized map rebuilds
on the empty heap into a tree serializing to the same map. -/
theorem mso_c1_witness :
    nodeOf hC1 0 = some stC1 ∧ wfNode envA 12 hC1 0 = true ∧
    ∃ d, toDictE hC1 0 d ∧
      ∃ g h2, from_dict envA g [] stC1.cls d = some (h2, .ok 0) ∧
        toDictE h2 0 d :=
  ⟨rfl, by decide, mso_c1_roundtrip envA 12 hC1 0 stC1 [] rfl (by decide)⟩
